import Mathlib

/-!
Shallow embedding of the chess rules engine from `src/game/chessEngine.ts`
(types from `src/game/types.ts` and `src/data/pieceData.ts`), together with
proofs about the claims of the specification.

Conventions of the embedding:
* TypeScript `number` coordinates are modelled as `Int` (pawn arithmetic can
  step outside `[0,7]`, and validity checks must see the negative values).
* A board is a list of rows of optional pieces, exactly as the source's
  `Square[][]`.  Reads out of range give `null`/`none`; writes out of range
  are runtime errors in the source and are modelled as no-ops (all claims are
  stated on boards of the declared 8x8 shape, where every write performed by
  the engine is in range).
* TypeScript functions that `throw` are modelled in `Except String` with the
  source's message strings (the source quotes the offending character of a
  bad FEN; the quotes are dropped here, the message text is otherwise kept).
* `copyBoard` returns a structurally fresh deep copy; in a pure value model a
  deep copy is the value itself.
-/

namespace Chess

/-- `Color` from `types.ts`. -/
inductive Color where
  | white
  | black
deriving DecidableEq, Repr

/-- `PieceType` from `pieceData.ts`:
`'king' | 'queen' | 'rook' | 'bishop' | 'knight' | 'pawn'`. -/
inductive PieceType where
  | king
  | queen
  | rook
  | bishop
  | knight
  | pawn
deriving DecidableEq, Repr

/-- `Piece` from `types.ts` (`hasMoved?: boolean`, absent meaning false). -/
structure Piece where
  type : PieceType
  color : Color
  hasMoved : Bool
deriving DecidableEq, Repr

/-- `Square = Piece | null`. -/
abbrev Square := Option Piece

/-- `Board = Square[][]`. -/
abbrev Board := List (List Square)

/-- `Position` from `types.ts`: row 0 = rank 8, col 0 = file a. -/
structure Position where
  row : Int
  col : Int
deriving DecidableEq, Repr

/-- `CastlingRights` from `types.ts`. -/
structure CastlingRights where
  whiteKingSide : Bool
  whiteQueenSide : Bool
  blackKingSide : Bool
  blackQueenSide : Bool
deriving DecidableEq, Repr

/-- `Move` from `types.ts`.  `from` is a Lean keyword, hence `fromPos`/`toPos`. -/
structure Move where
  fromPos : Position
  toPos : Position
  promotion : Option PieceType
  isCastling : Bool
  isEnPassant : Bool
  capturedPiece : Option Piece
deriving DecidableEq, Repr

/-- `GameState` from `types.ts`. -/
structure GameState where
  board : Board
  currentTurn : Color
  castlingRights : CastlingRights
  enPassantTarget : Option Position
  halfMoveClock : Nat
  fullMoveNumber : Nat
  moveHistory : List Move
  isCheck : Bool
  isCheckmate : Bool
  isStalemate : Bool
deriving DecidableEq, Repr

/-- `isValidPosition`: inside the 8x8 board. -/
def isValidPosition (p : Position) : Bool :=
  decide (0 ≤ p.row ∧ p.row < 8 ∧ 0 ≤ p.col ∧ p.col < 8)

/-- `getOpponentColor`. -/
def getOpponentColor (c : Color) : Color :=
  match c with
  | .white => .black
  | .black => .white

/-- Raw array read `board[r][c]` with JavaScript out-of-range reads giving
`undefined`, modelled as `none`. -/
def boardGet (b : Board) (r c : Nat) : Square :=
  (b.getD r []).getD c none

/-- `getPieceAt`. -/
def getPieceAt (b : Board) (p : Position) : Square :=
  if isValidPosition p then boardGet b p.row.toNat p.col.toNat else none

/-- Array write `board[p.row][p.col] = sq`.  In-range writes match the
source; out-of-range writes would crash the source and are no-ops here. -/
def setPiece (b : Board) (p : Position) (sq : Square) : Board :=
  if isValidPosition p then
    b.set p.row.toNat ((b.getD p.row.toNat []).set p.col.toNat sq)
  else b

/-- `copyBoard` (a deep copy; in a pure value model, the value itself). -/
def copyBoard (b : Board) : Board := b

/-- `initializeBoard`: an empty 8x8 grid filled with the standard start. -/
def initializeBoard : Board :=
  let back : Color → List Square := fun c =>
    [some ⟨.rook, c, false⟩, some ⟨.knight, c, false⟩, some ⟨.bishop, c, false⟩,
     some ⟨.queen, c, false⟩, some ⟨.king, c, false⟩, some ⟨.bishop, c, false⟩,
     some ⟨.knight, c, false⟩, some ⟨.rook, c, false⟩]
  let pawns : Color → List Square := fun c =>
    List.replicate 8 (some ⟨.pawn, c, false⟩)
  let empty : List Square := List.replicate 8 none
  [back .black, pawns .black, empty, empty, empty, empty, pawns .white, back .white]

/-- `initializeGameState`. -/
def initializeGameState : GameState where
  board := initializeBoard
  currentTurn := .white
  castlingRights := ⟨true, true, true, true⟩
  enPassantTarget := none
  halfMoveClock := 0
  fullMoveNumber := 1
  moveHistory := []
  isCheck := false
  isCheckmate := false
  isStalemate := false

/-- Vector addition of positions (used for direction stepping). -/
def addPos (p d : Position) : Position := ⟨p.row + d.row, p.col + d.col⟩

/-- `p + i * d`: the i-th square along direction `d` from `p`. -/
def stepN (p d : Position) (i : Nat) : Position :=
  ⟨p.row + (i : Int) * d.row, p.col + (i : Int) * d.col⟩

/-- `ROOK_DIRECTIONS`. -/
def ROOK_DIRECTIONS : List Position :=
  [⟨-1, 0⟩, ⟨1, 0⟩, ⟨0, -1⟩, ⟨0, 1⟩]

/-- `BISHOP_DIRECTIONS`. -/
def BISHOP_DIRECTIONS : List Position :=
  [⟨-1, -1⟩, ⟨-1, 1⟩, ⟨1, -1⟩, ⟨1, 1⟩]

/-- `QUEEN_DIRECTIONS`. -/
def QUEEN_DIRECTIONS : List Position := ROOK_DIRECTIONS ++ BISHOP_DIRECTIONS

/-- `KNIGHT_OFFSETS`. -/
def KNIGHT_OFFSETS : List Position :=
  [⟨-2, -1⟩, ⟨-2, 1⟩, ⟨-1, -2⟩, ⟨-1, 2⟩, ⟨1, -2⟩, ⟨1, 2⟩, ⟨2, -1⟩, ⟨2, 1⟩]

/-- `KING_OFFSETS`. -/
def KING_OFFSETS : List Position :=
  [⟨-1, -1⟩, ⟨-1, 0⟩, ⟨-1, 1⟩, ⟨0, -1⟩, ⟨0, 1⟩, ⟨1, -1⟩, ⟨1, 0⟩, ⟨1, 1⟩]

/-- The inner loop of `getSlidingMoves` for one direction: step up to `fuel`
times from `p` along `d`, collecting empty squares, stopping at the board
edge, including an enemy piece as a capture and stopping at any piece. -/
def slideRay (b : Board) (c : Color) (p d : Position) : Nat → List Position
  | 0 => []
  | n + 1 =>
    let q := addPos p d
    if isValidPosition q then
      match getPieceAt b q with
      | none => q :: slideRay b c q d n
      | some t => if t.color ≠ c then [q] else []
    else []

/-- `getSlidingMoves` (the `for i = 1..7` loop is `slideRay _ _ _ _ 7`). -/
def getSlidingMoves (b : Board) (pos : Position) (piece : Piece)
    (directions : List Position) : List Position :=
  directions.flatMap fun d => slideRay b piece.color pos d 7

/-- `getPawnAttackMoves` (diagonal squares, excluding friendly-occupied). -/
def getPawnAttackMoves (b : Board) (pos : Position) (piece : Piece) :
    List Position :=
  let direction : Int := if piece.color = .white then -1 else 1
  let captureLeft : Position := ⟨pos.row + direction, pos.col - 1⟩
  let captureRight : Position := ⟨pos.row + direction, pos.col + 1⟩
  [captureLeft, captureRight].filter fun capturePos =>
    isValidPosition capturePos &&
      match getPieceAt b capturePos with
      | none => true
      | some target => decide (target.color ≠ piece.color)

/-- `getPawnMoves`. -/
def getPawnMoves (b : Board) (pos : Position) (piece : Piece) : List Position :=
  let direction : Int := if piece.color = .white then -1 else 1
  let startRow : Int := if piece.color = .white then 6 else 1
  let oneForward : Position := ⟨pos.row + direction, pos.col⟩
  let forward :=
    if isValidPosition oneForward && (getPieceAt b oneForward).isNone then
      oneForward ::
        (if pos.row = startRow ∧ ¬piece.hasMoved then
          let twoForward : Position := ⟨pos.row + 2 * direction, pos.col⟩
          if isValidPosition twoForward && (getPieceAt b twoForward).isNone then
            [twoForward]
          else []
        else [])
    else []
  let captureLeft : Position := ⟨pos.row + direction, pos.col - 1⟩
  let captureRight : Position := ⟨pos.row + direction, pos.col + 1⟩
  let captures :=
    [captureLeft, captureRight].filter fun capturePos =>
      isValidPosition capturePos &&
        match getPieceAt b capturePos with
        | none => false
        | some target => decide (target.color ≠ piece.color)
  forward ++ captures

/-- `getKnightMoves`. -/
def getKnightMoves (b : Board) (pos : Position) (piece : Piece) :
    List Position :=
  (KNIGHT_OFFSETS.map (addPos pos)).filter fun newPos =>
    isValidPosition newPos &&
      match getPieceAt b newPos with
      | none => true
      | some target => decide (target.color ≠ piece.color)

/-- `getKingMoves`. -/
def getKingMoves (b : Board) (pos : Position) (piece : Piece) :
    List Position :=
  (KING_OFFSETS.map (addPos pos)).filter fun newPos =>
    isValidPosition newPos &&
      match getPieceAt b newPos with
      | none => true
      | some target => decide (target.color ≠ piece.color)

/-- `getPieceMoves` (pseudo-legal moves, no king-safety filtering). -/
def getPieceMoves (b : Board) (pos : Position) (piece : Piece) :
    List Position :=
  match piece.type with
  | .pawn => getPawnMoves b pos piece
  | .rook => getSlidingMoves b pos piece ROOK_DIRECTIONS
  | .knight => getKnightMoves b pos piece
  | .bishop => getSlidingMoves b pos piece BISHOP_DIRECTIONS
  | .queen => getSlidingMoves b pos piece QUEEN_DIRECTIONS
  | .king => getKingMoves b pos piece

/-- `getPieceAttackMoves`: the attack-only variant (pawns attack only
diagonally). -/
def getPieceAttackMoves (b : Board) (pos : Position) (piece : Piece) :
    List Position :=
  match piece.type with
  | .pawn => getPawnAttackMoves b pos piece
  | _ => getPieceMoves b pos piece

/-- The row-major scan order of the `for row ... for col ...` loops. -/
def scanPositions : List Position :=
  (List.range 8).flatMap fun (r : Nat) =>
    (List.range 8).map fun (c : Nat) => { row := (r : Int), col := (c : Int) }

/-- `isSquareUnderAttack`. -/
def isSquareUnderAttack (b : Board) (pos : Position) (attackerColor : Color) :
    Bool :=
  scanPositions.any fun p =>
    match getPieceAt b p with
    | some piece =>
      decide (piece.color = attackerColor) &&
        (getPieceAttackMoves b p piece).any fun m => decide (m = pos)
    | none => false

/-- Whether `p` holds a king of color `c` (the test of the `isInCheck` scan). -/
def kingAt (b : Board) (c : Color) (p : Position) : Bool :=
  match getPieceAt b p with
  | some pc => decide (pc.type = .king ∧ pc.color = c)
  | none => false

/-- The scan of `isInCheck`: the first king of the given color in row-major
order (the source returns from inside the loop at the first king found). -/
def findKingIn (b : Board) (c : Color) : List Position → Option Position
  | [] => none
  | p :: rest => if kingAt b c p then some p else findKingIn b c rest

/-- `isInCheck`. -/
def isInCheck (b : Board) (color : Color) : Bool :=
  match findKingIn b color scanPositions with
  | some kp => isSquareUnderAttack b kp (getOpponentColor color)
  | none => false

/-- The scratch board of the king-safety filter in `getValidMoves`:
`testBoard[move] = { ...piece, hasMoved: true }; testBoard[from] = null`. -/
def simBoard (b : Board) (piece : Piece) (f m : Position) : Board :=
  setPiece (setPiece b m (some { piece with hasMoved := true })) f none

/-- `getCastlingMoves`. -/
def getCastlingMoves (gameState : GameState) (kingPos : Position) :
    List Position :=
  match getPieceAt gameState.board kingPos with
  | none => []
  | some piece =>
    if piece.type ≠ .king ∨ piece.hasMoved then []
    else
      let color := piece.color
      let row : Int := if color = .white then 7 else 0
      let opponentColor := getOpponentColor color
      if isInCheck gameState.board color then []
      else
        let kingSide :=
          if (color = .white ∧ gameState.castlingRights.whiteKingSide) ∨
              (color = .black ∧ gameState.castlingRights.blackKingSide) then
            match getPieceAt gameState.board ⟨row, 7⟩ with
            | some rook =>
              if rook.type = .rook ∧ rook.color = color ∧ ¬rook.hasMoved ∧
                  (getPieceAt gameState.board ⟨row, 5⟩).isNone ∧
                  (getPieceAt gameState.board ⟨row, 6⟩).isNone ∧
                  ¬isSquareUnderAttack gameState.board ⟨row, 5⟩ opponentColor ∧
                  ¬isSquareUnderAttack gameState.board ⟨row, 6⟩ opponentColor then
                [(⟨row, 6⟩ : Position)]
              else []
            | none => []
          else []
        let queenSide :=
          if (color = .white ∧ gameState.castlingRights.whiteQueenSide) ∨
              (color = .black ∧ gameState.castlingRights.blackQueenSide) then
            match getPieceAt gameState.board ⟨row, 0⟩ with
            | some rook =>
              if rook.type = .rook ∧ rook.color = color ∧ ¬rook.hasMoved ∧
                  (getPieceAt gameState.board ⟨row, 1⟩).isNone ∧
                  (getPieceAt gameState.board ⟨row, 2⟩).isNone ∧
                  (getPieceAt gameState.board ⟨row, 3⟩).isNone ∧
                  ¬isSquareUnderAttack gameState.board ⟨row, 2⟩ opponentColor ∧
                  ¬isSquareUnderAttack gameState.board ⟨row, 3⟩ opponentColor then
                [(⟨row, 2⟩ : Position)]
              else []
            | none => []
          else []
        kingSide ++ queenSide

/-- `getEnPassantMove`. -/
def getEnPassantMove (gameState : GameState) (pawnPos : Position) :
    Option Position :=
  match gameState.enPassantTarget with
  | none => none
  | some ep =>
    match getPieceAt gameState.board pawnPos with
    | none => none
    | some piece =>
      if piece.type ≠ .pawn then none
      else
        let direction : Int := if piece.color = .white then -1 else 1
        if pawnPos.row = ep.row - direction ∧
            (pawnPos.col - ep.col).natAbs = 1 then
          match getPieceAt gameState.board ⟨pawnPos.row, ep.col⟩ with
          | some capturedPiece =>
            if capturedPiece.type = .pawn ∧ capturedPiece.color ≠ piece.color then
              some ep
            else none
          | none => none
        else none

/-- The square of the pawn captured en passant, as computed by the
simulation in `getValidMoves` and by `makeEnPassantMove`:
one square behind the destination in the pawn's direction of travel. -/
def epCapturedPos (color : Color) (dest : Position) : Position :=
  let direction : Int := if color = .white then -1 else 1
  ⟨dest.row - direction, dest.col⟩

/-- `getValidMoves`. -/
def getValidMoves (gameState : GameState) (f : Position) : List Position :=
  match getPieceAt gameState.board f with
  | none => []
  | some piece =>
    if piece.color ≠ gameState.currentTurn then []
    else
      let possibleMoves := getPieceMoves gameState.board f piece
      let validMoves := possibleMoves.filter fun m =>
        ¬isInCheck (simBoard (copyBoard gameState.board) piece f m) piece.color
      let castling :=
        if piece.type = .king ∧ ¬piece.hasMoved then
          (getCastlingMoves gameState f).filter fun m =>
            ¬isInCheck (simBoard (copyBoard gameState.board) piece f m)
              piece.color
        else []
      let enPassant :=
        if piece.type = .pawn ∧ gameState.enPassantTarget.isSome then
          match getEnPassantMove gameState f with
          | some m =>
            let testBoard :=
              setPiece (simBoard (copyBoard gameState.board) piece f m)
                (epCapturedPos piece.color m) none
            if ¬isInCheck testBoard piece.color then [m] else []
          | none => []
        else []
      validMoves ++ castling ++ enPassant

/-- `isValidMove`. -/
def isValidMove (gameState : GameState) (f t : Position) : Bool :=
  match getPieceAt gameState.board f with
  | none => false
  | some piece =>
    if piece.color ≠ gameState.currentTurn then false
    else (getValidMoves gameState f).any fun m => decide (m = t)

/-- `hasAnyValidMoves`. -/
def hasAnyValidMoves (gameState : GameState) (color : Color) : Bool :=
  let perspectiveState := { gameState with currentTurn := color }
  scanPositions.any fun p =>
    match getPieceAt gameState.board p with
    | some piece =>
      decide (piece.color = color) && !(getValidMoves perspectiveState p).isEmpty
    | none => false

/-- `updateGameStatus` (the source mutates the three status flags of a state
whose flags start out false; modelled as a function on states). -/
def updateGameStatus (gameState : GameState) : GameState :=
  let nextTurnColor := gameState.currentTurn
  let check := isInCheck gameState.board nextTurnColor
  let hasValidMoves := hasAnyValidMoves gameState nextTurnColor
  { gameState with
      isCheck := check
      isCheckmate := check ∧ ¬hasValidMoves
      isStalemate := ¬check ∧ ¬hasValidMoves }

/-- `isCheckmate`. -/
def isCheckmate (gameState : GameState) (color : Color) : Bool :=
  if ¬isInCheck gameState.board color then false
  else ¬hasAnyValidMoves gameState color

/-- `isStalemate`. -/
def isStalemate (gameState : GameState) (color : Color) : Bool :=
  if isInCheck gameState.board color then false
  else ¬hasAnyValidMoves gameState color

/-- `makeCastlingMove`. -/
def makeCastlingMove (gameState : GameState) (kingFrom kingTo : Position) :
    Except String GameState :=
  let newBoard := copyBoard gameState.board
  match getPieceAt newBoard kingFrom with
  | none => .error "Invalid castling move"
  | some king =>
    if king.type ≠ .king then .error "Invalid castling move"
    else
      let color := king.color
      let row : Int := if color = .white then 7 else 0
      let rookFrom : Position := if kingTo.col = 6 then ⟨row, 7⟩ else ⟨row, 0⟩
      let rookTo : Position := if kingTo.col = 6 then ⟨row, 5⟩ else ⟨row, 3⟩
      match getPieceAt newBoard rookFrom with
      | none => .error "Invalid castling move"
      | some rook =>
        if rook.type ≠ .rook then .error "Invalid castling move"
        else
          let b1 := setPiece newBoard kingTo (some { king with hasMoved := true })
          let b2 := setPiece b1 kingFrom none
          let b3 := setPiece b2 rookTo (some { rook with hasMoved := true })
          let b4 := setPiece b3 rookFrom none
          let newCastlingRights :=
            if color = .white then
              { gameState.castlingRights with
                  whiteKingSide := false, whiteQueenSide := false }
            else
              { gameState.castlingRights with
                  blackKingSide := false, blackQueenSide := false }
          let move : Move :=
            { fromPos := kingFrom, toPos := kingTo, promotion := none,
              isCastling := true, isEnPassant := false, capturedPiece := none }
          .ok (updateGameStatus
            { board := b4
              currentTurn := if gameState.currentTurn = .white then .black else .white
              castlingRights := newCastlingRights
              enPassantTarget := none
              halfMoveClock := gameState.halfMoveClock + 1
              fullMoveNumber :=
                if gameState.currentTurn = .black then gameState.fullMoveNumber + 1
                else gameState.fullMoveNumber
              moveHistory := gameState.moveHistory ++ [move]
              isCheck := false
              isCheckmate := false
              isStalemate := false })

/-- `makeEnPassantMove`. -/
def makeEnPassantMove (gameState : GameState) (pawnFrom pawnTo : Position) :
    Except String GameState :=
  let newBoard := copyBoard gameState.board
  match getPieceAt newBoard pawnFrom with
  | none => .error "Invalid en passant move"
  | some pawn =>
    if pawn.type ≠ .pawn then .error "Invalid en passant move"
    else
      let capturedPawnPos := epCapturedPos pawn.color pawnTo
      match getPieceAt newBoard capturedPawnPos with
      | none => .error "Invalid en passant move: no opponent pawn to capture"
      | some capturedPawn =>
        if capturedPawn.type ≠ .pawn ∨ capturedPawn.color = pawn.color then
          .error "Invalid en passant move: no opponent pawn to capture"
        else
          let b1 := setPiece newBoard pawnTo (some { pawn with hasMoved := true })
          let b2 := setPiece b1 pawnFrom none
          let b3 := setPiece b2 capturedPawnPos none
          let move : Move :=
            { fromPos := pawnFrom, toPos := pawnTo, promotion := none,
              isCastling := false, isEnPassant := true,
              capturedPiece := some capturedPawn }
          .ok (updateGameStatus
            { board := b3
              currentTurn := if gameState.currentTurn = .white then .black else .white
              castlingRights := gameState.castlingRights
              enPassantTarget := none
              halfMoveClock := 0
              fullMoveNumber :=
                if gameState.currentTurn = .black then gameState.fullMoveNumber + 1
                else gameState.fullMoveNumber
              moveHistory := gameState.moveHistory ++ [move]
              isCheck := false
              isCheckmate := false
              isStalemate := false })

/-- `makeMove`. -/
def makeMove (gameState : GameState) (f t : Position)
    (promotion : Option PieceType) : Except String GameState :=
  if ¬isValidMove gameState f t then .error "Invalid move"
  else
    let newBoard := copyBoard gameState.board
    match getPieceAt newBoard f with
    | none => .error "No piece at source position"
    | some piece =>
      let capturedPiece := getPieceAt newBoard t
      let isCapture := capturedPiece.isSome
      let epDispatch : Bool :=
        match gameState.enPassantTarget with
        | some ep =>
          decide (piece.type = .pawn) && decide (t.row = ep.row) &&
            decide (t.col = ep.col) &&
            (match getPieceAt newBoard ⟨f.row, ep.col⟩ with
             | some cp => decide (cp.type = .pawn) && decide (cp.color ≠ piece.color)
             | none => false)
        | none => false
      if piece.type = .king ∧ (t.col - f.col).natAbs = 2 then
        makeCastlingMove gameState f t
      else if epDispatch then
        makeEnPassantMove gameState f t
      else
        let b1 := setPiece newBoard t (some { piece with hasMoved := true })
        let b2 := setPiece b1 f none
        let b3 :=
          if piece.type = .pawn ∧ (t.row = 0 ∨ t.row = 7) then
            let promotedType := promotion.getD .queen
            setPiece b2 t (some ⟨promotedType, piece.color, true⟩)
          else b2
        let cr := gameState.castlingRights
        let newCastlingRights :=
          if piece.type = .king then
            if piece.color = .white then
              { cr with whiteKingSide := false, whiteQueenSide := false }
            else
              { cr with blackKingSide := false, blackQueenSide := false }
          else if piece.type = .rook then
            if piece.color = .white ∧ f.row = 7 ∧ f.col = 0 then
              { cr with whiteQueenSide := false }
            else if piece.color = .white ∧ f.row = 7 ∧ f.col = 7 then
              { cr with whiteKingSide := false }
            else if piece.color = .black ∧ f.row = 0 ∧ f.col = 0 then
              { cr with blackQueenSide := false }
            else if piece.color = .black ∧ f.row = 0 ∧ f.col = 7 then
              { cr with blackKingSide := false }
            else cr
          else cr
        let newEnPassantTarget : Option Position :=
          if piece.type = .pawn ∧ (t.row - f.row).natAbs = 2 then
            some ⟨(f.row + t.row) / 2, f.col⟩
          else none
        let newHalfMoveClock :=
          if isCapture ∨ piece.type = .pawn then 0 else gameState.halfMoveClock + 1
        let newFullMoveNumber :=
          if gameState.currentTurn = .black then gameState.fullMoveNumber + 1
          else gameState.fullMoveNumber
        let move : Move :=
          { fromPos := f
            toPos := t
            promotion :=
              if piece.type = .pawn ∧ (t.row = 0 ∨ t.row = 7) then
                some (promotion.getD .queen)
              else none
            isCastling :=
              decide (piece.type = .king) && decide ((t.col - f.col).natAbs = 2)
            isEnPassant :=
              match gameState.enPassantTarget with
              | some ep =>
                decide (piece.type = .pawn) && decide (t.row = ep.row) &&
                  decide (t.col = ep.col)
              | none => false
            capturedPiece := capturedPiece }
        .ok (updateGameStatus
          { board := b3
            currentTurn := if gameState.currentTurn = .white then .black else .white
            castlingRights := newCastlingRights
            enPassantTarget := newEnPassantTarget
            halfMoveClock := newHalfMoveClock
            fullMoveNumber := newFullMoveNumber
            moveHistory := gameState.moveHistory ++ [move]
            isCheck := false
            isCheckmate := false
            isStalemate := false })

/-- `PIECE_TO_FEN` as a function. -/
def pieceToFenChar (t : PieceType) (c : Color) : Char :=
  match c, t with
  | .white, .king => 'K'
  | .white, .queen => 'Q'
  | .white, .rook => 'R'
  | .white, .bishop => 'B'
  | .white, .knight => 'N'
  | .white, .pawn => 'P'
  | .black, .king => 'k'
  | .black, .queen => 'q'
  | .black, .rook => 'r'
  | .black, .bishop => 'b'
  | .black, .knight => 'n'
  | .black, .pawn => 'p'

/-- `FEN_TO_PIECE` as a function. -/
def fenCharToPiece (ch : Char) : Option (PieceType × Color) :=
  match ch with
  | 'K' => some (.king, .white)
  | 'Q' => some (.queen, .white)
  | 'R' => some (.rook, .white)
  | 'B' => some (.bishop, .white)
  | 'N' => some (.knight, .white)
  | 'P' => some (.pawn, .white)
  | 'k' => some (.king, .black)
  | 'q' => some (.queen, .black)
  | 'r' => some (.rook, .black)
  | 'b' => some (.bishop, .black)
  | 'n' => some (.knight, .black)
  | 'p' => some (.pawn, .black)
  | _ => none

/-- Digit accumulation for `natDigits`; `fuel` bounds the number of
divisions by 10 (any `fuel > n` is enough). -/
def natDigitsGo : Nat → Nat → List Char → List Char
  | _, 0, acc => acc
  | n, fuel + 1, acc =>
    if n < 10 then Char.ofNat (48 + n) :: acc
    else natDigitsGo (n / 10) fuel (Char.ofNat (48 + n % 10) :: acc)

/-- Decimal digits of a natural number, as JavaScript
`Number.prototype.toString` prints a nonnegative integer. -/
def natDigits (n : Nat) : List Char :=
  natDigitsGo n (n + 1) []

/-- Decimal digits of an integer (JavaScript `toString` on an integer). -/
def intDigits (i : Int) : List Char :=
  if i < 0 then '-' :: natDigits (-i).toNat else natDigits i.toNat

/-- The inner loop of `boardToFen` over one rank, carrying `emptyCount`. -/
def rankToFenChars : List Square → Nat → List Char
  | [], emptyCount => if emptyCount = 0 then [] else natDigits emptyCount
  | sq :: rest, emptyCount =>
    match sq with
    | none => rankToFenChars rest (emptyCount + 1)
    | some piece =>
      (if emptyCount = 0 then [] else natDigits emptyCount) ++
        pieceToFenChar piece.type piece.color :: rankToFenChars rest 0

/-- `boardToFen`, at the character-list level.  The source reads exactly
`board[row][col]` for `row, col` in `0..7`. -/
def boardToFenChars (b : Board) : List Char :=
  List.intercalate ['/']
    ((List.range 8).map fun r =>
      rankToFenChars ((List.range 8).map fun c => boardGet b r c) 0)

/-- `boardToFen`. -/
def boardToFen (b : Board) : String :=
  String.mk (boardToFenChars b)

/-- JavaScript `String.prototype.split` with a single-character separator. -/
def splitOnChar (sep : Char) : List Char → List (List Char)
  | [] => [[]]
  | c :: rest =>
    if c = sep then [] :: splitOnChar sep rest
    else
      match splitOnChar sep rest with
      | [] => [[c]]
      | g :: gs => (c :: g) :: gs

/-- `isStartingPosition` (rows and columns here are the `Nat` loop indices
of `fenToBoard`). -/
def isStartingPosition (t : PieceType) (c : Color) (row col : Nat) : Bool :=
  match c with
  | .white =>
    match t with
    | .pawn => decide (row = 6)
    | .rook => decide (row = 7 ∧ (col = 0 ∨ col = 7))
    | .knight => decide (row = 7 ∧ (col = 1 ∨ col = 6))
    | .bishop => decide (row = 7 ∧ (col = 2 ∨ col = 5))
    | .queen => decide (row = 7 ∧ col = 3)
    | .king => decide (row = 7 ∧ col = 4)
  | .black =>
    match t with
    | .pawn => decide (row = 1)
    | .rook => decide (row = 0 ∧ (col = 0 ∨ col = 7))
    | .knight => decide (row = 0 ∧ (col = 1 ∨ col = 6))
    | .bishop => decide (row = 0 ∧ (col = 2 ∨ col = 5))
    | .queen => decide (row = 0 ∧ col = 3)
    | .king => decide (row = 0 ∧ col = 4)

/-- Whether a character is an empty-run digit of a FEN rank
(the source tests `char >= '1' && char <= '8'`). -/
def isFenDigit (ch : Char) : Bool :=
  decide ('1' ≤ ch ∧ ch ≤ '8')

/-- The per-character loop of `fenToBoard` over one rank: threads the
column counter and the row being filled in. -/
def parseRankGo (row : Nat) : List Char → Nat → List Square →
    Except String (List Square × Nat)
  | [], col, acc => .ok (acc, col)
  | ch :: rest, col, acc =>
    if isFenDigit ch then parseRankGo row rest (col + (ch.toNat - 48)) acc
    else
      match fenCharToPiece ch with
      | none => .error ("Invalid FEN: unknown piece " ++ String.singleton ch)
      | some (t, c) =>
        let hasMoved := !isStartingPosition t c row col
        parseRankGo row rest (col + 1) (acc.set col (some ⟨t, c, hasMoved⟩))

/-- One rank of `fenToBoard`: parse the characters into a fresh row of 8
squares and require the files to sum to exactly 8. -/
def parseRank (row : Nat) (chars : List Char) : Except String (List Square) :=
  match parseRankGo row chars 0 (List.replicate 8 none) with
  | .error e => .error e
  | .ok (acc, col) =>
    if col = 8 then .ok acc
    else .error "Invalid FEN: rank must have exactly 8 squares"

/-- The rank loop of `fenToBoard`. -/
def parseRanks (row : Nat) : List (List Char) → Except String Board
  | [] => .ok []
  | r :: rest =>
    match parseRank row r with
    | .error e => .error e
    | .ok cells =>
      match parseRanks (row + 1) rest with
      | .error e => .error e
      | .ok rows => .ok (cells :: rows)

/-- `fenToBoard`, at the character-list level. -/
def fenToBoardChars (chars : List Char) : Except String Board :=
  let ranks := splitOnChar '/' chars
  if ranks.length ≠ 8 then .error "Invalid FEN: must have 8 ranks"
  else parseRanks 0 ranks

/-- `fenToBoard`. -/
def fenToBoard (fen : String) : Except String Board :=
  fenToBoardChars fen.toList

/-- `squareToPosition` on the characters of an algebraic square such as
`e4` (file letter to column, rank digit to row). -/
def squareToPositionChars (cs : List Char) : Position :=
  let file : Int := ((cs.getD 0 'a').toNat : Int) - 97
  let rank : Int := 8 - (((cs.getD 1 '0').toNat : Int) - 48)
  ⟨rank, file⟩

/-- `squareToPosition`. -/
def squareToPosition (s : String) : Position :=
  squareToPositionChars s.toList

/-- `positionToSquare`, at the character-list level. -/
def positionToSquareChars (p : Position) : List Char :=
  Char.ofNat (97 + p.col).toNat :: intDigits (8 - p.row)

/-- `positionToSquare`. -/
def positionToSquare (p : Position) : String :=
  String.mk (positionToSquareChars p)

/-- The castling-availability field of `gameStateToFen`. -/
def castlingChars (cr : CastlingRights) : List Char :=
  let s :=
    (if cr.whiteKingSide then ['K'] else []) ++
    (if cr.whiteQueenSide then ['Q'] else []) ++
    (if cr.blackKingSide then ['k'] else []) ++
    (if cr.blackQueenSide then ['q'] else [])
  if s.isEmpty then ['-'] else s

/-- `gameStateToFen`, at the character-list level: the six space-joined
FEN fields. -/
def gameStateToFenChars (gameState : GameState) : List Char :=
  List.intercalate [' ']
    [boardToFenChars gameState.board,
     if gameState.currentTurn = .white then ['w'] else ['b'],
     castlingChars gameState.castlingRights,
     (match gameState.enPassantTarget with
      | some ep => positionToSquareChars ep
      | none => ['-']),
     natDigits gameState.halfMoveClock,
     natDigits gameState.fullMoveNumber]

/-- `gameStateToFen`. -/
def gameStateToFen (gameState : GameState) : String :=
  String.mk (gameStateToFenChars gameState)

/-- One pass of `wsSplit`: `cur` is the whitespace-free token read so
far, emitted when whitespace or the end of the string is reached. -/
def wsSplitGo : List Char → List Char → List (List Char)
  | cur, [] => if cur.isEmpty then [] else [cur]
  | cur, c :: rest =>
    if c.isWhitespace then
      if cur.isEmpty then wsSplitGo [] rest
      else cur :: wsSplitGo [] rest
    else wsSplitGo (cur ++ [c]) rest

/-- JavaScript `fen.trim().split(/\s+/)`: the maximal whitespace-free
runs of the string. -/
def wsSplit (l : List Char) : List (List Char) :=
  wsSplitGo [] l

/-- JavaScript `parseInt` on a string of decimal digits (the digit prefix;
inputs outside the engine's own output format are not modelled further). -/
def parseNatChars : List Char → Nat → Nat
  | [], acc => acc
  | c :: rest, acc =>
    if c.isDigit then parseNatChars rest (acc * 10 + (c.toNat - 48)) else acc

/-- `fenToGameState`, at the character-list level. -/
def fenToGameStateChars (chars : List Char) : Except String GameState :=
  let parts := wsSplit chars
  if parts.length < 4 then .error "Invalid FEN: must have at least 4 parts"
  else
    match fenToBoardChars (parts.getD 0 []) with
    | .error e => .error e
    | .ok board =>
      let currentTurn : Color := if parts.getD 1 [] = ['w'] then .white else .black
      let castlingStr := parts.getD 2 []
      let castlingRights : CastlingRights :=
        { whiteKingSide := castlingStr.contains 'K'
          whiteQueenSide := castlingStr.contains 'Q'
          blackKingSide := castlingStr.contains 'k'
          blackQueenSide := castlingStr.contains 'q' }
      let enPassantTarget : Option Position :=
        if parts.getD 3 [] = ['-'] then none
        else some (squareToPositionChars (parts.getD 3 []))
      let halfMoveClock :=
        match parts.getD 4 [] with
        | [] => 0
        | l => parseNatChars l 0
      let fullMoveNumber :=
        match parts.getD 5 [] with
        | [] => 1
        | l => parseNatChars l 0
      .ok (updateGameStatus
        { board := board
          currentTurn := currentTurn
          castlingRights := castlingRights
          enPassantTarget := enPassantTarget
          halfMoveClock := halfMoveClock
          fullMoveNumber := fullMoveNumber
          moveHistory := []
          isCheck := false
          isCheckmate := false
          isStalemate := false })

/-- `fenToGameState`. -/
def fenToGameState (fen : String) : Except String GameState :=
  fenToGameStateChars fen.toList

/-! ## Basic board lemmas -/

/-- A well-formed board: the 8x8 grid shape declared by the data model
(`Board` is "an 8x8 grid of optional Piece"). -/
def WFBoard (b : Board) : Prop :=
  b.length = 8 ∧ ∀ r ∈ b, r.length = 8

theorem isValidPosition_iff {p : Position} :
    isValidPosition p = true ↔ 0 ≤ p.row ∧ p.row < 8 ∧ 0 ≤ p.col ∧ p.col < 8 := by
  simp [isValidPosition]

theorem getPieceAt_not_valid {b : Board} {p : Position}
    (h : ¬isValidPosition p = true) : getPieceAt b p = none := by
  simp [getPieceAt, h]

theorem setPiece_not_valid {b : Board} {p : Position} {v : Square}
    (h : ¬isValidPosition p = true) : setPiece b p v = b := by
  simp [setPiece, h]

theorem getPieceAt_valid {b : Board} {p : Position}
    (h : isValidPosition p = true) :
    getPieceAt b p = boardGet b p.row.toNat p.col.toNat := by
  simp [getPieceAt, h]

/-- Positions agree exactly when their `toNat` images agree, for valid
positions. -/
theorem valid_eq_iff_toNat {p q : Position} (hp : isValidPosition p = true)
    (hq : isValidPosition q = true) :
    p = q ↔ p.row.toNat = q.row.toNat ∧ p.col.toNat = q.col.toNat := by
  rw [isValidPosition_iff] at hp hq
  constructor
  · intro h
    rw [h]
    exact ⟨rfl, rfl⟩
  · rintro ⟨h1, h2⟩
    obtain ⟨a1, a2, a3, a4⟩ := hp
    obtain ⟨b1, b2, b3, b4⟩ := hq
    have hr : p.row = q.row := by omega
    have hc : p.col = q.col := by omega
    cases p
    cases q
    simp only [Position.mk.injEq]
    simp only at hr hc
    exact ⟨hr, hc⟩

/-- The row list that `setPiece` modifies is a member of a well-formed
board, hence has length 8. -/
theorem row_length_of_WF {b : Board} (hwf : WFBoard b) {r : Nat} (hr : r < 8) :
    (b.getD r []).length = 8 := by
  obtain ⟨hlen, hrows⟩ := hwf
  have hr' : r < b.length := by omega
  rw [List.getD_eq_getElem?_getD, List.getElem?_eq_getElem hr']
  exact hrows _ (List.getElem_mem hr')

/-- Characterisation of reads after a write, on a well-formed board. -/
theorem getPieceAt_setPiece {b : Board} (hwf : WFBoard b) {p : Position}
    (hp : isValidPosition p = true) (v : Square) (q : Position) :
    getPieceAt (setPiece b p v) q = if q = p then v else getPieceAt b q := by
  obtain ⟨p1, p2, p3, p4⟩ := isValidPosition_iff.1 hp
  have hprow : p.row.toNat < 8 := by omega
  have hpcol : p.col.toNat < 8 := by omega
  have hblen : b.length = 8 := hwf.1
  by_cases hq : isValidPosition q = true
  · obtain ⟨q1, q2, q3, q4⟩ := isValidPosition_iff.1 hq
    have hqrow : q.row.toNat < 8 := by omega
    have hqcol : q.col.toNat < 8 := by omega
    rw [getPieceAt_valid hq, setPiece, if_pos hp, getPieceAt_valid hq]
    unfold boardGet
    rw [List.getD_eq_getElem?_getD (l := List.set _ _ _), List.getElem?_set]
    by_cases hrow : p.row.toNat = q.row.toNat
    · rw [hrow, if_pos rfl, hblen, if_pos hqrow]
      simp only [Option.getD_some]
      rw [List.getD_eq_getElem?_getD (l := List.set _ _ _), List.getElem?_set]
      by_cases hcol : p.col.toNat = q.col.toNat
      · have hqp : q = p := (valid_eq_iff_toNat hq hp).2 ⟨hrow.symm, hcol.symm⟩
        rw [if_pos hqp]
        rw [hcol, if_pos rfl]
        have hrl : q.col.toNat < (List.getD b q.row.toNat []).length := by
          rw [row_length_of_WF hwf hqrow]
          omega
        rw [if_pos hrl]
        simp
      · have hqp : ¬q = p := by
          intro h
          exact hcol (((valid_eq_iff_toNat hq hp).1 h).2.symm)
        rw [if_neg hqp]
        simp only [if_neg hcol]
        simp only [List.getD_eq_getElem?_getD, hrow]
    · have hqp : ¬q = p := by
        intro h
        exact hrow (((valid_eq_iff_toNat hq hp).1 h).1.symm)
      rw [if_neg hqp]
      simp only [if_neg hrow]
      simp only [List.getD_eq_getElem?_getD]
  · have hqp : ¬q = p := by
      intro h
      rw [h] at hq
      exact hq hp
    rw [if_neg hqp, getPieceAt_not_valid hq, getPieceAt_not_valid hq]

/-- `setPiece` preserves the 8x8 shape. -/
theorem WFBoard_setPiece {b : Board} (hwf : WFBoard b) (p : Position)
    (v : Square) : WFBoard (setPiece b p v) := by
  unfold setPiece
  by_cases hp : isValidPosition p = true
  · rw [if_pos hp]
    refine ⟨by rw [List.length_set]; exact hwf.1, ?_⟩
    intro r hr
    rcases List.mem_or_eq_of_mem_set hr with h | h
    · exact hwf.2 _ h
    · subst h
      rw [List.length_set]
      have hprow : p.row.toNat < 8 := by
        have := isValidPosition_iff.1 hp
        omega
      exact row_length_of_WF hwf hprow
  · rw [if_neg hp]
    exact hwf

/-- Building block for scan membership. -/
theorem mk_mem_scanPositions {r c : Nat} (hr : r < 8) (hc : c < 8) :
    Position.mk (r : Int) (c : Int) ∈ scanPositions := by
  unfold scanPositions
  simp only [List.mem_flatMap, List.mem_map, List.mem_range]
  exact ⟨r, hr, c, hc, rfl⟩

/-- Membership in the row-major scan is exactly validity. -/
theorem mem_scanPositions_iff {p : Position} :
    p ∈ scanPositions ↔ isValidPosition p = true := by
  constructor
  · intro h
    exact (by decide : ∀ q ∈ scanPositions, isValidPosition q = true) p h
  · intro h
    rw [isValidPosition_iff] at h
    obtain ⟨h1, h2, h3, h4⟩ := h
    have hp : p = Position.mk (p.row.toNat : Int) (p.col.toNat : Int) := by
      cases p with
      | mk r c =>
        simp only [Position.mk.injEq]
        simp only at h1 h2 h3 h4
        constructor <;> omega
    rw [hp]
    exact mk_mem_scanPositions (by omega) (by omega)

theorem getOpponentColor_ne (c : Color) : getOpponentColor c ≠ c := by
  cases c <;> decide

theorem ne_getOpponentColor (c : Color) : c ≠ getOpponentColor c := by
  cases c <;> decide

/-- Existential form of `isSquareUnderAttack`. -/
theorem isSquareUnderAttack_iff {b : Board} {pos : Position} {ac : Color} :
    isSquareUnderAttack b pos ac = true ↔
      ∃ p pc, getPieceAt b p = some pc ∧ pc.color = ac ∧
        pos ∈ getPieceAttackMoves b p pc := by
  unfold isSquareUnderAttack
  rw [List.any_eq_true]
  constructor
  · rintro ⟨p, hmem, hpred⟩
    rcases hpc : getPieceAt b p with _ | pc
    · rw [hpc] at hpred
      exact absurd hpred (by simp)
    · rw [hpc] at hpred
      simp only [Bool.and_eq_true, decide_eq_true_eq, List.any_eq_true] at hpred
      obtain ⟨hcolor, m, hm, hmp⟩ := hpred
      exact ⟨p, pc, hpc, hcolor, hmp ▸ hm⟩
  · rintro ⟨p, pc, hpc, hcolor, hmem⟩
    have hvalid : isValidPosition p = true := by
      by_contra h
      rw [getPieceAt_not_valid h] at hpc
      exact Option.noConfusion hpc
    refine ⟨p, mem_scanPositions_iff.2 hvalid, ?_⟩
    rw [hpc]
    simp only [Bool.and_eq_true, decide_eq_true_eq, List.any_eq_true]
    exact ⟨hcolor, pos, hmem, rfl⟩

/-- A piece on the board sits on a valid position. -/
theorem valid_of_getPieceAt_some {b : Board} {p : Position} {pc : Piece}
    (h : getPieceAt b p = some pc) : isValidPosition p = true := by
  by_contra hv
  rw [getPieceAt_not_valid hv] at h
  exact Option.noConfusion h

/-! ## Game status and move-execution projection lemmas -/

theorem updateGameStatus_board (gs : GameState) :
    (updateGameStatus gs).board = gs.board := rfl

theorem updateGameStatus_enPassantTarget (gs : GameState) :
    (updateGameStatus gs).enPassantTarget = gs.enPassantTarget := rfl

theorem updateGameStatus_currentTurn (gs : GameState) :
    (updateGameStatus gs).currentTurn = gs.currentTurn := rfl

/-- If no scan square holds a king of the color, the king search is empty. -/
theorem findKingIn_eq_none {b : Board} {c : Color} {l : List Position}
    (h : ∀ p ∈ l, kingAt b c p = false) : findKingIn b c l = none := by
  induction l with
  | nil => rfl
  | cons p rest ih =>
    unfold findKingIn
    rw [h p (List.mem_cons_self _ _)]
    exact ih fun q hq => h q (List.mem_cons_of_mem _ hq)

/-- The king search returns a king of the right color, from the scan list. -/
theorem findKingIn_eq_some {b : Board} {c : Color} {l : List Position}
    {k : Position} (h : findKingIn b c l = some k) :
    kingAt b c k = true ∧ k ∈ l := by
  induction l with
  | nil => exact Option.noConfusion h
  | cons p rest ih =>
    unfold findKingIn at h
    by_cases hp : kingAt b c p = true
    · rw [if_pos hp] at h
      cases h
      exact ⟨hp, List.mem_cons_self _ _⟩
    · rw [if_neg hp] at h
      obtain ⟨h1, h2⟩ := ih h
      exact ⟨h1, List.mem_cons_of_mem _ h2⟩

/-!
### Claim C9 — missing-king totality

`isInCheck` scans the board for the first king of the given color and
returns false when none exists; `isCheckmate` short-circuits through
`isInCheck`.
-/

/-- C9: on a board with no king of color `c` (no scan square holds one),
`isInCheck` returns `false`, and `isCheckmate` returns `false` on every
game state carrying such a board.  (The engine stays total on degenerate
boards rather than failing.) -/
theorem C9_missing_king_totality (b : Board) (c : Color)
    (hnk : ∀ p ∈ scanPositions, kingAt b c p = false) :
    isInCheck b c = false ∧
      ∀ s : GameState, s.board = b → isCheckmate s c = false := by
  have hfk : findKingIn b c scanPositions = none := findKingIn_eq_none hnk
  have hchk : isInCheck b c = false := by
    unfold isInCheck
    rw [hfk]
  refine ⟨hchk, ?_⟩
  intro s hs
  unfold isCheckmate
  rw [hs, hchk]
  simp

/-- Witness for C9 at the empty board. -/
theorem C9_missing_king_totality_witness :
    (∀ p ∈ scanPositions,
        kingAt (List.replicate 8 (List.replicate 8 (none : Square)))
          Color.white p = false) ∧
      isInCheck (List.replicate 8 (List.replicate 8 (none : Square)))
          Color.white = false := by
  constructor
  · decide
  · exact (C9_missing_king_totality _ _ (by decide)).1

/-!
### Claim C8 — the attack-only pawn generator

The claim states the generator returns the on-board forward diagonals
irrespective of the occupant's color.  The source excludes a diagonal
square occupied by a piece of the pawn's own color, so the claim fails;
the corrected statement filters out friendly-occupied squares.
-/

/-- A small board refuting C8 as stated: a white pawn on e4 with a white
knight on d5.  The on-board forward diagonal d5 is not returned by the
attack-only generator, because its occupant has the pawn's own color. -/
def c8Board : Board :=
  [List.replicate 8 none, List.replicate 8 none, List.replicate 8 none,
   [none, none, none, some ⟨.knight, .white, true⟩, none, none, none, none],
   [none, none, none, none, some ⟨.pawn, .white, true⟩, none, none, none],
   List.replicate 8 none, List.replicate 8 none, List.replicate 8 none]

/-- C8 counterexample: `d5 = ⟨3,3⟩` is an on-board forward diagonal of the
white pawn on `e4 = ⟨4,4⟩`, yet the attack-only generator omits it because
a friendly piece occupies it; only `f5 = ⟨3,5⟩` is returned. -/
theorem C8_counterexample :
    getPawnAttackMoves c8Board ⟨4, 4⟩ ⟨.pawn, .white, true⟩ =
        [(⟨3, 5⟩ : Position)] ∧
      isValidPosition ⟨3, 3⟩ = true ∧
      (⟨3, 3⟩ : Position) =
        ⟨(4 : Int) + (if (Color.white : Color) = .white then (-1 : Int) else 1),
          (4 : Int) - 1⟩ ∧
      (⟨3, 3⟩ : Position) ∉
        getPawnAttackMoves c8Board ⟨4, 4⟩ ⟨.pawn, .white, true⟩ := by
  refine ⟨by decide, by decide, by decide, by decide⟩

/-- C8 (amended): the attack-only pawn generator returns exactly the
on-board forward-diagonal squares that are not occupied by a piece of the
pawn's own color, regardless of any other occupancy. -/
theorem C8_pawn_attack_only (b : Board) (pos : Position) (piece : Piece)
    (q : Position) :
    q ∈ getPawnAttackMoves b pos piece ↔
      ((q = ⟨pos.row + (if piece.color = .white then (-1 : Int) else 1),
            pos.col - 1⟩ ∨
        q = ⟨pos.row + (if piece.color = .white then (-1 : Int) else 1),
            pos.col + 1⟩) ∧
        isValidPosition q = true ∧
        ∀ tp, getPieceAt b q = some tp → tp.color ≠ piece.color) := by
  unfold getPawnAttackMoves
  simp only [List.mem_filter, List.mem_cons, List.mem_singleton,
    List.not_mem_nil, or_false, Bool.and_eq_true]
  constructor
  · rintro ⟨hq, hv, hocc⟩
    refine ⟨hq, hv, ?_⟩
    intro tp htp
    rw [htp] at hocc
    exact of_decide_eq_true hocc
  · rintro ⟨hq, hv, hocc⟩
    refine ⟨hq, hv, ?_⟩
    cases htp : getPieceAt b q with
    | none => rfl
    | some tp => exact decide_eq_true (hocc tp htp)

/-- Witness for C8 (amended) at the counterexample board: f5 satisfies the
characterisation, hence is generated. -/
theorem C8_pawn_attack_only_witness :
    (⟨3, 5⟩ : Position) ∈
      getPawnAttackMoves c8Board ⟨4, 4⟩ ⟨.pawn, .white, true⟩ :=
  (C8_pawn_attack_only c8Board ⟨4, 4⟩ ⟨.pawn, .white, true⟩ ⟨3, 5⟩).2
    (by refine ⟨Or.inr (by decide), by decide, ?_⟩
        intro tp htp
        rw [show getPieceAt c8Board ⟨3, 5⟩ = none from by decide] at htp
        exact Option.noConfusion htp)

/-! ## Dissecting `getValidMoves` and `makeMove` -/

/-- `isValidMove` is the membership test of `getValidMoves`. -/
theorem isValidMove_eq_any (s : GameState) (f t : Position) :
    isValidMove s f t = ((getValidMoves s f).any fun m => decide (m = t)) := by
  unfold isValidMove getValidMoves
  cases getPieceAt s.board f with
  | none => rfl
  | some pc =>
    dsimp only
    by_cases hc : pc.color ≠ s.currentTurn
    · rw [if_pos hc, if_pos hc]
      rfl
    · rw [if_neg hc, if_neg hc]

/-- `isValidMove` agrees with membership in `getValidMoves`. -/
theorem isValidMove_iff_mem {s : GameState} {f t : Position} :
    isValidMove s f t = true ↔ t ∈ getValidMoves s f := by
  rw [isValidMove_eq_any, List.any_eq_true]
  constructor
  · rintro ⟨m, hm, hmt⟩
    rwa [of_decide_eq_true hmt] at hm
  · intro hm
    exact ⟨t, hm, by simp⟩

/-- A member of `getValidMoves` implies a piece of the side to move sits
on the source square. -/
theorem mem_getValidMoves_piece {s : GameState} {f t : Position}
    (h : t ∈ getValidMoves s f) :
    ∃ pc, getPieceAt s.board f = some pc ∧ pc.color = s.currentTurn := by
  unfold getValidMoves at h
  cases hpc : getPieceAt s.board f with
  | none =>
    rw [hpc] at h
    exact absurd h (List.not_mem_nil _)
  | some pc =>
    rw [hpc] at h
    dsimp only at h
    by_cases hc : pc.color ≠ s.currentTurn
    · rw [if_pos hc] at h
      exact absurd h (List.not_mem_nil _)
    · rw [if_neg hc] at h
      exact ⟨pc, rfl, not_not.1 hc⟩

/-- Decomposition of a valid move into the block of `getValidMoves` that
produced it, each with its own passed king-safety simulation. -/
theorem mem_getValidMoves_cases {s : GameState} {f t : Position} {pc : Piece}
    (hpc : getPieceAt s.board f = some pc)
    (h : t ∈ getValidMoves s f) :
    (t ∈ getPieceMoves s.board f pc ∧
        isInCheck (simBoard s.board pc f t) pc.color = false) ∨
    (pc.type = .king ∧ pc.hasMoved = false ∧ t ∈ getCastlingMoves s f ∧
        isInCheck (simBoard s.board pc f t) pc.color = false) ∨
    (pc.type = .pawn ∧ getEnPassantMove s f = some t ∧
        isInCheck
          (setPiece (simBoard s.board pc f t) (epCapturedPos pc.color t) none)
          pc.color = false) := by
  unfold getValidMoves at h
  rw [hpc] at h
  dsimp only at h
  by_cases hc : pc.color ≠ s.currentTurn
  · rw [if_pos hc] at h
    exact absurd h (List.not_mem_nil _)
  rw [if_neg hc] at h
  simp only [copyBoard] at h
  rw [List.mem_append, List.mem_append] at h
  rcases h with (h | h) | h
  · rw [List.mem_filter] at h
    exact Or.inl ⟨h.1, by simpa using h.2⟩
  · by_cases hk : pc.type = .king ∧ ¬pc.hasMoved = true
    · rw [if_pos hk] at h
      rw [List.mem_filter] at h
      exact Or.inr (Or.inl ⟨hk.1, by simpa using hk.2, h.1, by simpa using h.2⟩)
    · rw [if_neg hk] at h
      exact absurd h (List.not_mem_nil _)
  · by_cases hp : pc.type = .pawn ∧ s.enPassantTarget.isSome = true
    · rw [if_pos hp] at h
      cases hep : getEnPassantMove s f with
      | none =>
        rw [hep] at h
        exact absurd h (List.not_mem_nil _)
      | some m =>
        rw [hep] at h
        dsimp only at h
        by_cases hchk :
            ¬isInCheck
              (setPiece (simBoard s.board pc f m) (epCapturedPos pc.color m)
                none) pc.color = true
        · rw [if_pos hchk] at h
          rw [List.mem_singleton] at h
          subst h
          exact Or.inr (Or.inr ⟨hp.1, rfl, by simpa using hchk⟩)
        · rw [if_neg hchk] at h
          exact absurd h (List.not_mem_nil _)
    · rw [if_neg hp] at h
      exact absurd h (List.not_mem_nil _)

/-- The shape of pseudo-legal pawn moves: straight pushes stay on the
file, captures move one rank diagonally. -/
theorem getPawnMoves_shape {b : Board} {pos : Position} {pc : Piece}
    {t : Position} (h : t ∈ getPawnMoves b pos pc) :
    (t.col = pos.col ∧
      (t.row = pos.row + (if pc.color = .white then (-1 : Int) else 1) ∨
       t.row = pos.row + 2 * (if pc.color = .white then (-1 : Int) else 1))) ∨
    (t.row = pos.row + (if pc.color = .white then (-1 : Int) else 1) ∧
      (t.col = pos.col - 1 ∨ t.col = pos.col + 1)) := by
  unfold getPawnMoves at h
  rw [List.mem_append] at h
  rcases h with h | h
  · by_cases hfwd :
        (isValidPosition ⟨pos.row + (if pc.color = .white then (-1 : Int) else 1),
            pos.col⟩ &&
          (getPieceAt b ⟨pos.row + (if pc.color = .white then (-1 : Int) else 1),
            pos.col⟩).isNone) = true
    · rw [if_pos hfwd] at h
      rw [List.mem_cons] at h
      rcases h with h | h
      · exact Or.inl ⟨by rw [h], Or.inl (by rw [h])⟩
      · by_cases hstart :
            pos.row = (if pc.color = .white then (6 : Int) else 1) ∧
              ¬pc.hasMoved = true
        · rw [if_pos hstart] at h
          by_cases htwo :
              (isValidPosition
                  ⟨pos.row + 2 * (if pc.color = .white then (-1 : Int) else 1),
                    pos.col⟩ &&
                (getPieceAt b
                  ⟨pos.row + 2 * (if pc.color = .white then (-1 : Int) else 1),
                    pos.col⟩).isNone) = true
          · rw [if_pos htwo] at h
            rw [List.mem_singleton] at h
            exact Or.inl ⟨by rw [h], Or.inr (by rw [h])⟩
          · rw [if_neg htwo] at h
            exact absurd h (List.not_mem_nil _)
        · rw [if_neg hstart] at h
          exact absurd h (List.not_mem_nil _)
    · rw [if_neg hfwd] at h
      exact absurd h (List.not_mem_nil _)
  · rw [List.mem_filter] at h
    obtain ⟨hmem, hocc⟩ := h
    rw [List.mem_cons, List.mem_singleton] at hmem
    rcases hmem with h1 | h1
    · exact Or.inr ⟨by rw [h1], Or.inl (by rw [h1])⟩
    · exact Or.inr ⟨by rw [h1], Or.inr (by rw [h1])⟩

/-- The structure of `getEnPassantMove`: the returned destination is the
en-passant target, adjacent diagonally in front of the pawn, with an
enemy pawn beside the mover. -/
theorem getEnPassantMove_spec {s : GameState} {f : Position} {m : Position}
    (h : getEnPassantMove s f = some m) :
    s.enPassantTarget = some m ∧
      (∃ pc, getPieceAt s.board f = some pc ∧ pc.type = .pawn ∧
        f.row = m.row - (if pc.color = .white then (-1 : Int) else 1) ∧
        (f.col - m.col).natAbs = 1 ∧
        ∃ cp, getPieceAt s.board ⟨f.row, m.col⟩ = some cp ∧
          cp.type = .pawn ∧ cp.color ≠ pc.color) := by
  unfold getEnPassantMove at h
  cases hep : s.enPassantTarget with
  | none =>
    rw [hep] at h
    exact Option.noConfusion h
  | some ep =>
    rw [hep] at h
    dsimp only at h
    cases hpc : getPieceAt s.board f with
    | none =>
      rw [hpc] at h
      exact Option.noConfusion h
    | some pc =>
      rw [hpc] at h
      dsimp only at h
      by_cases ht : pc.type ≠ .pawn
      · rw [if_pos ht] at h
        exact Option.noConfusion h
      rw [if_neg ht] at h
      by_cases hadj :
          f.row = ep.row - (if pc.color = .white then (-1 : Int) else 1) ∧
            (f.col - ep.col).natAbs = 1
      · rw [if_pos hadj] at h
        cases hcp : getPieceAt s.board ⟨f.row, ep.col⟩ with
        | none =>
          rw [hcp] at h
          exact Option.noConfusion h
        | some cp =>
          rw [hcp] at h
          dsimp only at h
          by_cases hcpt : cp.type = .pawn ∧ cp.color ≠ pc.color
          · rw [if_pos hcpt] at h
            cases h
            exact ⟨rfl, pc, rfl, not_not.1 ht, hadj.1, hadj.2,
              cp, hcp, hcpt.1, hcpt.2⟩
          · rw [if_neg hcpt] at h
            exact Option.noConfusion h
      · rw [if_neg hadj] at h
        exact Option.noConfusion h

/-- The back rank of a color (`row` in `getCastlingMoves`). -/
def castleRow (c : Color) : Int := if c = .white then 7 else 0

/-- The conditions the source checks before offering kingside castling. -/
def kingsideCastleConds (s : GameState) (c : Color) : Prop :=
  ((c = .white ∧ s.castlingRights.whiteKingSide = true) ∨
    (c = .black ∧ s.castlingRights.blackKingSide = true)) ∧
  (∃ rook, getPieceAt s.board ⟨castleRow c, 7⟩ = some rook ∧
    rook.type = .rook ∧ rook.color = c ∧ rook.hasMoved = false) ∧
  getPieceAt s.board ⟨castleRow c, 5⟩ = none ∧
  getPieceAt s.board ⟨castleRow c, 6⟩ = none ∧
  isInCheck s.board c = false ∧
  isSquareUnderAttack s.board ⟨castleRow c, 5⟩ (getOpponentColor c) = false ∧
  isSquareUnderAttack s.board ⟨castleRow c, 6⟩ (getOpponentColor c) = false

/-- The conditions the source checks before offering queenside castling. -/
def queensideCastleConds (s : GameState) (c : Color) : Prop :=
  ((c = .white ∧ s.castlingRights.whiteQueenSide = true) ∨
    (c = .black ∧ s.castlingRights.blackQueenSide = true)) ∧
  (∃ rook, getPieceAt s.board ⟨castleRow c, 0⟩ = some rook ∧
    rook.type = .rook ∧ rook.color = c ∧ rook.hasMoved = false) ∧
  getPieceAt s.board ⟨castleRow c, 1⟩ = none ∧
  getPieceAt s.board ⟨castleRow c, 2⟩ = none ∧
  getPieceAt s.board ⟨castleRow c, 3⟩ = none ∧
  isInCheck s.board c = false ∧
  isSquareUnderAttack s.board ⟨castleRow c, 2⟩ (getOpponentColor c) = false ∧
  isSquareUnderAttack s.board ⟨castleRow c, 3⟩ (getOpponentColor c) = false

/-- Full characterisation of `getCastlingMoves`. -/
theorem getCastlingMoves_spec {s : GameState} {kp : Position} {m : Position} :
    m ∈ getCastlingMoves s kp ↔
      ∃ pc, getPieceAt s.board kp = some pc ∧ pc.type = .king ∧
        pc.hasMoved = false ∧
        ((m = ⟨castleRow pc.color, 6⟩ ∧ kingsideCastleConds s pc.color) ∨
         (m = ⟨castleRow pc.color, 2⟩ ∧ queensideCastleConds s pc.color)) := by
  constructor
  · intro h
    unfold getCastlingMoves at h
    cases hpc : getPieceAt s.board kp with
    | none =>
      rw [hpc] at h
      exact absurd h (List.not_mem_nil _)
    | some pc =>
      rw [hpc] at h
      dsimp only at h
      by_cases hkm : pc.type ≠ .king ∨ pc.hasMoved = true
      · rw [if_pos hkm] at h
        exact absurd h (List.not_mem_nil _)
      rw [if_neg hkm] at h
      push_neg at hkm
      by_cases hchk : isInCheck s.board pc.color = true
      · rw [if_pos hchk] at h
        exact absurd h (List.not_mem_nil _)
      rw [if_neg hchk] at h
      refine ⟨pc, rfl, hkm.1, by simpa using hkm.2, ?_⟩
      rw [List.mem_append] at h
      have hrow : (if pc.color = .white then (7 : Int) else 0) = castleRow pc.color := rfl
      rcases h with h | h
      · by_cases hrt : (pc.color = .white ∧ s.castlingRights.whiteKingSide = true) ∨
            (pc.color = .black ∧ s.castlingRights.blackKingSide = true)
        · rw [if_pos hrt] at h
          cases hrk : getPieceAt s.board ⟨if pc.color = .white then 7 else 0, 7⟩ with
          | none =>
            rw [hrk] at h
            exact absurd h (List.not_mem_nil _)
          | some rook =>
            rw [hrk] at h
            dsimp only at h
            by_cases hcond : rook.type = .rook ∧ rook.color = pc.color ∧
                ¬rook.hasMoved = true ∧
                (getPieceAt s.board ⟨if pc.color = .white then 7 else 0, 5⟩).isNone = true ∧
                (getPieceAt s.board ⟨if pc.color = .white then 7 else 0, 6⟩).isNone = true ∧
                ¬isSquareUnderAttack s.board ⟨if pc.color = .white then 7 else 0, 5⟩
                  (getOpponentColor pc.color) = true ∧
                ¬isSquareUnderAttack s.board ⟨if pc.color = .white then 7 else 0, 6⟩
                  (getOpponentColor pc.color) = true
            · rw [if_pos hcond] at h
              rw [List.mem_singleton] at h
              obtain ⟨c1, c2, c3, c4, c5, c6, c7⟩ := hcond
              rw [hrow] at h hrk c4 c5 c6 c7
              refine Or.inl ⟨h, hrt, ⟨rook, hrk, c1, c2, by simpa using c3⟩,
                by simpa using c4, by simpa using c5, by simpa using hchk,
                by simpa using c6, by simpa using c7⟩
            · rw [if_neg hcond] at h
              exact absurd h (List.not_mem_nil _)
        · rw [if_neg hrt] at h
          exact absurd h (List.not_mem_nil _)
      · by_cases hrt : (pc.color = .white ∧ s.castlingRights.whiteQueenSide = true) ∨
            (pc.color = .black ∧ s.castlingRights.blackQueenSide = true)
        · rw [if_pos hrt] at h
          cases hrk : getPieceAt s.board ⟨if pc.color = .white then 7 else 0, 0⟩ with
          | none =>
            rw [hrk] at h
            exact absurd h (List.not_mem_nil _)
          | some rook =>
            rw [hrk] at h
            dsimp only at h
            by_cases hcond : rook.type = .rook ∧ rook.color = pc.color ∧
                ¬rook.hasMoved = true ∧
                (getPieceAt s.board ⟨if pc.color = .white then 7 else 0, 1⟩).isNone = true ∧
                (getPieceAt s.board ⟨if pc.color = .white then 7 else 0, 2⟩).isNone = true ∧
                (getPieceAt s.board ⟨if pc.color = .white then 7 else 0, 3⟩).isNone = true ∧
                ¬isSquareUnderAttack s.board ⟨if pc.color = .white then 7 else 0, 2⟩
                  (getOpponentColor pc.color) = true ∧
                ¬isSquareUnderAttack s.board ⟨if pc.color = .white then 7 else 0, 3⟩
                  (getOpponentColor pc.color) = true
            · rw [if_pos hcond] at h
              rw [List.mem_singleton] at h
              obtain ⟨c1, c2, c3, c4, c5, c6, c7, c8⟩ := hcond
              rw [hrow] at h hrk c4 c5 c6 c7 c8
              refine Or.inr ⟨h, hrt, ⟨rook, hrk, c1, c2, by simpa using c3⟩,
                by simpa using c4, by simpa using c5, by simpa using c6,
                by simpa using hchk, by simpa using c7, by simpa using c8⟩
            · rw [if_neg hcond] at h
              exact absurd h (List.not_mem_nil _)
        · rw [if_neg hrt] at h
          exact absurd h (List.not_mem_nil _)
  · rintro ⟨pc', hpc', hking, hmoved, hside⟩
    unfold getCastlingMoves
    rw [hpc']
    dsimp only
    have hkm : ¬(pc'.type ≠ .king ∨ pc'.hasMoved = true) := by
      rw [hking, hmoved]
      simp
    rw [if_neg hkm]
    have hchk : isInCheck s.board pc'.color = false := by
      rcases hside with ⟨_, h⟩ | ⟨_, h⟩
      · exact h.2.2.2.2.1
      · exact h.2.2.2.2.2.1
    rw [if_neg (by simp [hchk])]
    rw [List.mem_append]
    have hrow : (if pc'.color = .white then (7 : Int) else 0) = castleRow pc'.color := rfl
    rcases hside with ⟨hm, hrt, ⟨rook, hrk, c1, c2, c3⟩, c4, c5, _, c6, c7⟩ |
      ⟨hm, hrt, ⟨rook, hrk, c1, c2, c3⟩, c4, c5, c5', _, c6, c7⟩
    · refine Or.inl ?_
      rw [if_pos hrt, hrow, hrk]
      dsimp only
      rw [if_pos ⟨c1, c2, by simp [c3], by simp [c4], by simp [c5],
        by simp [c6], by simp [c7]⟩]
      rw [hm]
      exact List.mem_singleton.2 rfl
    · refine Or.inr ?_
      rw [if_pos hrt, hrow, hrk]
      dsimp only
      rw [if_pos ⟨c1, c2, by simp [c3], by simp [c4], by simp [c5],
        by simp [c5'], by simp [c6], by simp [c7]⟩]
      rw [hm]
      exact List.mem_singleton.2 rfl

/-- King moves stay within one rank and one file of the source square. -/
theorem getKingMoves_shape {b : Board} {pos : Position} {pc : Piece}
    {t : Position} (h : t ∈ getKingMoves b pos pc) :
    (t.row - pos.row).natAbs ≤ 1 ∧ (t.col - pos.col).natAbs ≤ 1 := by
  unfold getKingMoves at h
  rw [List.mem_filter] at h
  obtain ⟨hm, _⟩ := h
  rw [List.mem_map] at hm
  obtain ⟨o, ho, rfl⟩ := hm
  simp only [KING_OFFSETS, List.mem_cons, List.mem_singleton,
    List.not_mem_nil, or_false] at ho
  rcases ho with rfl | rfl | rfl | rfl | rfl | rfl | rfl | rfl <;>
    simp [addPos]

/-- The rook's source corner in `makeCastlingMove`. -/
def castleRookFrom (c : Color) (kingTo : Position) : Position :=
  if kingTo.col = 6 then ⟨castleRow c, 7⟩ else ⟨castleRow c, 0⟩

/-- The rook's destination in `makeCastlingMove`. -/
def castleRookTo (c : Color) (kingTo : Position) : Position :=
  if kingTo.col = 6 then ⟨castleRow c, 5⟩ else ⟨castleRow c, 3⟩

/-- Inversion of a successful `makeCastlingMove`: the pieces it reads and
the state it returns. -/
theorem makeCastlingMove_ok_inv {s : GameState} {a b' : Position}
    {s' : GameState} (h : makeCastlingMove s a b' = .ok s') :
    ∃ king, getPieceAt s.board a = some king ∧ king.type = .king ∧
      ∃ rook, getPieceAt s.board (castleRookFrom king.color b') = some rook ∧
        rook.type = .rook ∧
        s'.board =
          setPiece
            (setPiece
              (setPiece (setPiece s.board b' (some { king with hasMoved := true }))
                a none)
              (castleRookTo king.color b') (some { rook with hasMoved := true }))
            (castleRookFrom king.color b') none ∧
        s'.enPassantTarget = none := by
  unfold makeCastlingMove at h
  dsimp only at h
  cases hk : getPieceAt (copyBoard s.board) a with
  | none =>
    rw [hk] at h
    exact Except.noConfusion h
  | some king =>
    rw [hk] at h
    dsimp only at h
    by_cases hkt : king.type ≠ .king
    · rw [if_pos hkt] at h
      exact Except.noConfusion h
    rw [if_neg hkt] at h
    rw [show (if b'.col = 6 then
          ({ row := if king.color = Color.white then 7 else 0, col := 7 } : Position)
        else { row := if king.color = Color.white then 7 else 0, col := 0 }) =
        castleRookFrom king.color b' from rfl] at h
    rw [show (if b'.col = 6 then
          ({ row := if king.color = Color.white then 7 else 0, col := 5 } : Position)
        else { row := if king.color = Color.white then 7 else 0, col := 3 }) =
        castleRookTo king.color b' from rfl] at h
    cases hr : getPieceAt (copyBoard s.board) (castleRookFrom king.color b') with
    | none =>
      rw [hr] at h
      exact Except.noConfusion h
    | some rook =>
      rw [hr] at h
      dsimp only at h
      by_cases hrt : rook.type ≠ .rook
      · rw [if_pos hrt] at h
        exact Except.noConfusion h
      rw [if_neg hrt] at h
      refine ⟨king, hk, not_not.1 hkt, rook, hr, not_not.1 hrt, ?_, ?_⟩
      · cases h
        rfl
      · cases h
        rfl

/-- Inversion of a successful `makeEnPassantMove`. -/
theorem makeEnPassantMove_ok_inv {s : GameState} {a b' : Position}
    {s' : GameState} (h : makeEnPassantMove s a b' = .ok s') :
    ∃ pawn, getPieceAt s.board a = some pawn ∧ pawn.type = .pawn ∧
      ∃ cap, getPieceAt s.board (epCapturedPos pawn.color b') = some cap ∧
        cap.type = .pawn ∧ cap.color ≠ pawn.color ∧
        s'.board =
          setPiece
            (setPiece (setPiece s.board b' (some { pawn with hasMoved := true }))
              a none)
            (epCapturedPos pawn.color b') none ∧
        s'.enPassantTarget = none := by
  unfold makeEnPassantMove at h
  dsimp only at h
  cases hk : getPieceAt (copyBoard s.board) a with
  | none =>
    rw [hk] at h
    exact Except.noConfusion h
  | some pawn =>
    rw [hk] at h
    dsimp only at h
    by_cases hkt : pawn.type ≠ .pawn
    · rw [if_pos hkt] at h
      exact Except.noConfusion h
    rw [if_neg hkt] at h
    cases hc : getPieceAt (copyBoard s.board) (epCapturedPos pawn.color b') with
    | none =>
      rw [hc] at h
      exact Except.noConfusion h
    | some cap =>
      rw [hc] at h
      dsimp only at h
      by_cases hct : cap.type ≠ .pawn ∨ cap.color = pawn.color
      · rw [if_pos hct] at h
        exact Except.noConfusion h
      rw [if_neg hct] at h
      push_neg at hct
      refine ⟨pawn, hk, not_not.1 hkt, cap, hc, hct.1, hct.2, ?_, ?_⟩
      · cases h
        rfl
      · cases h
        rfl

/-- `makeCastlingMove` succeeds whenever a king stands on the source and a
rook stands on the corner it reads. -/
theorem makeCastlingMove_ok_of {s : GameState} {a b' : Position} {king : Piece}
    (hk : getPieceAt s.board a = some king) (hkt : king.type = .king)
    {rook : Piece}
    (hr : getPieceAt s.board (castleRookFrom king.color b') = some rook)
    (hrt : rook.type = .rook) :
    ∃ s', makeCastlingMove s a b' = .ok s' := by
  unfold makeCastlingMove
  dsimp only
  rw [show getPieceAt (copyBoard s.board) a = some king from hk]
  dsimp only
  rw [if_neg (by simp [hkt])]
  rw [show (if b'.col = 6 then
        ({ row := if king.color = Color.white then 7 else 0, col := 7 } : Position)
      else { row := if king.color = Color.white then 7 else 0, col := 0 }) =
      castleRookFrom king.color b' from rfl]
  rw [show getPieceAt (copyBoard s.board) (castleRookFrom king.color b') =
    some rook from hr]
  dsimp only
  rw [if_neg (by simp [hrt])]
  exact ⟨_, rfl⟩

/-- `makeEnPassantMove` succeeds whenever a pawn stands on the source and
an enemy pawn stands on the captured square it reads. -/
theorem makeEnPassantMove_ok_of {s : GameState} {a b' : Position}
    {pawn : Piece} (hk : getPieceAt s.board a = some pawn)
    (hkt : pawn.type = .pawn) {cap : Piece}
    (hc : getPieceAt s.board (epCapturedPos pawn.color b') = some cap)
    (hct : cap.type = .pawn) (hcc : cap.color ≠ pawn.color) :
    ∃ s', makeEnPassantMove s a b' = .ok s' := by
  unfold makeEnPassantMove
  dsimp only
  rw [show getPieceAt (copyBoard s.board) a = some pawn from hk]
  dsimp only
  rw [if_neg (by simp [hkt])]
  rw [show getPieceAt (copyBoard s.board) (epCapturedPos pawn.color b') =
    some cap from hc]
  dsimp only
  rw [if_neg (by simp [hct, hcc])]
  exact ⟨_, rfl⟩

/-- The board produced by the regular branch of `makeMove` (move the piece,
mark it moved, then replace a promoting pawn). -/
def regularBoardAfter (b : Board) (pc : Piece) (f t : Position)
    (pr : Option PieceType) : Board :=
  let b2 := setPiece (setPiece b t (some { pc with hasMoved := true })) f none
  if pc.type = .pawn ∧ (t.row = 0 ∨ t.row = 7) then
    setPiece b2 t (some ⟨pr.getD .queen, pc.color, true⟩)
  else b2

/-- The en-passant dispatch condition of `makeMove`, as a proposition. -/
def epDispatchProps (s : GameState) (pc : Piece) (f t : Position) : Prop :=
  pc.type = .pawn ∧
    ∃ ep, s.enPassantTarget = some ep ∧ t.row = ep.row ∧ t.col = ep.col ∧
      ∃ cp, getPieceAt s.board ⟨f.row, ep.col⟩ = some cp ∧
        cp.type = .pawn ∧ cp.color ≠ pc.color

/-- Branch analysis of a successful `makeMove`: it validated the move and
then executed exactly one of the three move shapes. -/
theorem makeMove_ok_branches {s : GameState} {f t : Position}
    {pr : Option PieceType} {s' : GameState}
    (h : makeMove s f t pr = .ok s') :
    t ∈ getValidMoves s f ∧
      ∃ pc, getPieceAt s.board f = some pc ∧
        ((pc.type = .king ∧ (t.col - f.col).natAbs = 2 ∧
            makeCastlingMove s f t = .ok s') ∨
         (¬(pc.type = .king ∧ (t.col - f.col).natAbs = 2) ∧
            epDispatchProps s pc f t ∧ makeEnPassantMove s f t = .ok s') ∨
         (¬(pc.type = .king ∧ (t.col - f.col).natAbs = 2) ∧
            ¬epDispatchProps s pc f t ∧
            s'.board = regularBoardAfter s.board pc f t pr ∧
            s'.enPassantTarget =
              (if pc.type = .pawn ∧ (t.row - f.row).natAbs = 2 then
                some ⟨(f.row + t.row) / 2, f.col⟩
              else none))) := by
  unfold makeMove at h
  by_cases hv : isValidMove s f t = true
  · rw [if_neg (by simp [hv])] at h
    dsimp only at h
    simp only [copyBoard] at h
    refine ⟨isValidMove_iff_mem.1 hv, ?_⟩
    cases hpc : getPieceAt s.board f with
    | none =>
      rw [hpc] at h
      exact Except.noConfusion h
    | some pc =>
      rw [hpc] at h
      dsimp only at h
      refine ⟨pc, rfl, ?_⟩
      by_cases hck : pc.type = .king ∧ (t.col - f.col).natAbs = 2
      · rw [if_pos hck] at h
        exact Or.inl ⟨hck.1, hck.2, h⟩
      rw [if_neg hck] at h
      cases hept : s.enPassantTarget with
      | none =>
        rw [hept] at h
        dsimp only at h
        rw [if_neg (by simp)] at h
        refine Or.inr (Or.inr ⟨hck, ?_, ?_, ?_⟩)
        · rintro ⟨-, ep, hep, -⟩
          rw [hept] at hep
          exact Option.noConfusion hep
        · cases h
          rfl
        · cases h
          rfl
      | some ep =>
        rw [hept] at h
        dsimp only at h
        cases hcp : getPieceAt s.board ⟨f.row, ep.col⟩ with
        | none =>
          rw [hcp] at h
          dsimp only at h
          rw [if_neg (by simp)] at h
          refine Or.inr (Or.inr ⟨hck, ?_, ?_, ?_⟩)
          · rintro ⟨-, ep', hep', -, -, cp', hcp', -⟩
            rw [hept] at hep'
            cases hep'
            rw [hcp] at hcp'
            exact Option.noConfusion hcp'
          · cases h
            rfl
          · cases h
            rfl
        | some cp =>
          rw [hcp] at h
          dsimp only at h
          by_cases hdis : pc.type = .pawn ∧ t.row = ep.row ∧ t.col = ep.col ∧
              cp.type = .pawn ∧ cp.color ≠ pc.color
          · rw [if_pos (by
              simp only [Bool.and_eq_true, decide_eq_true_eq]
              exact ⟨⟨⟨hdis.1, hdis.2.1⟩, hdis.2.2.1⟩,
                hdis.2.2.2.1, hdis.2.2.2.2⟩)] at h
            exact Or.inr (Or.inl ⟨hck,
              ⟨hdis.1, ep, hept, hdis.2.1, hdis.2.2.1, cp, hcp,
                hdis.2.2.2.1, hdis.2.2.2.2⟩, h⟩)
          · rw [if_neg (by
              intro hb
              simp only [Bool.and_eq_true, decide_eq_true_eq] at hb
              exact hdis ⟨hb.1.1.1, hb.1.1.2, hb.1.2, hb.2⟩)] at h
            refine Or.inr (Or.inr ⟨hck, ?_, ?_, ?_⟩)
            · rintro ⟨hpt, ep', hep', hrow', hcol', cp', hcp', hcpt', hcpc'⟩
              rw [hept] at hep'
              cases hep'
              rw [hcp] at hcp'
              cases hcp'
              exact hdis ⟨hpt, hrow', hcol', hcpt', hcpc'⟩
            · cases h
              rfl
            · cases h
              rfl
  · rw [if_pos (by simpa using hv)] at h
    exact Except.noConfusion h

/-- When the en-passant dispatch of `makeMove` fires on a valid move, the
destination is one rank ahead of the source in the pawn's direction. -/
theorem epDispatch_row {s : GameState} {f t : Position} {pc : Piece}
    (hpc : getPieceAt s.board f = some pc)
    (hmem : t ∈ getValidMoves s f)
    (hdis : epDispatchProps s pc f t) :
    t.row = f.row + (if pc.color = .white then (-1 : Int) else 1) := by
  obtain ⟨hpt, ep, hep, hrow, hcol, cp, hcp, hcpt, hcpc⟩ := hdis
  rcases mem_getValidMoves_cases hpc hmem with ⟨hreg, -⟩ | ⟨hk, -⟩ | ⟨-, hepm, -⟩
  · rw [show getPieceMoves s.board f pc = getPawnMoves s.board f pc from by
      unfold getPieceMoves
      rw [hpt]] at hreg
    rcases getPawnMoves_shape hreg with ⟨hc, -⟩ | ⟨hr, -⟩
    · exfalso
      have hff : (⟨f.row, ep.col⟩ : Position) = f := by
        cases f with
        | mk fr fc =>
          simp only [Position.mk.injEq, true_and]
          simp only at hc hcol
          omega
      rw [hff, hpc] at hcp
      cases hcp
      exact hcpc rfl
    · exact hr
  · rw [hk] at hpt
    exact PieceType.noConfusion hpt
  · obtain ⟨-, pc2, hpc2, -, hfrow, -, -⟩ := getEnPassantMove_spec hepm
    rw [hpc] at hpc2
    cases hpc2
    omega

/-- A move offered by `getValidMoves` is always executed: `makeMove`
reaches a successful result on it. -/
theorem makeMove_ok_of_valid {s : GameState} {f t : Position}
    (pr : Option PieceType) (hmem : t ∈ getValidMoves s f) :
    ∃ s', makeMove s f t pr = .ok s' := by
  have hv : isValidMove s f t = true := isValidMove_iff_mem.2 hmem
  obtain ⟨pc, hpc, hcol⟩ := mem_getValidMoves_piece hmem
  unfold makeMove
  rw [if_neg (by simp [hv])]
  dsimp only
  simp only [copyBoard]
  rw [hpc]
  dsimp only
  by_cases hck : pc.type = .king ∧ (t.col - f.col).natAbs = 2
  · rw [if_pos hck]
    rcases mem_getValidMoves_cases hpc hmem with ⟨hreg, -⟩ | ⟨-, -, hcas, -⟩ |
      ⟨hpt, -, -⟩
    · exfalso
      rw [show getPieceMoves s.board f pc = getKingMoves s.board f pc from by
        unfold getPieceMoves
        rw [hck.1]] at hreg
      have := (getKingMoves_shape hreg).2
      omega
    · obtain ⟨pc', hpc', hkt', hmv', hside⟩ := getCastlingMoves_spec.1 hcas
      rw [hpc] at hpc'
      cases hpc'
      rcases hside with ⟨hm, -, ⟨rook, hrk, hrt, -⟩, -⟩ |
        ⟨hm, -, ⟨rook, hrk, hrt, -⟩, -⟩
      · have hrf : castleRookFrom pc.color t = ⟨castleRow pc.color, 7⟩ := by
          unfold castleRookFrom
          rw [hm]
          simp
        exact makeCastlingMove_ok_of hpc hkt' (hrf ▸ hrk) hrt
      · have hrf : castleRookFrom pc.color t = ⟨castleRow pc.color, 0⟩ := by
          unfold castleRookFrom
          rw [hm]
          simp
        exact makeCastlingMove_ok_of hpc hkt' (hrf ▸ hrk) hrt
    · rw [hpt] at hck
      exact absurd hck.1 (by simp)
  · rw [if_neg hck]
    cases hept : s.enPassantTarget with
    | none =>
      dsimp only
      rw [if_neg (by simp)]
      exact ⟨_, rfl⟩
    | some ep =>
      dsimp only
      cases hcp : getPieceAt s.board ⟨f.row, ep.col⟩ with
      | none =>
        dsimp only
        rw [if_neg (by simp)]
        exact ⟨_, rfl⟩
      | some cp =>
        dsimp only
        by_cases hdis : pc.type = .pawn ∧ t.row = ep.row ∧ t.col = ep.col ∧
            cp.type = .pawn ∧ cp.color ≠ pc.color
        · rw [if_pos (by
            simp only [Bool.and_eq_true, decide_eq_true_eq]
            exact ⟨⟨⟨hdis.1, hdis.2.1⟩, hdis.2.2.1⟩,
              hdis.2.2.2.1, hdis.2.2.2.2⟩)]
          have hdisp : epDispatchProps s pc f t :=
            ⟨hdis.1, ep, hept, hdis.2.1, hdis.2.2.1, cp, hcp,
              hdis.2.2.2.1, hdis.2.2.2.2⟩
          have hrow := epDispatch_row hpc hmem hdisp
          have hcpos : epCapturedPos pc.color t = ⟨f.row, ep.col⟩ := by
            unfold epCapturedPos
            cases t with
            | mk tr tc =>
              simp only [Position.mk.injEq]
              simp only at hrow
              have h1 := hdis.2.2.1
              simp only at h1
              constructor <;> omega
          exact makeEnPassantMove_ok_of hpc hdis.1 (hcpos ▸ hcp)
            hdis.2.2.2.1 hdis.2.2.2.2
        · rw [if_neg (by
            intro hb
            simp only [Bool.and_eq_true, decide_eq_true_eq] at hb
            exact hdis ⟨hb.1.1.1, hb.1.1.2, hb.1.2, hb.2⟩)]
          exact ⟨_, rfl⟩

/-!
### Claim C4 — `makeMove` raises exactly on illegal requests
-/

/-- C4: `makeMove` signals the distinct error `Invalid move` exactly when
the destination is not among `getValidMoves` for the source square; it
never fails in any other way, and on any offered destination it returns a
new state without raising. -/
theorem C4_makeMove_raises_iff (s : GameState) (f t : Position)
    (pr : Option PieceType) :
    ((∃ e, makeMove s f t pr = .error e) ↔ t ∉ getValidMoves s f) ∧
      (∀ e, makeMove s f t pr = .error e → e = "Invalid move") ∧
      (t ∈ getValidMoves s f → ∃ s', makeMove s f t pr = .ok s') := by
  have herr : t ∉ getValidMoves s f →
      makeMove s f t pr = .error "Invalid move" := by
    intro hnm
    have hv : ¬isValidMove s f t = true := fun hv =>
      hnm (isValidMove_iff_mem.1 hv)
    unfold makeMove
    rw [if_pos hv]
  refine ⟨⟨?_, fun hnm => ⟨_, herr hnm⟩⟩, ?_, fun hmem => makeMove_ok_of_valid pr hmem⟩
  · rintro ⟨e, he⟩ hmem
    obtain ⟨s', hs'⟩ := makeMove_ok_of_valid pr hmem
    rw [he] at hs'
    exact Except.noConfusion hs'
  · intro e he
    by_cases hmem : t ∈ getValidMoves s f
    · obtain ⟨s', hs'⟩ := makeMove_ok_of_valid pr hmem
      rw [he] at hs'
      exact Except.noConfusion hs'
    · have h2 := herr hmem
      rw [he] at h2
      exact Except.error.inj h2

/-- A minimal state: a single unmoved white pawn on e2, white to move. -/
def c5State : GameState where
  board :=
    [List.replicate 8 none, List.replicate 8 none, List.replicate 8 none,
     List.replicate 8 none, List.replicate 8 none, List.replicate 8 none,
     [none, none, none, none, some ⟨.pawn, .white, false⟩, none, none, none],
     List.replicate 8 none]
  currentTurn := .white
  castlingRights := ⟨false, false, false, false⟩
  enPassantTarget := none
  halfMoveClock := 0
  fullMoveNumber := 1
  moveHistory := []
  isCheck := false
  isCheckmate := false
  isStalemate := false

/-- Witness for C4: on the single-pawn state, an illegal destination gives
exactly the invalid-move error, and a legal one succeeds. -/
theorem C4_makeMove_raises_iff_witness :
    ((⟨3, 3⟩ : Position) ∉ getValidMoves c5State ⟨6, 4⟩) ∧
      (∃ e, makeMove c5State ⟨6, 4⟩ ⟨3, 3⟩ none = .error e) ∧
      ((⟨4, 4⟩ : Position) ∈ getValidMoves c5State ⟨6, 4⟩) ∧
      (∃ s', makeMove c5State ⟨6, 4⟩ ⟨4, 4⟩ none = .ok s') :=
  ⟨by decide,
   (C4_makeMove_raises_iff c5State ⟨6, 4⟩ ⟨3, 3⟩ none).1.2 (by decide),
   by decide,
   (C4_makeMove_raises_iff c5State ⟨6, 4⟩ ⟨4, 4⟩ none).2.2 (by decide)⟩

/-!
### Claim C5 — the en-passant-target invariant
-/

/-- C5: after every successful `makeMove` the new `enPassantTarget` is
`none`, except when the move was a pawn double step, in which case it is
exactly the skipped square (the row midway between source and destination,
on the source file); castling moves and en-passant captures always clear
it. -/
theorem C5_en_passant_target (s : GameState) (f t : Position)
    (pr : Option PieceType) (s' : GameState)
    (h : makeMove s f t pr = .ok s') :
    ((∃ pc, getPieceAt s.board f = some pc ∧ pc.type = .pawn) ∧
        (t.row - f.row).natAbs = 2 →
      s'.enPassantTarget = some ⟨(f.row + t.row) / 2, f.col⟩) ∧
    (¬((∃ pc, getPieceAt s.board f = some pc ∧ pc.type = .pawn) ∧
        (t.row - f.row).natAbs = 2) →
      s'.enPassantTarget = none) := by
  obtain ⟨hmem, pc, hpc, hbr⟩ := makeMove_ok_branches h
  constructor
  · rintro ⟨⟨pw, hpw, hpwt⟩, habs⟩
    rw [hpc] at hpw
    cases hpw
    rcases hbr with ⟨hk, -⟩ | ⟨-, hdis, -⟩ | ⟨-, -, -, hep⟩
    · rw [hk] at hpwt
      exact PieceType.noConfusion hpwt
    · exfalso
      have hrow := epDispatch_row hpc hmem hdis
      by_cases hw : pc.color = .white
      · rw [if_pos hw] at hrow
        omega
      · rw [if_neg hw] at hrow
        omega
    · rw [hep, if_pos ⟨hpwt, habs⟩]
  · intro hneg
    rcases hbr with ⟨-, -, hc⟩ | ⟨-, -, hc⟩ | ⟨-, -, -, hep⟩
    · obtain ⟨king, -, -, rook, -, -, -, hepn⟩ := makeCastlingMove_ok_inv hc
      exact hepn
    · obtain ⟨pawn, -, -, cap, -, -, -, -, hepn⟩ := makeEnPassantMove_ok_inv hc
      exact hepn
    · rw [hep]
      rw [if_neg fun hcond => hneg ⟨⟨pc, hpc, hcond.1⟩, hcond.2⟩]

/-- Witness for C5: the double step e2-e4 from the single-pawn state sets
the target to the skipped square e3. -/
theorem C5_en_passant_target_witness :
    ∃ s', makeMove c5State ⟨6, 4⟩ ⟨4, 4⟩ none = .ok s' ∧
      s'.enPassantTarget = some ⟨5, 4⟩ := by
  cases hmk : makeMove c5State ⟨6, 4⟩ ⟨4, 4⟩ none with
  | error e =>
    have hok : (makeMove c5State ⟨6, 4⟩ ⟨4, 4⟩ none).isOk = true := by decide
    rw [hmk] at hok
    exact absurd hok (by simp [Except.isOk, Except.toBool])
  | ok s' =>
    refine ⟨s', rfl, ?_⟩
    have := (C5_en_passant_target c5State ⟨6, 4⟩ ⟨4, 4⟩ none s' hmk).1
      ⟨⟨⟨.pawn, .white, false⟩, by decide, rfl⟩, by decide⟩
    simpa using this

/-! ## Characterising the FEN placement parser -/

/-- A character the rank parser accepts: an empty-run digit or a piece
letter. -/
def recognizedFenChar (ch : Char) : Bool :=
  isFenDigit ch || (fenCharToPiece ch).isSome

/-- How many files a recognized character covers. -/
def fenCharFiles (ch : Char) : Nat :=
  if isFenDigit ch then ch.toNat - 48 else 1

/-- The number of files a rank string claims. -/
def rankFileSum (r : List Char) : Nat :=
  (r.map fenCharFiles).sum

/-- The error, if any, that processing one rank produces: the first
unrecognized character wins, else a file count different from 8. -/
def rankErrorSpec (r : List Char) : Option String :=
  match r.find? (fun ch => !recognizedFenChar ch) with
  | some ch => some ("Invalid FEN: unknown piece " ++ String.singleton ch)
  | none =>
    if rankFileSum r = 8 then none
    else some "Invalid FEN: rank must have exactly 8 squares"

/-- On fully recognized input the rank loop succeeds and advances the
column counter by the file sum. -/
theorem parseRankGo_ok {row : Nat} {chars : List Char}
    (h : ∀ ch ∈ chars, recognizedFenChar ch = true) :
    ∀ col acc, ∃ acc',
      parseRankGo row chars col acc = .ok (acc', col + rankFileSum chars) := by
  induction chars with
  | nil =>
    intro col acc
    exact ⟨acc, by simp [parseRankGo, rankFileSum]⟩
  | cons ch rest ih =>
    intro col acc
    have hch := h ch (List.mem_cons_self _ _)
    have hrest : ∀ c ∈ rest, recognizedFenChar c = true := fun c hc =>
      h c (List.mem_cons_of_mem _ hc)
    unfold parseRankGo
    by_cases hd : isFenDigit ch = true
    · rw [if_pos hd]
      obtain ⟨acc', hacc'⟩ := ih hrest (col + (ch.toNat - 48)) acc
      have hsum : rankFileSum (ch :: rest) = (ch.toNat - 48) + rankFileSum rest := by
        unfold rankFileSum fenCharFiles
        simp [hd]
      have harith : col + (ch.toNat - 48) + rankFileSum rest
          = col + rankFileSum (ch :: rest) := by omega
      rw [harith] at hacc'
      exact ⟨acc', hacc'⟩
    · rw [if_neg hd]
      unfold recognizedFenChar at hch
      rw [Bool.or_eq_true] at hch
      rcases hch with hch | hch
      · exact absurd hch hd
      · rw [Option.isSome_iff_exists] at hch
        obtain ⟨⟨tp, cl⟩, htp⟩ := hch
        rw [htp]
        dsimp only
        obtain ⟨acc', hacc'⟩ := ih hrest (col + 1)
          (acc.set col (some ⟨tp, cl, !isStartingPosition tp cl row col⟩))
        have hsum : rankFileSum (ch :: rest) = 1 + rankFileSum rest := by
          unfold rankFileSum fenCharFiles
          simp [hd]
        have harith : col + 1 + rankFileSum rest
            = col + rankFileSum (ch :: rest) := by omega
        rw [harith] at hacc'
        exact ⟨acc', hacc'⟩

/-- The rank loop reports the first unrecognized character. -/
theorem parseRankGo_unknown {row : Nat} {chars : List Char} {ch : Char}
    (h : chars.find? (fun c => !recognizedFenChar c) = some ch) :
    ∀ col acc, parseRankGo row chars col acc =
      .error ("Invalid FEN: unknown piece " ++ String.singleton ch) := by
  induction chars with
  | nil => exact absurd h (by simp)
  | cons c rest ih =>
    intro col acc
    rw [List.find?_cons] at h
    by_cases hc : recognizedFenChar c = true
    · rw [show (!recognizedFenChar c) = false from by rw [hc]; rfl] at h
      dsimp only at h
      unfold parseRankGo
      unfold recognizedFenChar at hc
      rw [Bool.or_eq_true] at hc
      by_cases hd : isFenDigit c = true
      · rw [if_pos hd]
        exact ih h _ _
      · rw [if_neg hd]
        rcases hc with hc | hc
        · exact absurd hc hd
        · rw [Option.isSome_iff_exists] at hc
          obtain ⟨⟨tp, cl⟩, htp⟩ := hc
          rw [htp]
          exact ih h _ _
    · have hcf : recognizedFenChar c = false := by
        cases hcv : recognizedFenChar c
        · rfl
        · exact absurd hcv hc
      rw [show (!recognizedFenChar c) = true from by rw [hcf]; rfl] at h
      dsimp only at h
      cases h
      unfold parseRankGo
      have hd : isFenDigit ch = false := by
        cases hdv : isFenDigit ch
        · rfl
        · exfalso
          unfold recognizedFenChar at hcf
          rw [hdv] at hcf
          simp at hcf
      rw [if_neg (by simp [hd])]
      have hp : fenCharToPiece ch = none := by
        cases hpv : fenCharToPiece ch with
        | none => rfl
        | some v =>
          exfalso
          unfold recognizedFenChar at hcf
          rw [hpv] at hcf
          simp at hcf
      rw [hp]

/-- One rank of `fenToBoard` behaves exactly as `rankErrorSpec` says. -/
theorem parseRank_spec (row : Nat) (chars : List Char) :
    (∀ e, rankErrorSpec chars = some e → parseRank row chars = .error e) ∧
      (rankErrorSpec chars = none → ∃ cells, parseRank row chars = .ok cells) := by
  unfold rankErrorSpec
  cases hf : chars.find? (fun c => !recognizedFenChar c) with
  | some ch =>
    refine ⟨?_, by simp⟩
    intro e he
    cases he
    unfold parseRank
    rw [parseRankGo_unknown hf]
  | none =>
    have hall : ∀ c ∈ chars, recognizedFenChar c = true := by
      intro c hc
      have := List.find?_eq_none.1 hf c hc
      simpa using this
    obtain ⟨acc', hacc'⟩ := parseRankGo_ok hall 0 (List.replicate 8 none)
    constructor
    · intro e he
      by_cases hsum : rankFileSum chars = 8
      · rw [if_pos hsum] at he
        exact Option.noConfusion he
      · rw [if_neg hsum] at he
        cases he
        unfold parseRank
        rw [hacc']
        dsimp only
        rw [if_neg (by simpa using hsum)]
    · intro hnone
      by_cases hsum : rankFileSum chars = 8
      · refine ⟨acc', ?_⟩
        unfold parseRank
        rw [hacc']
        dsimp only
        rw [if_pos (by simpa using hsum)]
      · rw [if_neg hsum] at hnone
        exact Option.noConfusion hnone

/-- The rank loop of `fenToBoard` reports the first failing rank. -/
theorem parseRanks_spec (ranks : List (List Char)) : ∀ row,
    (∀ e, ranks.findSome? rankErrorSpec = some e →
      parseRanks row ranks = .error e) ∧
      (ranks.findSome? rankErrorSpec = none →
        ∃ b, parseRanks row ranks = .ok b) := by
  induction ranks with
  | nil =>
    intro row
    exact ⟨fun e he => by simp at he, fun _ => ⟨[], rfl⟩⟩
  | cons r rest ih =>
    intro row
    rw [List.findSome?_cons]
    cases hr : rankErrorSpec r with
    | some e' =>
      refine ⟨?_, by simp⟩
      intro e he
      cases he
      unfold parseRanks
      rw [(parseRank_spec row r).1 e' hr]
    | none =>
      obtain ⟨cells, hcells⟩ := (parseRank_spec row r).2 hr
      constructor
      · intro e he
        unfold parseRanks
        rw [hcells]
        rw [((ih (row + 1)).1) e he]
      · intro hnone
        obtain ⟨b, hb⟩ := (ih (row + 1)).2 hnone
        refine ⟨cells :: b, ?_⟩
        unfold parseRanks
        rw [hcells, hb]

/-- Wrong rank count is rejected before any rank is processed. -/
theorem fenToBoardChars_rankCount {chars : List Char}
    (h : (splitOnChar '/' chars).length ≠ 8) :
    fenToBoardChars chars = .error "Invalid FEN: must have 8 ranks" := by
  unfold fenToBoardChars
  dsimp only
  rw [if_pos h]

/-- With 8 ranks, the first failing rank's error is returned. -/
theorem fenToBoardChars_error_rank {chars : List Char} {e : String}
    (h8 : (splitOnChar '/' chars).length = 8)
    (he : (splitOnChar '/' chars).findSome? rankErrorSpec = some e) :
    fenToBoardChars chars = .error e := by
  unfold fenToBoardChars
  dsimp only
  rw [if_neg (by simp [h8])]
  exact (parseRanks_spec _ 0).1 e he

/-- With 8 ranks and no failing rank, parsing succeeds. -/
theorem fenToBoardChars_ok {chars : List Char}
    (h8 : (splitOnChar '/' chars).length = 8)
    (hnone : (splitOnChar '/' chars).findSome? rankErrorSpec = none) :
    ∃ b, fenToBoardChars chars = .ok b := by
  unfold fenToBoardChars
  dsimp only
  rw [if_neg (by simp [h8])]
  exact (parseRanks_spec _ 0).2 hnone

/-- A computation that reports success produced a value. -/
theorem except_ok_of_isOk {ε α : Type} {x : Except ε α} (h : x.isOk = true) :
    ∃ a, x = .ok a := by
  cases x with
  | error e => simp [Except.isOk, Except.toBool] at h
  | ok a => exact ⟨a, rfl⟩

/-- The length of an unknown-piece message (used to tell that family of
messages apart from the fixed messages). -/
theorem unknownPieceMsg_length (ch : Char) :
    ("Invalid FEN: unknown piece " ++ String.singleton ch).length = 28 := by
  rw [String.length_append]
  rfl

/-- C6, corrected.  `fenToBoard` signals a distinct invalid-FEN error and
returns no board when the placement does not split into exactly 8 ranks,
when an unrecognized piece letter appears, or when a rank's files do not
sum to 8 (`rankErrorSpec` names the first unrecognized character's message,
else the rank-size message); a board comes back only when none of these
conditions holds; `fenToGameState` rejects a FEN with fewer than FOUR
space-separated fields — not "fewer than six" as the spec claims (see the
counterexample); and the error messages are pairwise distinguishable. -/
theorem C6_malformed_fen_rejection :
    (∀ chars : List Char, (splitOnChar '/' chars).length ≠ 8 →
        fenToBoardChars chars = .error "Invalid FEN: must have 8 ranks") ∧
    (∀ chars : List Char, ∀ e : String,
        (splitOnChar '/' chars).length = 8 →
        (splitOnChar '/' chars).findSome? rankErrorSpec = some e →
        fenToBoardChars chars = .error e) ∧
    (∀ chars : List Char, ∀ b : Board, fenToBoardChars chars = .ok b →
        (splitOnChar '/' chars).length = 8 ∧
          ∀ r ∈ splitOnChar '/' chars, rankErrorSpec r = none) ∧
    (∀ fen : String, (wsSplit fen.toList).length < 4 →
        fenToGameState fen = .error "Invalid FEN: must have at least 4 parts") ∧
    (("Invalid FEN: must have 8 ranks" : String) ≠
        "Invalid FEN: rank must have exactly 8 squares" ∧
      ("Invalid FEN: must have 8 ranks" : String) ≠
        "Invalid FEN: must have at least 4 parts" ∧
      ("Invalid FEN: rank must have exactly 8 squares" : String) ≠
        "Invalid FEN: must have at least 4 parts" ∧
      ∀ ch : Char,
        ("Invalid FEN: must have 8 ranks" : String) ≠
            "Invalid FEN: unknown piece " ++ String.singleton ch ∧
          ("Invalid FEN: rank must have exactly 8 squares" : String) ≠
            "Invalid FEN: unknown piece " ++ String.singleton ch ∧
          ("Invalid FEN: must have at least 4 parts" : String) ≠
            "Invalid FEN: unknown piece " ++ String.singleton ch) := by
  refine ⟨fun chars h => fenToBoardChars_rankCount h,
    fun chars e h8 he => fenToBoardChars_error_rank h8 he, ?_, ?_, ?_⟩
  · intro chars b hok
    by_cases h8 : (splitOnChar '/' chars).length = 8
    · refine ⟨h8, ?_⟩
      cases hfs : (splitOnChar '/' chars).findSome? rankErrorSpec with
      | some e =>
        rw [fenToBoardChars_error_rank h8 hfs] at hok
        exact Except.noConfusion hok
      | none => exact List.findSome?_eq_none_iff.1 hfs
    · rw [fenToBoardChars_rankCount h8] at hok
      exact Except.noConfusion hok
  · intro fen h4
    unfold fenToGameState fenToGameStateChars
    dsimp only
    rw [if_pos h4]
  · refine ⟨by decide, by decide, by decide, ?_⟩
    have hone : ∀ ch : Char, (String.singleton ch).length = 1 := fun _ => rfl
    refine fun ch => ⟨fun h => ?_, fun h => ?_, fun h => ?_⟩
    all_goals {
      have hlen := congrArg String.length h
      rw [String.length_append, hone] at hlen
      exact absurd hlen (by decide)
    }

/-- C6 counterexample: the spec calls a FEN with fewer than six fields
malformed, but a four-field FEN parses successfully. -/
theorem C6_counterexample :
    (wsSplit ("8/8/8/8/8/8/8/8 w - -").toList).length = 4 ∧
      ∃ s, fenToGameState "8/8/8/8/8/8/8/8 w - -" = .ok s :=
  ⟨by decide, except_ok_of_isOk (by decide)⟩

/-- C6 witness. -/
theorem C6_malformed_fen_rejection_witness :
    fenToBoardChars ("8/8/8/8/8/8/8".toList) =
        .error "Invalid FEN: must have 8 ranks" ∧
      fenToBoardChars ("x7/8/8/8/8/8/8/8".toList) =
        .error ("Invalid FEN: unknown piece " ++ String.singleton 'x') ∧
      fenToGameState "8/8/8/8/8/8/8/8" =
        .error "Invalid FEN: must have at least 4 parts" :=
  ⟨C6_malformed_fen_rejection.1 _ (by decide),
   C6_malformed_fen_rejection.2.1 _ _ (by decide) (by decide),
   C6_malformed_fen_rejection.2.2.2.1 _ (by decide)⟩

/-- The all-empty board. -/
def emptyBoard : Board := List.replicate 8 (List.replicate 8 none)

/-- C10: any placement whose 8 ranks are made of recognized characters
with files summing to 8 parses, even with non-canonical digit runs;
`44/8/8/8/8/8/8/8` and `8/8/8/8/8/8/8/8` are distinct strings parsing to
the same empty board, and only the canonical one is what `boardToFen`
writes back. -/
theorem C10_noncanonical_digit_runs :
    (∀ chars : List Char,
        (splitOnChar '/' chars).length = 8 →
        (∀ r ∈ splitOnChar '/' chars,
          (∀ ch ∈ r, recognizedFenChar ch = true) ∧ rankFileSum r = 8) →
        ∃ b, fenToBoardChars chars = .ok b) ∧
      fenToBoard "44/8/8/8/8/8/8/8" = .ok emptyBoard ∧
      fenToBoard "8/8/8/8/8/8/8/8" = .ok emptyBoard ∧
      boardToFen emptyBoard = "8/8/8/8/8/8/8/8" ∧
      ("44/8/8/8/8/8/8/8" : String) ≠ "8/8/8/8/8/8/8/8" := by
  refine ⟨?_, by rfl, by rfl, by decide, by decide⟩
  intro chars h8 hranks
  refine fenToBoardChars_ok h8 (List.findSome?_eq_none_iff.2 ?_)
  intro r hr
  obtain ⟨hrec, hsum⟩ := hranks r hr
  unfold rankErrorSpec
  rw [List.find?_eq_none.2 (by simpa using hrec)]
  rw [if_pos hsum]

/-- C10 witness. -/
theorem C10_noncanonical_digit_runs_witness :
    ∃ b, fenToBoardChars ("44/8/8/8/8/8/8/8".toList) = .ok b :=
  C10_noncanonical_digit_runs.1 _ (by decide) (by decide)

/-! ## Decimal printing round-trips through decimal parsing -/

/-- The character of a decimal digit is one of the ten digit glyphs. -/
theorem digit_ofNat_mem {d : Nat} (h : d < 10) :
    Char.ofNat (48 + d) ∈ ['0','1','2','3','4','5','6','7','8','9'] := by
  interval_cases d <;> decide

/-- Code point and digit test of a decimal digit character. -/
theorem digit_ofNat_toNat {d : Nat} (h : d < 10) :
    (Char.ofNat (48 + d)).toNat = 48 + d ∧
      (Char.ofNat (48 + d)).isDigit = true := by
  interval_cases d <;> exact ⟨rfl, rfl⟩

/-- Digit glyphs are not whitespace, not the rank separator, and are
decimal digits. -/
theorem digitChars_facts : ∀ c ∈ ['0','1','2','3','4','5','6','7','8','9'],
    c.isWhitespace = false ∧ ¬c = '/' ∧ c.isDigit = true := by decide

/-- An empty-run count between 1 and 8 prints as a FEN digit with the
expected code point. -/
theorem fenDigit_ofNat {e : Nat} (h1 : 1 ≤ e) (h8 : e ≤ 8) :
    isFenDigit (Char.ofNat (48 + e)) = true ∧
      (Char.ofNat (48 + e)).toNat = 48 + e := by
  interval_cases e <;> exact ⟨rfl, rfl⟩

/-- Any sufficient fuel computes the same digits. -/
theorem natDigitsGo_fuel : ∀ fuel n acc, n < fuel →
    natDigitsGo n fuel acc = natDigitsGo n (n + 1) acc := by
  intro fuel
  induction fuel using Nat.strong_induction_on with
  | _ fuel ih =>
    intro n acc hn
    cases fuel with
    | zero => omega
    | succ fl =>
      by_cases h10 : n < 10
      · simp only [natDigitsGo, if_pos h10]
      · simp only [natDigitsGo, if_neg h10]
        rw [ih fl (by omega) (n / 10) _ (by omega)]
        rw [ih n (by omega) (n / 10) _ (by omega)]

/-- The accumulator of `natDigitsGo` is a suffix of its result. -/
theorem natDigitsGo_acc : ∀ fuel n acc,
    natDigitsGo n fuel acc = natDigitsGo n fuel [] ++ acc := by
  intro fuel
  induction fuel with
  | zero => intro n acc; simp [natDigitsGo]
  | succ fl ih =>
    intro n acc
    by_cases h10 : n < 10
    · simp [natDigitsGo, if_pos h10]
    · simp only [natDigitsGo, if_neg h10]
      rw [ih (n / 10) (Char.ofNat (48 + n % 10) :: acc),
        ih (n / 10) [Char.ofNat (48 + n % 10)]]
      simp

/-- The recursion `natDigits` implements. -/
theorem natDigits_eq (n : Nat) :
    natDigits n = if n < 10 then [Char.ofNat (48 + n)]
      else natDigits (n / 10) ++ [Char.ofNat (48 + n % 10)] := by
  by_cases h10 : n < 10
  · rw [if_pos h10]
    unfold natDigits
    simp [natDigitsGo, if_pos h10]
  · rw [if_neg h10]
    rw [show natDigits n =
      (if n < 10 then [Char.ofNat (48 + n)]
       else natDigitsGo (n / 10) n [Char.ofNat (48 + n % 10)]) from rfl]
    rw [if_neg h10]
    rw [natDigitsGo_fuel n (n / 10) _ (by omega)]
    rw [natDigitsGo_acc _ (n / 10) [Char.ofNat (48 + n % 10)]]
    rfl

/-- A number has at least one digit. -/
theorem natDigits_ne_nil (n : Nat) : natDigits n ≠ [] := by
  rw [natDigits_eq]
  by_cases h10 : n < 10
  · simp [h10]
  · simp [h10]

/-- Every character of `natDigits` is a digit glyph. -/
theorem natDigits_mem_digits : ∀ n, ∀ c ∈ natDigits n,
    c ∈ ['0','1','2','3','4','5','6','7','8','9'] := by
  intro n
  induction n using Nat.strong_induction_on with
  | _ n ih =>
    rw [natDigits_eq]
    by_cases h10 : n < 10
    · rw [if_pos h10]
      intro c hc
      rw [List.mem_singleton] at hc
      subst hc
      exact digit_ofNat_mem h10
    · rw [if_neg h10]
      intro c hc
      rw [List.mem_append] at hc
      rcases hc with hc | hc
      · exact ih (n / 10) (by omega) c hc
      · rw [List.mem_singleton] at hc
        subst hc
        exact digit_ofNat_mem (by omega)

/-- `parseNatChars` processes an all-digit prefix before the rest. -/
theorem parseNatChars_append {l1 : List Char}
    (h : ∀ c ∈ l1, c.isDigit = true) : ∀ (l2 : List Char) (acc : Nat),
    parseNatChars (l1 ++ l2) acc = parseNatChars l2 (parseNatChars l1 acc) := by
  induction l1 with
  | nil => intro l2 acc; rfl
  | cons c rest ih =>
    intro l2 acc
    have hc := h c (List.mem_cons_self _ _)
    simp only [List.cons_append, parseNatChars, hc, if_true]
    exact ih (fun x hx => h x (List.mem_cons_of_mem _ hx)) _ _

/-- Parsing the decimal digits of `n` recovers `n` (with the accumulator
shifted by the digit count). -/
theorem parseNatChars_natDigits : ∀ n acc,
    parseNatChars (natDigits n) acc = acc * 10 ^ (natDigits n).length + n := by
  intro n
  induction n using Nat.strong_induction_on with
  | _ n ih =>
    intro acc
    rw [natDigits_eq]
    by_cases h10 : n < 10
    · rw [if_pos h10]
      obtain ⟨ht, hd⟩ := digit_ofNat_toNat h10
      simp only [parseNatChars, hd, if_true, ht, List.length_singleton]
      simp only [pow_one, parseNatChars]
      omega
    · rw [if_neg h10]
      have hdig : ∀ c ∈ natDigits (n / 10), c.isDigit = true := fun c hc =>
        (digitChars_facts c (natDigits_mem_digits _ c hc)).2.2
      rw [parseNatChars_append hdig]
      rw [ih (n / 10) (by omega)]
      obtain ⟨ht, hd⟩ := digit_ofNat_toNat (show n % 10 < 10 by omega)
      simp only [parseNatChars, hd, if_true, ht]
      rw [List.length_append, List.length_singleton, pow_succ]
      have hmod : n / 10 * 10 + (48 + n % 10 - 48) = n := by omega
      calc (acc * 10 ^ (natDigits (n / 10)).length + n / 10) * 10 +
            (48 + n % 10 - 48)
          = acc * (10 ^ (natDigits (n / 10)).length * 10) +
              (n / 10 * 10 + (48 + n % 10 - 48)) := by ring
        _ = acc * (10 ^ (natDigits (n / 10)).length * 10) + n := by rw [hmod]

/-- Parsing the printed digits of `n` gives back `n`. -/
theorem parseNatChars_natDigits_zero (n : Nat) :
    parseNatChars (natDigits n) 0 = n := by
  rw [parseNatChars_natDigits]
  simp

/-! ## Splitting a separator-joined list recovers the parts -/

/-- Splitting a separator-free list yields that list alone. -/
theorem splitOnChar_no_sep {sep : Char} : ∀ l : List Char, sep ∉ l →
    splitOnChar sep l = [l] := by
  intro l
  induction l with
  | nil => intro; rfl
  | cons c rest ih =>
    intro h
    have hc : ¬c = sep := fun hc => h (hc ▸ List.mem_cons_self _ _)
    simp only [splitOnChar, if_neg hc]
    rw [ih (fun hm => h (List.mem_cons_of_mem _ hm))]

/-- Splitting peels off a separator-free prefix before a separator. -/
theorem splitOnChar_append_sep {sep : Char} : ∀ (l m : List Char), sep ∉ l →
    splitOnChar sep (l ++ sep :: m) = l :: splitOnChar sep m := by
  intro l
  induction l with
  | nil =>
    intro m _
    simp [splitOnChar]
  | cons c rest ih =>
    intro m h
    have hc : ¬c = sep := fun hc => h (hc ▸ List.mem_cons_self _ _)
    simp only [List.cons_append, splitOnChar, if_neg hc, List.append_eq]
    rw [ih m (fun hm => h (List.mem_cons_of_mem _ hm))]

/-- Joining at least two parts starts with the first part and a
separator. -/
theorem intercalate_cons_of_ne_nil {sep : Char} {r : List Char}
    {rs : List (List Char)} (h : rs ≠ []) :
    List.intercalate [sep] (r :: rs) = r ++ sep :: List.intercalate [sep] rs := by
  cases rs with
  | nil => exact absurd rfl h
  | cons r2 rest => simp [List.intercalate, List.intersperse]

/-- Splitting a separator-joined nonempty list of separator-free parts
recovers the parts. -/
theorem splitOnChar_intercalate {sep : Char} : ∀ rs : List (List Char),
    rs ≠ [] → (∀ r ∈ rs, sep ∉ r) →
    splitOnChar sep (List.intercalate [sep] rs) = rs := by
  intro rs
  induction rs with
  | nil => intro h; exact absurd rfl h
  | cons r rest ih =>
    intro _ hsep
    cases rest with
    | nil =>
      rw [show List.intercalate [sep] [r] = r by simp [List.intercalate]]
      exact splitOnChar_no_sep r (hsep r (List.mem_cons_self _ _))
    | cons r2 rest2 =>
      rw [intercalate_cons_of_ne_nil (by simp)]
      rw [splitOnChar_append_sep _ _ (hsep r (List.mem_cons_self _ _))]
      rw [ih (by simp) (fun x hx => hsep x (List.mem_cons_of_mem _ hx))]

/-- Reading a whitespace-free chunk extends the current token. -/
theorem wsSplitGo_token : ∀ (f cur rest : List Char),
    (∀ c ∈ f, c.isWhitespace = false) →
    wsSplitGo cur (f ++ rest) = wsSplitGo (cur ++ f) rest := by
  intro f
  induction f with
  | nil => intro cur rest _; simp
  | cons c f2 ih =>
    intro cur rest h
    have hc : c.isWhitespace = false := h c (List.mem_cons_self _ _)
    simp only [List.cons_append, wsSplitGo, List.append_eq]
    rw [if_neg (by simp [hc])]
    rw [ih (cur ++ [c]) rest (fun x hx => h x (List.mem_cons_of_mem _ hx))]
    simp

/-- Splitting a space-joined nonempty list of nonempty whitespace-free
parts recovers the parts. -/
theorem wsSplit_intercalate : ∀ fs : List (List Char), fs ≠ [] →
    (∀ f ∈ fs, f ≠ [] ∧ ∀ c ∈ f, c.isWhitespace = false) →
    wsSplit (List.intercalate [' '] fs) = fs := by
  intro fs
  induction fs with
  | nil => intro h; exact absurd rfl h
  | cons f rest ih =>
    intro _ hf
    obtain ⟨hne, hws⟩ := hf f (List.mem_cons_self _ _)
    cases rest with
    | nil =>
      rw [show List.intercalate [' '] [f] = f by simp [List.intercalate]]
      unfold wsSplit
      rw [show f = f ++ [] by simp]
      rw [wsSplitGo_token f [] [] (by simpa using hws)]
      simp only [List.nil_append, List.append_nil, wsSplitGo]
      rw [if_neg (by simpa [List.isEmpty_iff] using hne)]
    | cons f2 rest2 =>
      rw [intercalate_cons_of_ne_nil (by simp)]
      unfold wsSplit
      rw [wsSplitGo_token f [] (' ' :: List.intercalate [' '] (f2 :: rest2)) hws]
      simp only [List.nil_append, wsSplitGo]
      rw [if_pos (by decide)]
      rw [if_neg (by simpa [List.isEmpty_iff] using hne)]
      rw [show wsSplitGo [] (List.intercalate [' '] (f2 :: rest2)) =
        wsSplit (List.intercalate [' '] (f2 :: rest2)) from rfl]
      rw [ih (by simp) (fun x hx => hf x (List.mem_cons_of_mem _ hx))]

/-! ## One rank serializes and parses back -/

/-- The square a parsed rank records at `(row, col)` for a stored square:
same piece, `hasMoved` reconstructed from the starting-square table. -/
def viewedCell (row col : Nat) : Square → Square
  | none => none
  | some pc => some ⟨pc.type, pc.color, !isStartingPosition pc.type pc.color row col⟩

/-- Writing the squares of a serialized rank into a parse accumulator,
starting at `col`. -/
def writeCells (row : Nat) : List Square → Nat → List Square → List Square
  | [], _, acc => acc
  | none :: rest, col, acc => writeCells row rest (col + 1) acc
  | some pc :: rest, col, acc =>
    writeCells row rest (col + 1) (acc.set col (viewedCell row col (some pc)))

/-- The FEN letter of a piece names that piece. -/
theorem fenCharToPiece_pieceToFenChar (t : PieceType) (c : Color) :
    fenCharToPiece (pieceToFenChar t c) = some (t, c) := by
  cases t <;> cases c <;> rfl

/-- Piece letters are not digits, separators, or whitespace. -/
theorem pieceToFenChar_facts (t : PieceType) (c : Color) :
    isFenDigit (pieceToFenChar t c) = false ∧
      ¬pieceToFenChar t c = '/' ∧
      (pieceToFenChar t c).isWhitespace = false := by
  cases t <;> cases c <;> decide

/-- Parsing the serialization of a rank writes back exactly the squares
the serializer read, advancing the column by their count. -/
theorem parseRankGo_rankToFenChars {row : Nat} :
    ∀ (rest : List Square) (ec col : Nat) (acc : List Square)
      (tail : List Char), ec + rest.length ≤ 8 →
    parseRankGo row (rankToFenChars rest ec ++ tail) col acc =
      parseRankGo row tail (col + (ec + rest.length))
        (writeCells row rest (col + ec) acc) := by
  intro rest
  induction rest with
  | nil =>
    intro ec col acc tail hb
    by_cases hec : ec = 0
    · subst hec
      simp [rankToFenChars, writeCells]
    · have h1 : 1 ≤ ec := by omega
      have h8 : ec ≤ 8 := by simpa using hb
      obtain ⟨hfd, htn⟩ := fenDigit_ofNat h1 h8
      rw [show rankToFenChars [] ec = natDigits ec from by
        simp [rankToFenChars, hec]]
      rw [show natDigits ec = [Char.ofNat (48 + ec)] from by
        rw [natDigits_eq, if_pos (by omega)]]
      simp only [List.cons_append, List.nil_append, parseRankGo, hfd, if_true,
        htn, writeCells]
      rw [show col + (48 + ec - 48) = col + (ec + 0) from by omega]
      simp
  | cons sq rest2 ih =>
    intro ec col acc tail hb
    cases sq with
    | none =>
      simp only [List.length_cons] at hb ⊢
      rw [show rankToFenChars (none :: rest2) ec =
        rankToFenChars rest2 (ec + 1) from rfl]
      rw [ih (ec + 1) col acc tail (by omega)]
      rw [show writeCells row (none :: rest2) (col + ec) acc =
        writeCells row rest2 (col + ec + 1) acc from rfl]
      rw [show col + (ec + 1 + rest2.length) =
        col + (ec + (rest2.length + 1)) from by omega]
      rw [show col + (ec + 1) = col + ec + 1 from by omega]
    | some pc =>
      obtain ⟨hfd, hslash, hws⟩ := pieceToFenChar_facts pc.type pc.color
      simp only [List.length_cons] at hb ⊢
      have hstep : ∀ col2 acc2,
          parseRankGo row
            ((pieceToFenChar pc.type pc.color :: rankToFenChars rest2 0) ++ tail)
            col2 acc2 =
          parseRankGo row tail (col2 + 1 + (0 + rest2.length))
            (writeCells row rest2 (col2 + 1)
              (acc2.set col2 (viewedCell row col2 (some pc)))) := by
        intro col2 acc2
        rw [List.cons_append]
        rw [show parseRankGo row
            (pieceToFenChar pc.type pc.color :: (rankToFenChars rest2 0 ++ tail))
            col2 acc2 =
          (if isFenDigit (pieceToFenChar pc.type pc.color) then
            parseRankGo row (rankToFenChars rest2 0 ++ tail)
              (col2 + ((pieceToFenChar pc.type pc.color).toNat - 48)) acc2
          else
            match fenCharToPiece (pieceToFenChar pc.type pc.color) with
            | none => .error ("Invalid FEN: unknown piece " ++
                String.singleton (pieceToFenChar pc.type pc.color))
            | some (t, c) =>
              parseRankGo row (rankToFenChars rest2 0 ++ tail) (col2 + 1)
                (acc2.set col2
                  (some ⟨t, c, !isStartingPosition t c row col2⟩))) from rfl]
        rw [if_neg (by simp [hfd]), fenCharToPiece_pieceToFenChar]
        dsimp only
        rw [ih 0 (col2 + 1) _ tail (by omega)]
        rfl
      by_cases hec : ec = 0
      · subst hec
        rw [show rankToFenChars (some pc :: rest2) 0 =
          pieceToFenChar pc.type pc.color :: rankToFenChars rest2 0 from by
            simp [rankToFenChars]]
        rw [hstep col acc]
        rw [show writeCells row (some pc :: rest2) (col + 0) acc =
          writeCells row rest2 (col + 0 + 1)
            (acc.set (col + 0) (viewedCell row (col + 0) (some pc))) from rfl]
        rw [show col + 0 + 1 = col + 1 from by omega,
          show col + 0 = col from by omega]
        rw [show col + (0 + (rest2.length + 1)) =
          col + 1 + (0 + rest2.length) from by omega]
      · have h1 : 1 ≤ ec := by omega
        have h8 : ec ≤ 8 := by omega
        obtain ⟨hfd2, htn⟩ := fenDigit_ofNat h1 h8
        rw [show rankToFenChars (some pc :: rest2) ec =
          natDigits ec ++
            (pieceToFenChar pc.type pc.color :: rankToFenChars rest2 0) from by
            simp [rankToFenChars, hec]]
        rw [show natDigits ec = [Char.ofNat (48 + ec)] from by
          rw [natDigits_eq, if_pos (by omega)]]
        rw [List.append_assoc, List.singleton_append]
        rw [show parseRankGo row
            (Char.ofNat (48 + ec) ::
              ((pieceToFenChar pc.type pc.color :: rankToFenChars rest2 0) ++ tail))
            col acc =
          (if isFenDigit (Char.ofNat (48 + ec)) then
            parseRankGo row
              ((pieceToFenChar pc.type pc.color :: rankToFenChars rest2 0) ++ tail)
              (col + ((Char.ofNat (48 + ec)).toNat - 48)) acc
          else
            match fenCharToPiece (Char.ofNat (48 + ec)) with
            | none => .error ("Invalid FEN: unknown piece " ++
                String.singleton (Char.ofNat (48 + ec)))
            | some (t, c) =>
              parseRankGo row
                ((pieceToFenChar pc.type pc.color :: rankToFenChars rest2 0) ++ tail)
                (col + 1)
                (acc.set col
                  (some ⟨t, c, !isStartingPosition t c row col⟩))) from rfl]
        rw [if_pos hfd2, htn]
        rw [show col + (48 + ec - 48) = col + ec from by omega]
        rw [hstep (col + ec) acc]
        rw [show writeCells row (some pc :: rest2) (col + ec) acc =
          writeCells row rest2 (col + ec + 1)
            (acc.set (col + ec) (viewedCell row (col + ec) (some pc))) from rfl]
        rw [show col + (ec + (rest2.length + 1)) =
          col + ec + 1 + (0 + rest2.length) from by omega]

/-- `parseRank` of a serialized 8-square rank succeeds with the
written-back squares. -/
theorem parseRank_rankToFenChars {row : Nat} {r : List Square}
    (h8 : r.length = 8) :
    parseRank row (rankToFenChars r 0) =
      .ok (writeCells row r 0 (List.replicate 8 none)) := by
  unfold parseRank
  have h := @parseRankGo_rankToFenChars row r 0 0 (List.replicate 8 none) []
    (by omega)
  rw [List.append_nil] at h
  rw [h, h8]
  rfl

/-! ## The written-back rank holds the same pieces -/

/-- A square up to the `hasMoved` flag (FEN does not store it). -/
def squareView : Square → Option (PieceType × Color)
  | none => none
  | some pc => some (pc.type, pc.color)

/-- A rank up to `hasMoved` flags. -/
def rankView (r : List Square) : List (Option (PieceType × Color)) :=
  r.map squareView

/-- A board up to `hasMoved` flags. -/
def boardView (b : Board) : List (List (Option (PieceType × Color))) :=
  b.map rankView

theorem squareView_viewedCell (row col : Nat) (sq : Square) :
    squareView (viewedCell row col sq) = squareView sq := by
  cases sq <;> rfl

/-- `writeCells` only overwrites entries, never changes the length. -/
theorem writeCells_length {row : Nat} : ∀ (rest : List Square) (col : Nat)
    (acc : List Square), (writeCells row rest col acc).length = acc.length := by
  intro rest
  induction rest with
  | nil => intro col acc; rfl
  | cons sq rest2 ih =>
    intro col acc
    cases sq with
    | none => exact ih _ _
    | some pc =>
      rw [show writeCells row (some pc :: rest2) col acc =
        writeCells row rest2 (col + 1)
          (acc.set col (viewedCell row col (some pc))) from rfl]
      rw [ih]
      simp

/-- Reading a written or untouched entry of a `set`. -/
theorem getD_set {α : Type} (l : List α) (k j : Nat) (v d : α) :
    (l.set k v).getD j d = if k = j ∧ k < l.length then v else l.getD j d := by
  by_cases h : k = j
  · subst h
    by_cases hk : k < l.length
    · rw [if_pos ⟨rfl, hk⟩]
      rw [List.getD_eq_getElem?_getD, List.getElem?_set, if_pos rfl, if_pos hk]
      rfl
    · rw [if_neg (fun hc => hk hc.2)]
      rw [List.set_eq_of_length_le (by omega)]
  · rw [if_neg (fun hc => h hc.1)]
    rw [List.getD_eq_getElem?_getD, List.getD_eq_getElem?_getD,
      List.getElem?_set, if_neg h]

/-- What each entry of the written-back accumulator holds. -/
theorem writeCells_getD {row : Nat} : ∀ (rest : List Square) (col : Nat)
    (acc : List Square), acc.length = 8 → col + rest.length ≤ 8 →
    (∀ j, col ≤ j → j < 8 → acc.getD j none = none) →
    ∀ i, i < 8 →
    (writeCells row rest col acc).getD i none =
      if i < col then acc.getD i none
      else if i < col + rest.length then
        viewedCell row i (rest.getD (i - col) none)
      else none := by
  intro rest
  induction rest with
  | nil =>
    intro col acc hlen hb hnone i hi
    simp only [writeCells, List.length_nil, Nat.add_zero]
    by_cases hic : i < col
    · simp [hic]
    · rw [if_neg hic, if_neg hic]
      exact hnone i (by omega) hi
  | cons sq rest2 ih =>
    intro col acc hlen hb hnone i hi
    simp only [List.length_cons] at hb ⊢
    cases sq with
    | none =>
      rw [show writeCells row (none :: rest2) col acc =
        writeCells row rest2 (col + 1) acc from rfl]
      rw [ih (col + 1) acc hlen (by omega)
        (fun j hj1 hj2 => hnone j (by omega) hj2) i hi]
      by_cases hic : i < col
      · rw [if_pos (by omega : i < col + 1), if_pos hic]
      · rw [if_neg hic]
        by_cases hieq : i = col
        · subst hieq
          rw [if_pos (by omega : i < i + 1)]
          rw [if_pos (by omega : i < i + (rest2.length + 1))]
          rw [show i - i = 0 from by omega, List.getD_cons_zero]
          rw [show viewedCell row i none = none from rfl]
          exact hnone i (by omega) hi
        · rw [if_neg (by omega : ¬i < col + 1)]
          by_cases hlt : i < col + (rest2.length + 1)
          · rw [if_pos (by omega : i < col + 1 + rest2.length), if_pos hlt]
            rw [show i - col = (i - (col + 1)) + 1 from by omega,
              List.getD_cons_succ]
          · rw [if_neg (by omega : ¬i < col + 1 + rest2.length), if_neg hlt]
    | some pc =>
      rw [show writeCells row (some pc :: rest2) col acc =
        writeCells row rest2 (col + 1)
          (acc.set col (viewedCell row col (some pc))) from rfl]
      have hset : ∀ j, col + 1 ≤ j → j < 8 →
          (acc.set col (viewedCell row col (some pc))).getD j none = none := by
        intro j hj1 hj2
        rw [getD_set, if_neg (by omega)]
        exact hnone j (by omega) hj2
      rw [ih (col + 1) _ (by simp [hlen]) (by omega) hset i hi]
      by_cases hic : i < col
      · rw [if_pos (by omega : i < col + 1), if_pos hic]
        rw [getD_set, if_neg (by omega)]
      · rw [if_neg hic]
        by_cases hieq : i = col
        · subst hieq
          rw [if_pos (by omega : i < i + 1)]
          rw [if_pos (by omega : i < i + (rest2.length + 1))]
          rw [getD_set, if_pos ⟨rfl, by omega⟩]
          rw [show i - i = 0 from by omega, List.getD_cons_zero]
        · rw [if_neg (by omega : ¬i < col + 1)]
          by_cases hlt : i < col + (rest2.length + 1)
          · rw [if_pos (by omega : i < col + 1 + rest2.length), if_pos hlt]
            rw [show i - col = (i - (col + 1)) + 1 from by omega,
              List.getD_cons_succ]
          · rw [if_neg (by omega : ¬i < col + 1 + rest2.length), if_neg hlt]

/-- The parsed rank holds the same pieces as the serialized rank. -/
theorem rankView_writeCells {row : Nat} {r : List Square} (h8 : r.length = 8) :
    rankView (writeCells row r 0 (List.replicate 8 none)) = rankView r := by
  have hlen : (writeCells row r 0 (List.replicate 8 none)).length = 8 := by
    rw [writeCells_length]
    simp
  have key : ∀ i, i < 8 →
      (writeCells row r 0 (List.replicate 8 none)).getD i none =
        viewedCell row i (r.getD i none) := by
    intro i hi
    rw [writeCells_getD r 0 _ (by simp) (by omega)
      (fun j _ hj => by
        rw [List.getD_eq_getElem?_getD, List.getElem?_replicate, if_pos hj]
        rfl) i hi]
    rw [if_neg (by omega), if_pos (by omega : i < 0 + r.length)]
    rw [show i - 0 = i from by omega]
  apply List.ext_getElem
  · simp only [rankView, List.length_map]
    rw [hlen, h8]
  · intro i h1 h2
    simp only [rankView, List.length_map] at h1 h2
    simp only [rankView, List.getElem_map]
    have e1 : (writeCells row r 0 (List.replicate 8 none))[i] =
        (writeCells row r 0 (List.replicate 8 none)).getD i none := by
      rw [List.getD_eq_getElem?_getD, List.getElem?_eq_getElem h1]
      rfl
    have e2 : r[i] = r.getD i none := by
      rw [List.getD_eq_getElem?_getD, List.getElem?_eq_getElem h2]
      rfl
    rw [e1, e2, key i (by omega), squareView_viewedCell]

/-! ## The whole board serializes and parses back -/

/-- Reading every index in order reproduces the list. -/
theorem range_map_getD {α : Type} {l : List α} {d : α} {n : Nat}
    (h : l.length = n) : (List.range n).map (fun i => l.getD i d) = l := by
  apply List.ext_getElem
  · simp [h]
  · intro i h1 h2
    simp only [List.getElem_map, List.getElem_range]
    rw [List.getD_eq_getElem?_getD, List.getElem?_eq_getElem h2]
    rfl

/-- On a well-formed board, `boardToFenChars` is the separator-join of
the serialized rows. -/
theorem boardToFenChars_eq_rows {b : Board} (hwf : WFBoard b) :
    boardToFenChars b =
      List.intercalate ['/'] (b.map fun r => rankToFenChars r 0) := by
  unfold boardToFenChars
  congr 1
  apply List.ext_getElem
  · simp [hwf.1]
  · intro i h1 h2
    simp only [List.getElem_map, List.getElem_range, List.length_map] at h2 ⊢
    congr 1
    have hi8 : i < 8 := by simpa [hwf.1] using h2
    have hrow : b.getD i [] = b[i] := by
      rw [List.getD_eq_getElem?_getD, List.getElem?_eq_getElem h2]
      rfl
    have hlen : b[i].length = 8 := hwf.2 _ (List.getElem_mem h2)
    calc (List.range 8).map (fun c => boardGet b i c)
        = (List.range 8).map (fun c => b[i].getD c none) := by
          simp only [boardGet, hrow]
      _ = b[i] := range_map_getD hlen

/-- The rows a parsed serialized board holds. -/
def viewedRows (rowIdx : Nat) : List (List Square) → List (List Square)
  | [] => []
  | r :: rest =>
    writeCells rowIdx r 0 (List.replicate 8 none) :: viewedRows (rowIdx + 1) rest

/-- Parsing the serialized rows succeeds with the written-back rows. -/
theorem parseRanks_rankToFenChars : ∀ (rows : List (List Square))
    (rowIdx : Nat), (∀ r ∈ rows, r.length = 8) →
    parseRanks rowIdx (rows.map fun r => rankToFenChars r 0) =
      .ok (viewedRows rowIdx rows) := by
  intro rows
  induction rows with
  | nil => intro rowIdx _; rfl
  | cons r rest ih =>
    intro rowIdx h
    rw [List.map_cons]
    unfold parseRanks
    rw [parseRank_rankToFenChars (h r (List.mem_cons_self _ _))]
    rw [ih (rowIdx + 1) (fun x hx => h x (List.mem_cons_of_mem _ hx))]
    rfl

/-- The parsed board has the same shape. -/
theorem WFBoard_viewedRows {b : Board} (hwf : WFBoard b) :
    WFBoard (viewedRows 0 b) := by
  have hlen : ∀ (rows : List (List Square)) (i : Nat),
      (viewedRows i rows).length = rows.length := by
    intro rows
    induction rows with
    | nil => intro i; rfl
    | cons r rest ih => intro i; simp [viewedRows, ih]
  have hrows : ∀ (rows : List (List Square)) (i : Nat),
      ∀ r ∈ viewedRows i rows, r.length = 8 := by
    intro rows
    induction rows with
    | nil => intro i r hr; simp [viewedRows] at hr
    | cons r0 rest ih =>
      intro i r hr
      simp only [viewedRows, List.mem_cons] at hr
      rcases hr with rfl | hr
      · rw [writeCells_length]
        simp
      · exact ih (i + 1) r hr
  exact ⟨by rw [hlen]; exact hwf.1, hrows b 0⟩

/-- The parsed board holds the same pieces as the original. -/
theorem boardView_viewedRows {b : Board} (hwf : WFBoard b) :
    boardView (viewedRows 0 b) = boardView b := by
  have main : ∀ (rows : List (List Square)) (i : Nat),
      (∀ r ∈ rows, r.length = 8) →
      boardView (viewedRows i rows) = boardView rows := by
    intro rows
    induction rows with
    | nil => intro i _; rfl
    | cons r rest ih =>
      intro i h
      simp only [viewedRows, boardView, List.map_cons]
      rw [rankView_writeCells (h r (List.mem_cons_self _ _))]
      have := ih (i + 1) (fun x hx => h x (List.mem_cons_of_mem _ hx))
      simp only [boardView] at this
      rw [this]
  exact main b 0 hwf.2

/-- Serialized rank characters are never the separator or whitespace. -/
theorem rankToFenChars_chars : ∀ (r : List Square) (ec : Nat),
    ∀ c ∈ rankToFenChars r ec, ¬c = '/' ∧ c.isWhitespace = false := by
  intro r
  induction r with
  | nil =>
    intro ec c hc
    simp only [rankToFenChars] at hc
    by_cases hec : ec = 0
    · simp [hec] at hc
    · rw [if_neg hec] at hc
      have := digitChars_facts c (natDigits_mem_digits ec c hc)
      exact ⟨this.2.1, this.1⟩
  | cons sq rest ih =>
    intro ec c hc
    cases sq with
    | none => exact ih (ec + 1) c hc
    | some pc =>
      simp only [rankToFenChars, List.mem_append, List.mem_cons] at hc
      rcases hc with hc | hc | hc
      · by_cases hec : ec = 0
        · simp [hec] at hc
        · rw [if_neg hec] at hc
          have := digitChars_facts c (natDigits_mem_digits ec c hc)
          exact ⟨this.2.1, this.1⟩
      · subst hc
        obtain ⟨_, h2, h3⟩ := pieceToFenChar_facts pc.type pc.color
        exact ⟨h2, h3⟩
      · exact ih 0 c hc

/-- Round trip of the placement field: parsing the serialization of a
well-formed board succeeds with a well-formed board holding the same
pieces and serializing to the same characters. -/
theorem fenToBoardChars_boardToFenChars {b : Board} (hwf : WFBoard b) :
    fenToBoardChars (boardToFenChars b) = .ok (viewedRows 0 b) := by
  rw [boardToFenChars_eq_rows hwf]
  unfold fenToBoardChars
  dsimp only
  have hsplit : splitOnChar '/'
      (List.intercalate ['/'] (b.map fun r => rankToFenChars r 0)) =
      b.map fun r => rankToFenChars r 0 := by
    apply splitOnChar_intercalate
    · simp only [ne_eq, List.map_eq_nil_iff]
      intro hnil
      rw [hnil] at hwf
      exact absurd hwf.1 (by simp)
    · intro x hx
      rw [List.mem_map] at hx
      obtain ⟨r, _, rfl⟩ := hx
      intro hmem
      exact (rankToFenChars_chars r 0 '/' hmem).1 rfl
  rw [hsplit]
  rw [if_neg (by simp [hwf.1])]
  exact parseRanks_rankToFenChars b 0 hwf.2

/-- Ranks with the same pieces serialize identically. -/
theorem rankToFenChars_congr : ∀ (r1 r2 : List Square),
    rankView r1 = rankView r2 → ∀ ec,
    rankToFenChars r1 ec = rankToFenChars r2 ec := by
  intro r1
  induction r1 with
  | nil =>
    intro r2 h ec
    have : r2 = [] := by
      have := congrArg List.length h
      simpa [rankView] using (List.length_eq_zero.1 (by simpa [rankView] using this.symm))
    rw [this]
  | cons sq rest ih =>
    intro r2 h ec
    cases r2 with
    | nil => exact absurd (congrArg List.length h) (by simp [rankView])
    | cons sq2 rest2 =>
      simp only [rankView, List.map_cons, List.cons.injEq] at h
      obtain ⟨hhead, htail⟩ := h
      cases sq with
      | none =>
        cases sq2 with
        | none =>
          rw [show rankToFenChars (none :: rest) ec =
            rankToFenChars rest (ec + 1) from rfl]
          rw [show rankToFenChars (none :: rest2) ec =
            rankToFenChars rest2 (ec + 1) from rfl]
          exact ih rest2 htail (ec + 1)
        | some pc2 => exact absurd hhead (by simp [squareView])
      | some pc =>
        cases sq2 with
        | none => exact absurd hhead (by simp [squareView])
        | some pc2 =>
          simp only [squareView, Option.some.injEq, Prod.mk.injEq] at hhead
          rw [show rankToFenChars (some pc :: rest) ec =
            (if ec = 0 then [] else natDigits ec) ++
              pieceToFenChar pc.type pc.color :: rankToFenChars rest 0 from rfl]
          rw [show rankToFenChars (some pc2 :: rest2) ec =
            (if ec = 0 then [] else natDigits ec) ++
              pieceToFenChar pc2.type pc2.color :: rankToFenChars rest2 0 from
            rfl]
          rw [hhead.1, hhead.2, ih rest2 htail 0]

/-- Boards with the same pieces serialize identically. -/
theorem boardToFenChars_congr {b1 b2 : Board} (h1 : WFBoard b1)
    (h2 : WFBoard b2) (h : boardView b1 = boardView b2) :
    boardToFenChars b1 = boardToFenChars b2 := by
  rw [boardToFenChars_eq_rows h1, boardToFenChars_eq_rows h2]
  congr 1
  have main : ∀ (l1 l2 : List (List Square)),
      l1.map rankView = l2.map rankView →
      l1.map (fun r => rankToFenChars r 0) =
        l2.map (fun r => rankToFenChars r 0) := by
    intro l1
    induction l1 with
    | nil =>
      intro l2 hv
      rw [show l2 = [] from by
        have := congrArg List.length hv
        simpa using (List.length_eq_zero.1 (by simpa using this.symm))]
    | cons r rest ih =>
      intro l2 hv
      cases l2 with
      | nil => exact absurd (congrArg List.length hv) (by simp)
      | cons r2 rest2 =>
        simp only [List.map_cons, List.cons.injEq] at hv ⊢
        exact ⟨rankToFenChars_congr r r2 hv.1 0, ih rest2 hv.2⟩
  exact main b1 b2 h

/-! ## The remaining FEN fields round-trip -/

/-- Algebraic-square printing of a valid position is a two-character
whitespace-free token, distinct from `-`, that parses back to the
position. -/
theorem positionToSquare_facts {p : Position} (h : isValidPosition p = true) :
    squareToPositionChars (positionToSquareChars p) = p ∧
      ¬positionToSquareChars p = ['-'] ∧
      ¬positionToSquareChars p = [] ∧
      ∀ c ∈ positionToSquareChars p, c.isWhitespace = false := by
  obtain ⟨row, col⟩ := p
  rw [isValidPosition_iff] at h
  simp only at h
  obtain ⟨h1, h2, h3, h4⟩ := h
  interval_cases row <;> interval_cases col <;> decide

/-- The castling field is a nonempty whitespace-free token whose letter
tests recover the rights. -/
theorem castlingChars_facts (cr : CastlingRights) :
    ({ whiteKingSide := (castlingChars cr).contains 'K'
       whiteQueenSide := (castlingChars cr).contains 'Q'
       blackKingSide := (castlingChars cr).contains 'k'
       blackQueenSide := (castlingChars cr).contains 'q' } : CastlingRights) =
        cr ∧
      ¬castlingChars cr = [] ∧
      ∀ c ∈ castlingChars cr, c.isWhitespace = false := by
  obtain ⟨w1, w2, b1, b2⟩ := cr
  cases w1 <;> cases w2 <;> cases b1 <;> cases b2 <;> decide

/-- A character of a separator-join is the separator or comes from a
part. -/
theorem mem_intercalate {sep : Char} : ∀ (rs : List (List Char)) (c : Char),
    c ∈ List.intercalate [sep] rs → c = sep ∨ ∃ r ∈ rs, c ∈ r := by
  intro rs
  induction rs with
  | nil => intro c hc; simp [List.intercalate] at hc
  | cons r rest ih =>
    intro c hc
    cases rest with
    | nil =>
      rw [show List.intercalate [sep] [r] = r from by
        simp [List.intercalate]] at hc
      exact Or.inr ⟨r, by simp, hc⟩
    | cons r2 rest2 =>
      rw [intercalate_cons_of_ne_nil (by simp)] at hc
      rw [List.mem_append, List.mem_cons] at hc
      rcases hc with hc | hc | hc
      · exact Or.inr ⟨r, by simp, hc⟩
      · exact Or.inl hc
      · rcases ih c hc with hs | ⟨r3, hr3, hcr⟩
        · exact Or.inl hs
        · exact Or.inr ⟨r3, by simp [hr3], hcr⟩

/-- A well-formed board serializes to a nonempty placement field. -/
theorem boardToFenChars_ne_nil {b : Board} (hwf : WFBoard b) :
    ¬boardToFenChars b = [] := by
  rw [boardToFenChars_eq_rows hwf]
  cases b with
  | nil => exact absurd hwf.1 (by simp)
  | cons r rest =>
    have hrest : rest.length = 7 := by
      have := hwf.1
      simpa using this
    have hne : ¬rest = [] := by
      intro hx
      rw [hx] at hrest
      exact absurd hrest (by decide)
    rw [List.map_cons]
    rw [intercalate_cons_of_ne_nil (by simpa [List.map_eq_nil_iff] using hne)]
    simp

/-- The placement field contains no whitespace. -/
theorem boardToFenChars_ws {b : Board} (hwf : WFBoard b) :
    ∀ c ∈ boardToFenChars b, c.isWhitespace = false := by
  rw [boardToFenChars_eq_rows hwf]
  intro c hc
  rcases mem_intercalate _ c hc with rfl | ⟨part, hpart, hcr⟩
  · decide
  · rw [List.mem_map] at hpart
    obtain ⟨r0, _, rfl⟩ := hpart
    exact (rankToFenChars_chars r0 0 c hcr).2

/-- The six FEN fields of a state. -/
def fenFields (s : GameState) : List (List Char) :=
  [boardToFenChars s.board,
   if s.currentTurn = .white then ['w'] else ['b'],
   castlingChars s.castlingRights,
   (match s.enPassantTarget with
    | some ep => positionToSquareChars ep
    | none => ['-']),
   natDigits s.halfMoveClock,
   natDigits s.fullMoveNumber]

theorem gameStateToFenChars_eq (s : GameState) :
    gameStateToFenChars s = List.intercalate [' '] (fenFields s) := rfl

/-- Splitting a serialized state on whitespace recovers the six fields. -/
theorem wsSplit_gameStateToFenChars {s : GameState} (hwf : WFBoard s.board)
    (hep : ∀ ep, s.enPassantTarget = some ep → isValidPosition ep = true) :
    wsSplit (gameStateToFenChars s) = fenFields s := by
  rw [gameStateToFenChars_eq]
  apply wsSplit_intercalate _ (by simp [fenFields])
  intro f hf
  simp only [fenFields, List.mem_cons, List.not_mem_nil, or_false] at hf
  rcases hf with rfl | rfl | rfl | rfl | rfl | rfl
  · exact ⟨boardToFenChars_ne_nil hwf, boardToFenChars_ws hwf⟩
  · by_cases ht : s.currentTurn = .white
    · rw [if_pos ht]
      exact ⟨by decide, by decide⟩
    · rw [if_neg ht]
      exact ⟨by decide, by decide⟩
  · exact ⟨(castlingChars_facts s.castlingRights).2.1,
      (castlingChars_facts s.castlingRights).2.2⟩
  · cases hept : s.enPassantTarget with
    | none => exact ⟨by decide, by decide⟩
    | some ep =>
      obtain ⟨-, -, hne, hws⟩ := positionToSquare_facts (hep ep hept)
      exact ⟨hne, hws⟩
  · exact ⟨natDigits_ne_nil _, fun c hc =>
      (digitChars_facts c (natDigits_mem_digits _ c hc)).1⟩
  · exact ⟨natDigits_ne_nil _, fun c hc =>
      (digitChars_facts c (natDigits_mem_digits _ c hc)).1⟩

theorem updateGameStatus_castlingRights (gs : GameState) :
    (updateGameStatus gs).castlingRights = gs.castlingRights := rfl

theorem updateGameStatus_halfMoveClock (gs : GameState) :
    (updateGameStatus gs).halfMoveClock = gs.halfMoveClock := rfl

theorem updateGameStatus_fullMoveNumber (gs : GameState) :
    (updateGameStatus gs).fullMoveNumber = gs.fullMoveNumber := rfl

/-- Reading a clock field back, with either default. -/
theorem parseClockD (n d : Nat) :
    (match natDigits n with
     | [] => d
     | l => parseNatChars l 0) = n := by
  cases hd : natDigits n with
  | nil => exact absurd hd (natDigits_ne_nil n)
  | cons c cs =>
    show parseNatChars (c :: cs) 0 = n
    rw [← hd]
    exact parseNatChars_natDigits_zero n

/-- Parsing a serialized state succeeds with the written-back board and
the same turn, castling rights, en-passant target, and clocks. -/
theorem fenToGameStateChars_roundTrip {s : GameState} (hwf : WFBoard s.board)
    (hep : ∀ ep, s.enPassantTarget = some ep → isValidPosition ep = true) :
    fenToGameStateChars (gameStateToFenChars s) =
      .ok (updateGameStatus
        { board := viewedRows 0 s.board
          currentTurn := s.currentTurn
          castlingRights := s.castlingRights
          enPassantTarget := s.enPassantTarget
          halfMoveClock := s.halfMoveClock
          fullMoveNumber := s.fullMoveNumber
          moveHistory := []
          isCheck := false
          isCheckmate := false
          isStalemate := false }) := by
  unfold fenToGameStateChars
  dsimp only
  rw [wsSplit_gameStateToFenChars hwf hep]
  rw [if_neg (by simp [fenFields])]
  rw [show (fenFields s).getD 0 [] = boardToFenChars s.board from rfl]
  rw [fenToBoardChars_boardToFenChars hwf]
  dsimp only
  rw [show (fenFields s).getD 1 [] =
    (if s.currentTurn = .white then ['w'] else ['b']) from rfl]
  rw [show (fenFields s).getD 2 [] = castlingChars s.castlingRights from rfl]
  rw [show (fenFields s).getD 3 [] =
    (match s.enPassantTarget with
     | some ep => positionToSquareChars ep
     | none => ['-']) from rfl]
  rw [show (fenFields s).getD 4 [] = natDigits s.halfMoveClock from rfl]
  rw [show (fenFields s).getD 5 [] = natDigits s.fullMoveNumber from rfl]
  apply congrArg
  apply congrArg
  have hturn : (if (if s.currentTurn = .white then ['w'] else ['b']) = ['w']
      then Color.white else Color.black) = s.currentTurn := by
    by_cases ht : s.currentTurn = .white
    · rw [if_pos ht, ht]
      decide
    · rw [if_neg ht]
      rw [if_neg (by decide)]
      cases hc : s.currentTurn
      · exact absurd hc ht
      · rfl
  have hepf : (if (match s.enPassantTarget with
        | some ep => positionToSquareChars ep
        | none => ['-']) = ['-'] then none
      else some (squareToPositionChars
        (match s.enPassantTarget with
         | some ep => positionToSquareChars ep
         | none => ['-']))) = s.enPassantTarget := by
    cases hept : s.enPassantTarget with
    | none => rw [if_pos rfl]
    | some ep =>
      obtain ⟨hrt, hne, -, -⟩ := positionToSquare_facts (hep ep hept)
      rw [if_neg hne, hrt]
  simp only [GameState.mk.injEq]
  refine ⟨?_, hturn, (castlingChars_facts s.castlingRights).1, hepf,
    parseClockD _ 0, parseClockD _ 1, ?_, ?_, ?_, ?_⟩ <;> trivial

/-! ## States the engine itself produces -/

/-- The states reachable from the initial position by successful moves. -/
inductive Reachable : GameState → Prop where
  | init : Reachable initializeGameState
  | step {s : GameState} {f t : Position} {pr : Option PieceType}
      {s' : GameState} : Reachable s → makeMove s f t pr = .ok s' →
      Reachable s'

/-- Pawn moves stay on the board. -/
theorem getPawnMoves_valid {b : Board} {pos : Position} {pc : Piece}
    {t : Position} (h : t ∈ getPawnMoves b pos pc) :
    isValidPosition t = true := by
  unfold getPawnMoves at h
  dsimp only at h
  rw [List.mem_append] at h
  rcases h with h | h
  · by_cases hc : (isValidPosition
        ⟨pos.row + (if pc.color = .white then (-1 : Int) else 1), pos.col⟩ &&
      (getPieceAt b
        ⟨pos.row + (if pc.color = .white then (-1 : Int) else 1),
          pos.col⟩).isNone) = true
    · rw [if_pos hc] at h
      rw [List.mem_cons] at h
      rcases h with rfl | h
      · rw [Bool.and_eq_true] at hc
        exact hc.1
      · by_cases hs : (pos.row = (if pc.color = .white then (6 : Int) else 1) ∧
            ¬pc.hasMoved = true)
        · rw [if_pos hs] at h
          by_cases h2 : (isValidPosition
              ⟨pos.row + 2 * (if pc.color = .white then (-1 : Int) else 1),
                pos.col⟩ &&
            (getPieceAt b
              ⟨pos.row + 2 * (if pc.color = .white then (-1 : Int) else 1),
                pos.col⟩).isNone) = true
          · rw [if_pos h2] at h
            rw [List.mem_singleton] at h
            subst h
            rw [Bool.and_eq_true] at h2
            exact h2.1
          · rw [if_neg h2] at h
            exact absurd h (List.not_mem_nil _)
        · rw [if_neg hs] at h
          exact absurd h (List.not_mem_nil _)
    · rw [if_neg hc] at h
      exact absurd h (List.not_mem_nil _)
  · rw [List.mem_filter] at h
    have h2 := h.2
    rw [Bool.and_eq_true] at h2
    exact h2.1

/-- Every reachable state has an 8x8 board and an on-board en-passant
target. -/
theorem reachable_inv {s : GameState} (h : Reachable s) :
    WFBoard s.board ∧
      ∀ ep, s.enPassantTarget = some ep → isValidPosition ep = true := by
  induction h with
  | init =>
    refine ⟨by constructor <;> decide, ?_⟩
    intro ep hep
    exact absurd hep (by simp [initializeGameState])
  | @step s f t pr s' hprev hmk ih =>
    obtain ⟨hwf, hep⟩ := ih
    obtain ⟨hmem, pc, hpc, hbr⟩ := makeMove_ok_branches hmk
    rcases hbr with ⟨hk, hd, hc⟩ | ⟨-, -, hc⟩ | ⟨hnk, hnep, hb, hept⟩
    · obtain ⟨king, -, -, rook, -, -, hb, hept⟩ := makeCastlingMove_ok_inv hc
      refine ⟨?_, ?_⟩
      · rw [hb]
        exact WFBoard_setPiece (WFBoard_setPiece (WFBoard_setPiece
          (WFBoard_setPiece hwf _ _) _ _) _ _) _ _
      · intro ep hepx
        rw [hept] at hepx
        exact Option.noConfusion hepx
    · obtain ⟨pawn, -, -, cap, -, -, -, hb, hept⟩ := makeEnPassantMove_ok_inv hc
      refine ⟨?_, ?_⟩
      · rw [hb]
        exact WFBoard_setPiece (WFBoard_setPiece
          (WFBoard_setPiece hwf _ _) _ _) _ _
      · intro ep hepx
        rw [hept] at hepx
        exact Option.noConfusion hepx
    · refine ⟨?_, ?_⟩
      · rw [hb]
        unfold regularBoardAfter
        dsimp only
        by_cases hpr : (pc.type = .pawn ∧ (t.row = 0 ∨ t.row = 7))
        · rw [if_pos hpr]
          exact WFBoard_setPiece (WFBoard_setPiece
            (WFBoard_setPiece hwf _ _) _ _) _ _
        · rw [if_neg hpr]
          exact WFBoard_setPiece (WFBoard_setPiece hwf _ _) _ _
      · intro ep hepx
        rw [hept] at hepx
        by_cases hds : (pc.type = .pawn ∧ (t.row - f.row).natAbs = 2)
        · rw [if_pos hds] at hepx
          cases hepx
          have hf : isValidPosition f = true := valid_of_getPieceAt_some hpc
          have ht : isValidPosition t = true := by
            rcases mem_getValidMoves_cases hpc hmem with ⟨hm, -⟩ |
              ⟨hk2, -, -, -⟩ | ⟨-, hm, -⟩
            · unfold getPieceMoves at hm
              rw [hds.1] at hm
              exact getPawnMoves_valid hm
            · rw [hds.1] at hk2
              exact absurd hk2 (by decide)
            · exact hep t (getEnPassantMove_spec hm).1
          rw [isValidPosition_iff] at hf ht ⊢
          obtain ⟨a1, a2, a3, a4⟩ := hf
          obtain ⟨b1, b2, b3, b4⟩ := ht
          simp only
          omega
        · rw [if_neg hds] at hepx
          exact Option.noConfusion hepx

/-- C2: for every state the engine itself produces, parsing its FEN
succeeds with a state holding the same pieces on every square, the same
turn, castling rights, en-passant target, and clocks, and that state
serializes back to the byte-identical FEN string. -/
theorem C2_fen_round_trip {s : GameState} (h : Reachable s) :
    ∃ s2, fenToGameState (gameStateToFen s) = .ok s2 ∧
      boardView s2.board = boardView s.board ∧
      s2.currentTurn = s.currentTurn ∧
      s2.castlingRights = s.castlingRights ∧
      s2.enPassantTarget = s.enPassantTarget ∧
      s2.halfMoveClock = s.halfMoveClock ∧
      s2.fullMoveNumber = s.fullMoveNumber ∧
      gameStateToFen s2 = gameStateToFen s := by
  obtain ⟨hwf, hep⟩ := reachable_inv h
  have hrt := fenToGameStateChars_roundTrip hwf hep
  refine ⟨updateGameStatus
      { board := viewedRows 0 s.board
        currentTurn := s.currentTurn
        castlingRights := s.castlingRights
        enPassantTarget := s.enPassantTarget
        halfMoveClock := s.halfMoveClock
        fullMoveNumber := s.fullMoveNumber
        moveHistory := []
        isCheck := false
        isCheckmate := false
        isStalemate := false }, ?_, ?_, ?_, ?_, ?_, ?_, ?_, ?_⟩
  · show fenToGameState (gameStateToFen s) = _
    unfold fenToGameState gameStateToFen
    rw [show (String.mk (gameStateToFenChars s)).toList =
      gameStateToFenChars s from rfl]
    exact hrt
  · rw [updateGameStatus_board]
    exact boardView_viewedRows hwf
  · rw [updateGameStatus_currentTurn]
  · rw [updateGameStatus_castlingRights]
  · rw [updateGameStatus_enPassantTarget]
  · rw [updateGameStatus_halfMoveClock]
  · rw [updateGameStatus_fullMoveNumber]
  · unfold gameStateToFen
    apply congrArg
    rw [gameStateToFenChars_eq, gameStateToFenChars_eq]
    unfold fenFields
    rw [updateGameStatus_board, updateGameStatus_currentTurn,
      updateGameStatus_castlingRights, updateGameStatus_enPassantTarget,
      updateGameStatus_halfMoveClock, updateGameStatus_fullMoveNumber]
    rw [boardToFenChars_congr (WFBoard_viewedRows hwf) hwf
      (boardView_viewedRows hwf)]

/-- C2 witness: the starting position round-trips. -/
theorem C2_fen_round_trip_witness :
    ∃ s2, fenToGameState (gameStateToFen initializeGameState) = .ok s2 ∧
      boardView s2.board = boardView initializeGameState.board ∧
      s2.currentTurn = initializeGameState.currentTurn ∧
      s2.castlingRights = initializeGameState.castlingRights ∧
      s2.enPassantTarget = initializeGameState.enPassantTarget ∧
      s2.halfMoveClock = initializeGameState.halfMoveClock ∧
      s2.fullMoveNumber = initializeGameState.fullMoveNumber ∧
      gameStateToFen s2 = gameStateToFen initializeGameState :=
  C2_fen_round_trip Reachable.init

/-! ## Ray geometry of the sliding generators -/

theorem stepN_one (p d : Position) : stepN p d 1 = addPos p d := by
  unfold stepN addPos
  simp

theorem stepN_addPos (p d : Position) (j : Nat) :
    stepN (addPos p d) d j = stepN p d (j + 1) := by
  unfold stepN addPos
  simp only [Position.mk.injEq]
  push_cast
  constructor <;> ring

theorem stepN_stepN (p d : Position) (a k : Nat) :
    stepN (stepN p d a) d k = stepN p d (a + k) := by
  unfold stepN
  simp only [Position.mk.injEq]
  push_cast
  constructor <;> ring

theorem stepN_neg_cancel (p d : Position) (a : Nat) :
    stepN (stepN p d a) ⟨-d.row, -d.col⟩ a = p := by
  unfold stepN
  cases p
  simp only [Position.mk.injEq]
  constructor <;> ring

/-- Inversion of membership in the sliding-ray loop: the target is `i`
steps out, the strictly-between squares are empty and on the board, and
the target square is empty or holds an enemy piece. -/
theorem slideRay_mem_inv {b : Board} {c : Color} {d : Position} :
    ∀ {n : Nat} {p x : Position}, x ∈ slideRay b c p d n →
    ∃ i, 1 ≤ i ∧ i ≤ n ∧ x = stepN p d i ∧
      (∀ j, 1 ≤ j → j < i → getPieceAt b (stepN p d j) = none ∧
        isValidPosition (stepN p d j) = true) ∧
      isValidPosition x = true ∧
      (getPieceAt b x = none ∨
        ∃ tg, getPieceAt b x = some tg ∧ tg.color ≠ c) := by
  intro n
  induction n with
  | zero => intro p x h; exact absurd h (List.not_mem_nil _)
  | succ m ih =>
    intro p x h
    unfold slideRay at h
    dsimp only at h
    by_cases hv : isValidPosition (addPos p d) = true
    · rw [if_pos hv] at h
      cases hq : getPieceAt b (addPos p d) with
      | none =>
        rw [hq] at h
        rw [List.mem_cons] at h
        rcases h with rfl | h
        · refine ⟨1, le_refl _, by omega, (stepN_one p d).symm, ?_, hv, ?_⟩
          · intro j hj1 hj2
            omega
          · exact Or.inl hq
        · obtain ⟨i, hi1, him, hx, hbet, hxv, hxt⟩ := ih h
          refine ⟨i + 1, by omega, by omega, ?_, ?_, hxv, hxt⟩
          · rw [hx, stepN_addPos]
          · intro j hj1 hji
            by_cases hj : j = 1
            · subst hj
              rw [stepN_one]
              exact ⟨hq, hv⟩
            · have hj2 := hbet (j - 1) (by omega) (by omega)
              rw [stepN_addPos] at hj2
              rw [show j - 1 + 1 = j from by omega] at hj2
              exact hj2
      | some tg =>
        rw [hq] at h
        dsimp only at h
        by_cases htc : tg.color ≠ c
        · rw [if_pos htc] at h
          rw [List.mem_singleton] at h
          subst h
          refine ⟨1, le_refl _, by omega, (stepN_one p d).symm, ?_, hv, ?_⟩
          · intro j hj1 hj2
            omega
          · exact Or.inr ⟨tg, hq, htc⟩
        · rw [if_neg htc] at h
          exact absurd h (List.not_mem_nil _)
    · rw [if_neg hv] at h
      exact absurd h (List.not_mem_nil _)

/-- Completeness of the sliding-ray loop: a target `i ≤ n` steps out with
empty on-board between squares and an empty-or-enemy target square is
generated. -/
theorem mem_slideRay_of {b : Board} {c : Color} {d : Position} :
    ∀ (i : Nat) {p x : Position} {n : Nat}, 1 ≤ i → i ≤ n →
    x = stepN p d i →
    (∀ j, 1 ≤ j → j < i → getPieceAt b (stepN p d j) = none ∧
      isValidPosition (stepN p d j) = true) →
    isValidPosition x = true →
    (getPieceAt b x = none ∨
      ∃ tg, getPieceAt b x = some tg ∧ tg.color ≠ c) →
    x ∈ slideRay b c p d n := by
  intro i
  induction i using Nat.strong_induction_on with
  | _ i ih =>
    intro p x n hi1 hin hx hbet hxv hxt
    cases n with
    | zero => omega
    | succ m =>
      unfold slideRay
      dsimp only
      by_cases hione : i = 1
      · subst hione
        rw [stepN_one] at hx
        subst hx
        rw [if_pos hxv]
        rcases hxt with hnone | ⟨tg, htg, htc⟩
        · rw [hnone]
          exact List.mem_cons_self _ _
        · rw [htg]
          dsimp only
          rw [if_pos htc]
          exact List.mem_singleton.2 rfl
      · have h1 := hbet 1 (by omega) (by omega)
        rw [stepN_one] at h1
        rw [if_pos h1.2]
        rw [h1.1]
        refine List.mem_cons_of_mem _ ?_
        refine ih (i - 1) (by omega) (by omega) (by omega) ?_ ?_ hxv hxt
        · rw [hx, stepN_addPos]
          rw [show i - 1 + 1 = i from by omega]
        · intro j hj1 hji
          have hj2 := hbet (j + 1) (by omega) (by omega)
          rw [stepN_addPos]
          exact hj2


/-! ## Attacks transfer between boards that differ on non-attacker squares -/

/-- Knight attacks transfer to a board whose target square is not
friendly-occupied. -/
theorem getKnightMoves_transfer {b1 b2 : Board} {p x : Position} {pc : Piece}
    (hx : ∀ tg, getPieceAt b1 x = some tg → tg.color ≠ pc.color)
    (h : x ∈ getKnightMoves b2 p pc) : x ∈ getKnightMoves b1 p pc := by
  unfold getKnightMoves at h ⊢
  rw [List.mem_filter] at h ⊢
  refine ⟨h.1, ?_⟩
  have h2 := h.2
  rw [Bool.and_eq_true] at h2
  rw [Bool.and_eq_true]
  refine ⟨h2.1, ?_⟩
  cases htg : getPieceAt b1 x with
  | none => rfl
  | some tg =>
    dsimp only
    exact decide_eq_true (hx tg htg)

/-- King attacks transfer likewise. -/
theorem getKingMoves_transfer {b1 b2 : Board} {p x : Position} {pc : Piece}
    (hx : ∀ tg, getPieceAt b1 x = some tg → tg.color ≠ pc.color)
    (h : x ∈ getKingMoves b2 p pc) : x ∈ getKingMoves b1 p pc := by
  unfold getKingMoves at h ⊢
  rw [List.mem_filter] at h ⊢
  refine ⟨h.1, ?_⟩
  have h2 := h.2
  rw [Bool.and_eq_true] at h2
  rw [Bool.and_eq_true]
  refine ⟨h2.1, ?_⟩
  cases htg : getPieceAt b1 x with
  | none => rfl
  | some tg =>
    dsimp only
    exact decide_eq_true (hx tg htg)

/-- Pawn attacks transfer likewise. -/
theorem getPawnAttackMoves_transfer {b1 b2 : Board} {p x : Position}
    {pc : Piece}
    (hx : ∀ tg, getPieceAt b1 x = some tg → tg.color ≠ pc.color)
    (h : x ∈ getPawnAttackMoves b2 p pc) : x ∈ getPawnAttackMoves b1 p pc := by
  unfold getPawnAttackMoves at h ⊢
  dsimp only at h ⊢
  rw [List.mem_filter] at h ⊢
  refine ⟨h.1, ?_⟩
  have h2 := h.2
  rw [Bool.and_eq_true] at h2
  rw [Bool.and_eq_true]
  refine ⟨h2.1, ?_⟩
  cases htg : getPieceAt b1 x with
  | none => rfl
  | some tg =>
    dsimp only
    exact decide_eq_true (hx tg htg)

theorem rook_sub_queen : ROOK_DIRECTIONS ⊆ QUEEN_DIRECTIONS := fun a ha =>
  List.mem_append_left _ ha

theorem bishop_sub_queen : BISHOP_DIRECTIONS ⊆ QUEEN_DIRECTIONS := fun a ha =>
  List.mem_append_right _ ha

/-- Core transfer lemma: an attack on `x` in `b2` is an attack in `b1`,
unless some square empty in `b2` but occupied in `b1` blocks the ray; then
that square is itself attacked in `b1`, sits strictly between an on-board
attacker and `x` along a queen direction, and `x` lies strictly beyond it. -/
theorem isSquareUnderAttack_transfer {b1 b2 : Board} {opp : Color}
    {x : Position}
    (hatt : ∀ p pc, getPieceAt b2 p = some pc → pc.color = opp →
      getPieceAt b1 p = some pc)
    (hvac : ∀ q, isValidPosition q = true → getPieceAt b2 q = none →
      getPieceAt b1 q = none ∨
        ∃ pc, getPieceAt b1 q = some pc ∧ pc.color ≠ opp)
    (hx : ∀ tg, getPieceAt b1 x = some tg → tg.color ≠ opp)
    (h : isSquareUnderAttack b2 x opp = true) :
    isSquareUnderAttack b1 x opp = true ∨
      ∃ q d k m, d ∈ QUEEN_DIRECTIONS ∧ 1 ≤ k ∧ 1 ≤ m ∧
        isValidPosition q = true ∧ getPieceAt b2 q = none ∧
        (∃ pc, getPieceAt b1 q = some pc) ∧
        isSquareUnderAttack b1 q opp = true ∧
        x = stepN q d k ∧
        isValidPosition (stepN q ⟨-d.row, -d.col⟩ m) = true := by
  obtain ⟨p, pc, hpc2, hcol, hmem⟩ := isSquareUnderAttack_iff.1 h
  have hpc1 : getPieceAt b1 p = some pc := hatt p pc hpc2 hcol
  have hxc : ∀ tg, getPieceAt b1 x = some tg → tg.color ≠ pc.color := by
    intro tg htg
    rw [hcol]
    exact hx tg htg
  have slide : ∀ dirs : List Position, dirs ⊆ QUEEN_DIRECTIONS →
      x ∈ getSlidingMoves b2 p pc dirs →
      x ∈ getSlidingMoves b1 p pc dirs ∨
      ∃ q d k m, d ∈ QUEEN_DIRECTIONS ∧ 1 ≤ k ∧ 1 ≤ m ∧
        isValidPosition q = true ∧ getPieceAt b2 q = none ∧
        (∃ pc2, getPieceAt b1 q = some pc2) ∧
        q ∈ getSlidingMoves b1 p pc dirs ∧
        x = stepN q d k ∧
        isValidPosition (stepN q ⟨-d.row, -d.col⟩ m) = true := by
    intro dirs hsub hsl
    unfold getSlidingMoves at hsl ⊢
    rw [List.mem_flatMap] at hsl
    obtain ⟨d, hd, hray⟩ := hsl
    obtain ⟨i, hi1, hi7, hxi, hbet, hxv, hxt⟩ := slideRay_mem_inv hray
    by_cases hclean : ∀ j, 1 ≤ j → j < i → getPieceAt b1 (stepN p d j) = none
    · left
      rw [List.mem_flatMap]
      refine ⟨d, hd, ?_⟩
      refine mem_slideRay_of i hi1 hi7 hxi
        (fun j hj1 hj2 => ⟨hclean j hj1 hj2, (hbet j hj1 hj2).2⟩) hxv ?_
      cases htg : getPieceAt b1 x with
      | none => exact Or.inl rfl
      | some tg => exact Or.inr ⟨tg, rfl, hxc tg htg⟩
    · right
      push_neg at hclean
      obtain ⟨j0, hj01, hj0i, hj0ne⟩ := hclean
      have hex : ∃ j, 1 ≤ j ∧ j < i ∧
          ¬getPieceAt b1 (stepN p d j) = none :=
        ⟨j0, hj01, hj0i, hj0ne⟩
      have hj1 := (Nat.find_spec hex).1
      have hji := (Nat.find_spec hex).2.1
      have hjne := (Nat.find_spec hex).2.2
      have hjmin : ∀ j2, 1 ≤ j2 → j2 < Nat.find hex →
          getPieceAt b1 (stepN p d j2) = none := by
        intro j2 h21 h2lt
        by_contra hne
        exact absurd (Nat.find_min hex h2lt ⟨h21, by omega, hne⟩) (fun a => a)
      have hq2 := hbet (Nat.find hex) hj1 hji
      obtain ⟨pc2, hpc2q, hpc2c⟩ : ∃ pc2,
          getPieceAt b1 (stepN p d (Nat.find hex)) = some pc2 ∧
            pc2.color ≠ opp := by
        rcases hvac _ hq2.2 hq2.1 with hnone | hsome
        · exact absurd hnone hjne
        · exact hsome
      refine ⟨stepN p d (Nat.find hex), d, i - Nat.find hex, Nat.find hex,
        hsub hd, by omega, by omega, hq2.2, hq2.1, ⟨pc2, hpc2q⟩, ?_, ?_, ?_⟩
      · rw [List.mem_flatMap]
        refine ⟨d, hd, ?_⟩
        refine mem_slideRay_of (Nat.find hex) hj1 (by omega) rfl
          (fun j2 h21 h2lt => ⟨hjmin j2 h21 h2lt, (hbet j2 h21 (by omega)).2⟩)
          hq2.2 ?_
        exact Or.inr ⟨pc2, hpc2q, by rw [hcol]; exact hpc2c⟩
      · rw [stepN_stepN]
        rw [show Nat.find hex + (i - Nat.find hex) = i from by omega]
        exact hxi
      · rw [stepN_neg_cancel]
        exact valid_of_getPieceAt_some hpc2
  unfold getPieceAttackMoves at hmem
  have attack_of : ∀ gen : Board → Position → Piece → List Position,
      (∀ b', getPieceAttackMoves b' p pc = gen b' p pc) →
      ∀ y, y ∈ gen b1 p pc → isSquareUnderAttack b1 y opp = true := by
    intro gen hgen y hy
    rw [isSquareUnderAttack_iff]
    exact ⟨p, pc, hpc1, hcol, by rw [hgen b1]; exact hy⟩
  cases htype : pc.type with
  | pawn =>
    rw [htype] at hmem
    dsimp only at hmem
    left
    rw [isSquareUnderAttack_iff]
    refine ⟨p, pc, hpc1, hcol, ?_⟩
    unfold getPieceAttackMoves
    rw [htype]
    exact getPawnAttackMoves_transfer hxc hmem
  | knight =>
    rw [htype] at hmem
    dsimp only at hmem
    unfold getPieceMoves at hmem
    rw [htype] at hmem
    left
    rw [isSquareUnderAttack_iff]
    refine ⟨p, pc, hpc1, hcol, ?_⟩
    unfold getPieceAttackMoves getPieceMoves
    rw [htype]
    exact getKnightMoves_transfer hxc hmem
  | king =>
    rw [htype] at hmem
    dsimp only at hmem
    unfold getPieceMoves at hmem
    rw [htype] at hmem
    left
    rw [isSquareUnderAttack_iff]
    refine ⟨p, pc, hpc1, hcol, ?_⟩
    unfold getPieceAttackMoves getPieceMoves
    rw [htype]
    exact getKingMoves_transfer hxc hmem
  | rook =>
    rw [htype] at hmem
    dsimp only at hmem
    unfold getPieceMoves at hmem
    rw [htype] at hmem
    rcases slide ROOK_DIRECTIONS rook_sub_queen hmem with hin |
      ⟨q, d, k, m, c1, c2, c3, c4, c5, c6, c7, c8, c9⟩
    · left
      rw [isSquareUnderAttack_iff]
      refine ⟨p, pc, hpc1, hcol, ?_⟩
      unfold getPieceAttackMoves getPieceMoves
      rw [htype]
      exact hin
    · right
      refine ⟨q, d, k, m, c1, c2, c3, c4, c5, c6, ?_, c8, c9⟩
      rw [isSquareUnderAttack_iff]
      refine ⟨p, pc, hpc1, hcol, ?_⟩
      unfold getPieceAttackMoves getPieceMoves
      rw [htype]
      exact c7
  | bishop =>
    rw [htype] at hmem
    dsimp only at hmem
    unfold getPieceMoves at hmem
    rw [htype] at hmem
    rcases slide BISHOP_DIRECTIONS bishop_sub_queen hmem with hin |
      ⟨q, d, k, m, c1, c2, c3, c4, c5, c6, c7, c8, c9⟩
    · left
      rw [isSquareUnderAttack_iff]
      refine ⟨p, pc, hpc1, hcol, ?_⟩
      unfold getPieceAttackMoves getPieceMoves
      rw [htype]
      exact hin
    · right
      refine ⟨q, d, k, m, c1, c2, c3, c4, c5, c6, ?_, c8, c9⟩
      rw [isSquareUnderAttack_iff]
      refine ⟨p, pc, hpc1, hcol, ?_⟩
      unfold getPieceAttackMoves getPieceMoves
      rw [htype]
      exact c7
  | queen =>
    rw [htype] at hmem
    dsimp only at hmem
    unfold getPieceMoves at hmem
    rw [htype] at hmem
    rcases slide QUEEN_DIRECTIONS (fun a ha => ha) hmem with hin |
      ⟨q, d, k, m, c1, c2, c3, c4, c5, c6, c7, c8, c9⟩
    · left
      rw [isSquareUnderAttack_iff]
      refine ⟨p, pc, hpc1, hcol, ?_⟩
      unfold getPieceAttackMoves getPieceMoves
      rw [htype]
      exact hin
    · right
      refine ⟨q, d, k, m, c1, c2, c3, c4, c5, c6, ?_, c8, c9⟩
      rw [isSquareUnderAttack_iff]
      refine ⟨p, pc, hpc1, hcol, ?_⟩
      unfold getPieceAttackMoves getPieceMoves
      rw [htype]
      exact c7


/-! ## King-scan helpers and membership introduction -/

/-- The king scan only depends on where kings stand. -/
theorem findKingIn_congr {b1 b2 : Board} {c : Color} :
    ∀ l : List Position, (∀ p ∈ l, kingAt b1 c p = kingAt b2 c p) →
    findKingIn b1 c l = findKingIn b2 c l := by
  intro l
  induction l with
  | nil => intro _; rfl
  | cons p rest ih =>
    intro h
    unfold findKingIn
    rw [h p (List.mem_cons_self _ _)]
    by_cases hp : kingAt b2 c p = true
    · rw [if_pos hp, if_pos hp]
    · rw [if_neg hp, if_neg hp]
      exact ih fun q hq => h q (List.mem_cons_of_mem _ hq)

/-- With a unique king, the scan finds it. -/
theorem findKingIn_unique {b : Board} {c : Color} {t : Position} :
    ∀ l : List Position, t ∈ l → kingAt b c t = true →
    (∀ p ∈ l, kingAt b c p = true → p = t) →
    findKingIn b c l = some t := by
  intro l
  induction l with
  | nil => intro h; exact absurd h (List.not_mem_nil _)
  | cons p rest ih =>
    intro hmem ht huniq
    unfold findKingIn
    by_cases hp : kingAt b c p = true
    · rw [if_pos hp, huniq p (List.mem_cons_self _ _) hp]
    · rw [if_neg hp]
      have htp : ¬t = p := fun h => hp (h ▸ ht)
      rcases List.mem_cons.1 hmem with h | h
      · exact absurd h htp
      · exact ih h ht fun q hq hkq =>
          huniq q (List.mem_cons_of_mem _ hq) hkq

/-- No queen-direction line passes through a board corner with valid
squares strictly on both sides. -/
theorem corner_no_through {q d : Position} (hd : d ∈ QUEEN_DIRECTIONS)
    (hrow : q.row = 0 ∨ q.row = 7) (hcol : q.col = 0 ∨ q.col = 7)
    {k m : Nat} (hk : 1 ≤ k) (hm : 1 ≤ m)
    (h1 : isValidPosition (stepN q d k) = true)
    (h2 : isValidPosition (stepN q ⟨-d.row, -d.col⟩ m) = true) : False := by
  rw [isValidPosition_iff] at h1 h2
  unfold stepN at h1 h2
  simp only at h1 h2
  simp only [QUEEN_DIRECTIONS, ROOK_DIRECTIONS, BISHOP_DIRECTIONS,
    List.mem_append, List.mem_cons, List.not_mem_nil, or_false] at hd
  obtain ⟨a1, a2, a3, a4⟩ := h1
  obtain ⟨b1, b2, b3, b4⟩ := h2
  rcases hd with (rfl | rfl | rfl | rfl) | (rfl | rfl | rfl | rfl) <;>
    simp only at a1 a2 a3 a4 b1 b2 b3 b4 <;> omega

/-- A move offered for a piece implies it is that side to move. -/
theorem mem_getValidMoves_color {s : GameState} {f t : Position}
    (h : t ∈ getValidMoves s f) :
    ∃ pc, getPieceAt s.board f = some pc ∧ pc.color = s.currentTurn := by
  unfold getValidMoves at h
  cases hpc : getPieceAt s.board f with
  | none =>
    rw [hpc] at h
    exact absurd h (List.not_mem_nil _)
  | some pc =>
    rw [hpc] at h
    dsimp only at h
    by_cases hc : pc.color ≠ s.currentTurn
    · rw [if_pos hc] at h
      exact absurd h (List.not_mem_nil _)
    · exact ⟨pc, rfl, not_not.1 hc⟩

/-- A pawn move either keeps the file or lands on an occupied square. -/
theorem getPawnMoves_capture_or_forward {b : Board} {pos : Position}
    {pc : Piece} {t : Position} (h : t ∈ getPawnMoves b pos pc) :
    t.col = pos.col ∨ ∃ tg, getPieceAt b t = some tg := by
  unfold getPawnMoves at h
  dsimp only at h
  rw [List.mem_append] at h
  rcases h with h | h
  · by_cases hc : (isValidPosition
        ⟨pos.row + (if pc.color = .white then (-1 : Int) else 1), pos.col⟩ &&
      (getPieceAt b
        ⟨pos.row + (if pc.color = .white then (-1 : Int) else 1),
          pos.col⟩).isNone) = true
    · rw [if_pos hc] at h
      rw [List.mem_cons] at h
      rcases h with rfl | h
      · exact Or.inl rfl
      · by_cases hs : (pos.row = (if pc.color = .white then (6 : Int) else 1) ∧
            ¬pc.hasMoved = true)
        · rw [if_pos hs] at h
          by_cases h2 : (isValidPosition
              ⟨pos.row + 2 * (if pc.color = .white then (-1 : Int) else 1),
                pos.col⟩ &&
            (getPieceAt b
              ⟨pos.row + 2 * (if pc.color = .white then (-1 : Int) else 1),
                pos.col⟩).isNone) = true
          · rw [if_pos h2] at h
            rw [List.mem_singleton] at h
            subst h
            exact Or.inl rfl
          · rw [if_neg h2] at h
            exact absurd h (List.not_mem_nil _)
        · rw [if_neg hs] at h
          exact absurd h (List.not_mem_nil _)
    · rw [if_neg hc] at h
      exact absurd h (List.not_mem_nil _)
  · rw [List.mem_filter] at h
    have h2 := h.2
    rw [Bool.and_eq_true] at h2
    cases htg : getPieceAt b t with
    | none =>
      rw [htg] at h2
      exact absurd h2.2 (by simp)
    | some tg => exact Or.inr ⟨tg, rfl⟩

/-- Introduction rule: a castling destination that passes the king-safety
simulation is offered. -/
theorem mem_getValidMoves_of_castle {s : GameState} {f t : Position}
    {pc : Piece} (hpc : getPieceAt s.board f = some pc)
    (hcol : pc.color = s.currentTurn)
    (hk : pc.type = .king) (hm : pc.hasMoved = false)
    (hcm : t ∈ getCastlingMoves s f)
    (hsim : isInCheck (simBoard s.board pc f t) pc.color = false) :
    t ∈ getValidMoves s f := by
  unfold getValidMoves
  rw [hpc]
  dsimp only
  rw [if_neg (by simp [hcol])]
  simp only [copyBoard]
  rw [List.mem_append, List.mem_append]
  refine Or.inl (Or.inr ?_)
  rw [if_pos ⟨hk, by simp [hm]⟩]
  rw [List.mem_filter]
  exact ⟨hcm, by simp [hsim]⟩


/-! ## Claim C3 — castling legality -/

/-- On a board whose only king of the mover is on its home square, the
castling conditions already imply the king-safety simulation passes: any
attack on the landing square in the simulated board either existed
before (refuting the no-attack condition) or runs through the vacated
home square, whose occupant — the king — was then attacked (refuting the
no-check condition). -/
theorem castle_sim_safe {s : GameState} {pc : Piece} {t : Position}
    (hwf : WFBoard s.board)
    (hpc : getPieceAt s.board ⟨castleRow pc.color, 4⟩ = some pc)
    (hk : pc.type = .king)
    (huniq : ∀ p, kingAt s.board pc.color p = true →
      p = ⟨castleRow pc.color, 4⟩)
    (htv : isValidPosition t = true)
    (htf : ¬t = ⟨castleRow pc.color, 4⟩)
    (htempty : getPieceAt s.board t = none)
    (hnochk : isInCheck s.board pc.color = false)
    (hnoatt : isSquareUnderAttack s.board t (getOpponentColor pc.color) =
      false) :
    isInCheck (simBoard s.board pc ⟨castleRow pc.color, 4⟩ t) pc.color =
      false := by
  have hfv : isValidPosition (⟨castleRow pc.color, 4⟩ : Position) = true :=
    valid_of_getPieceAt_some hpc
  have hsimq : ∀ q,
      getPieceAt (simBoard s.board pc ⟨castleRow pc.color, 4⟩ t) q =
        if q = ⟨castleRow pc.color, 4⟩ then none
        else if q = t then some { pc with hasMoved := true }
        else getPieceAt s.board q := by
    intro q
    unfold simBoard
    rw [getPieceAt_setPiece (WFBoard_setPiece hwf _ _) hfv]
    by_cases h1 : q = (⟨castleRow pc.color, 4⟩ : Position)
    · rw [if_pos h1, if_pos h1]
    · rw [if_neg h1, if_neg h1]
      rw [getPieceAt_setPiece hwf htv]
  have hksim : kingAt (simBoard s.board pc ⟨castleRow pc.color, 4⟩ t)
      pc.color t = true := by
    unfold kingAt
    rw [hsimq t, if_neg htf, if_pos rfl]
    simp [hk]
  have huniqsim : ∀ p ∈ scanPositions,
      kingAt (simBoard s.board pc ⟨castleRow pc.color, 4⟩ t) pc.color p =
        true → p = t := by
    intro p _ hkp
    by_cases hpf : p = (⟨castleRow pc.color, 4⟩ : Position)
    · exfalso
      unfold kingAt at hkp
      rw [hsimq p, if_pos hpf] at hkp
      exact Bool.noConfusion hkp
    · by_cases hpt : p = t
      · exact hpt
      · exfalso
        unfold kingAt at hkp
        rw [hsimq p, if_neg hpf, if_neg hpt] at hkp
        have hkb : kingAt s.board pc.color p = true := by
          unfold kingAt
          exact hkp
        exact hpf (huniq p hkb)
  have hfind : findKingIn (simBoard s.board pc ⟨castleRow pc.color, 4⟩ t)
      pc.color scanPositions = some t :=
    findKingIn_unique _ (mem_scanPositions_iff.2 htv) hksim huniqsim
  unfold isInCheck
  rw [hfind]
  dsimp only
  cases hattv : isSquareUnderAttack
      (simBoard s.board pc ⟨castleRow pc.color, 4⟩ t) t
      (getOpponentColor pc.color) with
  | false => rfl
  | true =>
    exfalso
    have hatt2 : ∀ p2 pc2,
        getPieceAt (simBoard s.board pc ⟨castleRow pc.color, 4⟩ t) p2 =
          some pc2 → pc2.color = getOpponentColor pc.color →
        getPieceAt s.board p2 = some pc2 := by
      intro p2 pc2 hp2 hc2
      rw [hsimq p2] at hp2
      by_cases h1 : p2 = (⟨castleRow pc.color, 4⟩ : Position)
      · rw [if_pos h1] at hp2
        exact Option.noConfusion hp2
      · rw [if_neg h1] at hp2
        by_cases h2 : p2 = t
        · rw [if_pos h2] at hp2
          cases hp2
          exact absurd hc2.symm (getOpponentColor_ne pc.color)
        · rw [if_neg h2] at hp2
          exact hp2
    have hvac2 : ∀ q, isValidPosition q = true →
        getPieceAt (simBoard s.board pc ⟨castleRow pc.color, 4⟩ t) q =
          none →
        getPieceAt s.board q = none ∨
          ∃ pc2, getPieceAt s.board q = some pc2 ∧
            pc2.color ≠ getOpponentColor pc.color := by
      intro q _ hq
      rw [hsimq q] at hq
      by_cases h1 : q = (⟨castleRow pc.color, 4⟩ : Position)
      · subst h1
        exact Or.inr ⟨pc, hpc, ne_getOpponentColor pc.color⟩
      · rw [if_neg h1] at hq
        by_cases h2 : q = t
        · rw [if_pos h2] at hq
          exact Option.noConfusion hq
        · rw [if_neg h2] at hq
          exact Or.inl hq
    have hx2 : ∀ tg, getPieceAt s.board t = some tg →
        tg.color ≠ getOpponentColor pc.color := by
      intro tg htg
      rw [htempty] at htg
      exact Option.noConfusion htg
    rcases isSquareUnderAttack_transfer hatt2 hvac2 hx2 hattv with hcontra |
      ⟨q, d, k, m2, hdq, hk1, hm1, hqv, hq2, ⟨pc2, hpc2⟩, hqatt, hxq, hmv⟩
    · rw [hnoatt] at hcontra
      exact Bool.noConfusion hcontra
    · have hqf : q = (⟨castleRow pc.color, 4⟩ : Position) := by
        by_cases h1 : q = (⟨castleRow pc.color, 4⟩ : Position)
        · exact h1
        · exfalso
          rw [hsimq q, if_neg h1] at hq2
          by_cases h2 : q = t
          · rw [if_pos h2] at hq2
            exact Option.noConfusion hq2
          · rw [if_neg h2] at hq2
            rw [hq2] at hpc2
            exact Option.noConfusion hpc2
      subst hqf
      have hkb : kingAt s.board pc.color ⟨castleRow pc.color, 4⟩ = true := by
        unfold kingAt
        rw [hpc]
        simp [hk]
      have hfk : findKingIn s.board pc.color scanPositions =
          some ⟨castleRow pc.color, 4⟩ :=
        findKingIn_unique _ (mem_scanPositions_iff.2 hfv) hkb
          (fun p _ => huniq p)
      have hchk : isInCheck s.board pc.color = true := by
        unfold isInCheck
        rw [hfk]
        exact hqatt
      rw [hnochk] at hchk
      exact Bool.noConfusion hchk

/-- C3: for a state whose piece on the castling home square is an unmoved
king of the side to move — its only king — each castling destination is
offered exactly when the source-checked castling conditions hold: the
matching right, an unmoved own rook on the home corner, empty squares
strictly between, no current check, and no attack on the transit or
landing square. -/
theorem C3_castling_legality (s : GameState) (pc : Piece)
    (hwf : WFBoard s.board)
    (hpc : getPieceAt s.board ⟨castleRow pc.color, 4⟩ = some pc)
    (hk : pc.type = .king) (hm : pc.hasMoved = false)
    (hcol : pc.color = s.currentTurn)
    (huniq : ∀ p ∈ scanPositions, kingAt s.board pc.color p = true →
      p = ⟨castleRow pc.color, 4⟩) :
    ((⟨castleRow pc.color, 6⟩ : Position) ∈
        getValidMoves s ⟨castleRow pc.color, 4⟩ ↔
      kingsideCastleConds s pc.color) ∧
    ((⟨castleRow pc.color, 2⟩ : Position) ∈
        getValidMoves s ⟨castleRow pc.color, 4⟩ ↔
      queensideCastleConds s pc.color) := by
  have huniq2 : ∀ p, kingAt s.board pc.color p = true →
      p = ⟨castleRow pc.color, 4⟩ := by
    intro p hkp
    have hv : isValidPosition p = true := by
      unfold kingAt at hkp
      cases hq : getPieceAt s.board p with
      | none =>
        rw [hq] at hkp
        exact Bool.noConfusion hkp
      | some pc2 => exact valid_of_getPieceAt_some hq
    exact huniq p (mem_scanPositions_iff.2 hv) hkp
  have hback : ∀ t : Position, t ∈ getValidMoves s ⟨castleRow pc.color, 4⟩ →
      (t.col - (4 : Int)).natAbs = 2 →
      ((t = ⟨castleRow pc.color, 6⟩ ∧ kingsideCastleConds s pc.color) ∨
       (t = ⟨castleRow pc.color, 2⟩ ∧ queensideCastleConds s pc.color)) := by
    intro t hmemv hdist
    rcases mem_getValidMoves_cases hpc hmemv with ⟨hm1, -⟩ |
      ⟨-, -, hcast, -⟩ | ⟨hp3, -, -⟩
    · exfalso
      unfold getPieceMoves at hm1
      rw [hk] at hm1
      have hshape := (getKingMoves_shape hm1).2
      simp only at hshape hdist
      omega
    · obtain ⟨pc2, hpc2, -, -, hside⟩ := getCastlingMoves_spec.1 hcast
      rw [hpc] at hpc2
      cases hpc2
      exact hside
    · rw [hk] at hp3
      exact absurd hp3 (by decide)
  constructor
  · constructor
    · intro hmemv
      rcases hback _ hmemv (by simp) with ⟨-, hc⟩ | ⟨heq, -⟩
      · exact hc
      · exfalso
        rw [Position.mk.injEq] at heq
        omega
    · intro hconds
      have htv : isValidPosition (⟨castleRow pc.color, 6⟩ : Position) =
          true := by
        cases pc.color <;> decide
      refine mem_getValidMoves_of_castle hpc hcol hk hm
        (getCastlingMoves_spec.2 ⟨pc, hpc, hk, hm, Or.inl ⟨rfl, hconds⟩⟩) ?_
      exact castle_sim_safe hwf hpc hk huniq2 htv
        (by simp [Position.mk.injEq]) hconds.2.2.2.1 hconds.2.2.2.2.1
        hconds.2.2.2.2.2.2
  · constructor
    · intro hmemv
      rcases hback _ hmemv (by simp) with ⟨heq, -⟩ | ⟨-, hc⟩
      · exfalso
        rw [Position.mk.injEq] at heq
        omega
      · exact hc
    · intro hconds
      have htv : isValidPosition (⟨castleRow pc.color, 2⟩ : Position) =
          true := by
        cases pc.color <;> decide
      refine mem_getValidMoves_of_castle hpc hcol hk hm
        (getCastlingMoves_spec.2 ⟨pc, hpc, hk, hm, Or.inr ⟨rfl, hconds⟩⟩) ?_
      exact castle_sim_safe hwf hpc hk huniq2 htv
        (by simp [Position.mk.injEq]) hconds.2.2.2.1 hconds.2.2.2.2.2.1
        hconds.2.2.2.2.2.2.1


/-- A position with both castlings available for white: king e1 and rooks
a1, h1 unmoved, black king e8, nothing else. -/
def c3State : GameState where
  board :=
    [[none, none, none, none, some ⟨.king, .black, false⟩, none, none, none],
     [none, none, none, none, none, none, none, none],
     [none, none, none, none, none, none, none, none],
     [none, none, none, none, none, none, none, none],
     [none, none, none, none, none, none, none, none],
     [none, none, none, none, none, none, none, none],
     [none, none, none, none, none, none, none, none],
     [some ⟨.rook, .white, false⟩, none, none, none,
      some ⟨.king, .white, false⟩, none, none, some ⟨.rook, .white, false⟩]]
  currentTurn := .white
  castlingRights := ⟨true, true, true, true⟩
  enPassantTarget := none
  halfMoveClock := 0
  fullMoveNumber := 1
  moveHistory := []
  isCheck := false
  isCheckmate := false
  isStalemate := false

/-- The same position with a black rook on f8 attacking the kingside
transit square f1. -/
def c3StateBlocked : GameState where
  board :=
    [[none, none, none, none, some ⟨.king, .black, false⟩,
      some ⟨.rook, .black, true⟩, none, none],
     [none, none, none, none, none, none, none, none],
     [none, none, none, none, none, none, none, none],
     [none, none, none, none, none, none, none, none],
     [none, none, none, none, none, none, none, none],
     [none, none, none, none, none, none, none, none],
     [none, none, none, none, none, none, none, none],
     [some ⟨.rook, .white, false⟩, none, none, none,
      some ⟨.king, .white, false⟩, none, none, some ⟨.rook, .white, false⟩]]
  currentTurn := .white
  castlingRights := ⟨true, true, true, true⟩
  enPassantTarget := none
  halfMoveClock := 0
  fullMoveNumber := 1
  moveHistory := []
  isCheck := false
  isCheckmate := false
  isStalemate := false

/-- C3 witness: the characterisation at a concrete castling position, and
the spec scenario — a rook attacking the transit square removes the
kingside destination. -/
theorem C3_castling_legality_witness :
    (((⟨7, 6⟩ : Position) ∈ getValidMoves c3State ⟨7, 4⟩ ↔
        kingsideCastleConds c3State Color.white) ∧
      ((⟨7, 2⟩ : Position) ∈ getValidMoves c3State ⟨7, 4⟩ ↔
        queensideCastleConds c3State Color.white)) ∧
      (⟨7, 6⟩ : Position) ∉ getValidMoves c3StateBlocked ⟨7, 4⟩ :=
  ⟨C3_castling_legality c3State ⟨.king, .white, false⟩ ⟨by decide, by decide⟩
      (by decide) rfl rfl rfl (by decide),
   fun hmem =>
     absurd
       (((C3_castling_legality c3StateBlocked ⟨.king, .white, false⟩
            ⟨by decide, by decide⟩ (by decide) rfl rfl rfl (by decide)).1).mp
          hmem).2.2.2.2.2.1
       (by decide)⟩


/-! ## Claim C1 — legality soundness -/

/-- A board with the same kings, the same opposing pieces, and no newly
vacated square that a line could pass through stays out of check. -/
theorem isInCheck_safe_transfer {b1 b2 : Board} {c : Color}
    (hking : ∀ p ∈ scanPositions, kingAt b2 c p = kingAt b1 c p)
    (hatt : ∀ p pc, getPieceAt b2 p = some pc →
      pc.color = getOpponentColor c → getPieceAt b1 p = some pc)
    (hvac : ∀ q, isValidPosition q = true → getPieceAt b2 q = none →
      getPieceAt b1 q = none ∨
        ∃ pc, getPieceAt b1 q = some pc ∧ pc.color ≠ getOpponentColor c)
    (hesc : ∀ q d k m, d ∈ QUEEN_DIRECTIONS → 1 ≤ k → 1 ≤ m →
      isValidPosition q = true → getPieceAt b2 q = none →
      (∃ pc, getPieceAt b1 q = some pc) →
      isValidPosition (stepN q d k) = true →
      isValidPosition (stepN q ⟨-d.row, -d.col⟩ m) = true → False)
    (h1 : isInCheck b1 c = false) :
    isInCheck b2 c = false := by
  unfold isInCheck at h1 ⊢
  rw [findKingIn_congr scanPositions hking]
  cases hfk : findKingIn b1 c scanPositions with
  | none => rfl
  | some kp =>
    rw [hfk] at h1
    dsimp only at h1 ⊢
    have hkpv : isValidPosition kp = true :=
      mem_scanPositions_iff.1 (findKingIn_eq_some hfk).2
    cases hattv : isSquareUnderAttack b2 kp (getOpponentColor c) with
    | false => rfl
    | true =>
      exfalso
      have hx : ∀ tg, getPieceAt b1 kp = some tg →
          tg.color ≠ getOpponentColor c := by
        have hka := (findKingIn_eq_some hfk).1
        unfold kingAt at hka
        cases hq : getPieceAt b1 kp with
        | none =>
          rw [hq] at hka
          exact Bool.noConfusion hka
        | some pc2 =>
          rw [hq] at hka
          rw [decide_eq_true_eq] at hka
          intro tg htg
          cases htg
          rw [hka.2]
          exact ne_getOpponentColor c
      rcases isSquareUnderAttack_transfer hatt hvac hx hattv with hc1 |
        ⟨q, d, k, m, c1, c2, c3, c4, c5, c6, c7, c8, c9⟩
      · rw [h1] at hc1
        exact Bool.noConfusion hc1
      · refine hesc q d k m c1 c2 c3 c4 c5 c6 ?_ c9
        rw [← c8]
        exact hkpv


/-- Completing a castle (moving the rook from its corner to the transit
square) keeps a king that was safe in the king-only simulation safe: the
rook's arrival only blocks lines, and a line through the vacated corner
would need squares beyond the board edge. -/
theorem castle_after_safe {b : Board} {pc rook : Piece} {f t A B : Position}
    (hwf : WFBoard b)
    (hfv : isValidPosition f = true) (htv : isValidPosition t = true)
    (hAv : isValidPosition A = true) (hBv : isValidPosition B = true)
    (hAf : ¬A = f) (hAt : ¬A = t) (hBf : ¬B = f) (hBt : ¬B = t)
    (hArook : getPieceAt b A = some rook) (hrookT : rook.type = .rook)
    (hrookC : rook.color = pc.color)
    (hBempty : getPieceAt b B = none)
    (hAcorner : (A.row = 0 ∨ A.row = 7) ∧ (A.col = 0 ∨ A.col = 7))
    (hsim : isInCheck (simBoard b pc f t) pc.color = false) :
    isInCheck
      (setPiece (setPiece (simBoard b pc f t) B
        (some { rook with hasMoved := true })) A none) pc.color = false := by
  have hWFsim : WFBoard (simBoard b pc f t) :=
    WFBoard_setPiece (WFBoard_setPiece hwf _ _) _ _
  have hsimq : ∀ q, getPieceAt (simBoard b pc f t) q =
      if q = f then none
      else if q = t then some { pc with hasMoved := true }
      else getPieceAt b q := by
    intro q
    unfold simBoard
    rw [getPieceAt_setPiece (WFBoard_setPiece hwf _ _) hfv]
    by_cases h1 : q = f
    · rw [if_pos h1, if_pos h1]
    · rw [if_neg h1, if_neg h1, getPieceAt_setPiece hwf htv]
  have hafterq : ∀ q, getPieceAt
      (setPiece (setPiece (simBoard b pc f t) B
        (some { rook with hasMoved := true })) A none) q =
      if q = A then none
      else if q = B then some { rook with hasMoved := true }
      else getPieceAt (simBoard b pc f t) q := by
    intro q
    rw [getPieceAt_setPiece (WFBoard_setPiece hWFsim _ _) hAv]
    by_cases h1 : q = A
    · rw [if_pos h1, if_pos h1]
    · rw [if_neg h1, if_neg h1, getPieceAt_setPiece hWFsim hBv]
  have hsimA : getPieceAt (simBoard b pc f t) A = some rook := by
    rw [hsimq, if_neg hAf, if_neg hAt]
    exact hArook
  have hsimB : getPieceAt (simBoard b pc f t) B = none := by
    rw [hsimq, if_neg hBf, if_neg hBt]
    exact hBempty
  refine isInCheck_safe_transfer ?_ ?_ ?_ ?_ hsim
  · intro p _
    unfold kingAt
    rw [hafterq p]
    by_cases h1 : p = A
    · rw [if_pos h1, h1, hsimA]
      simp [hrookT]
    · rw [if_neg h1]
      by_cases h2 : p = B
      · rw [if_pos h2, h2, hsimB]
        simp [hrookT]
      · rw [if_neg h2]
  · intro p pc2 hp2 hc2
    rw [hafterq p] at hp2
    by_cases h1 : p = A
    · rw [if_pos h1] at hp2
      exact Option.noConfusion hp2
    · rw [if_neg h1] at hp2
      by_cases h2 : p = B
      · rw [if_pos h2] at hp2
        cases hp2
        exfalso
        rw [show ({ rook with hasMoved := true } : Piece).color = rook.color
          from rfl, hrookC] at hc2
        exact (getOpponentColor_ne pc.color) hc2.symm
      · rw [if_neg h2] at hp2
        exact hp2
  · intro q _ hq
    rw [hafterq q] at hq
    by_cases h1 : q = A
    · subst h1
      refine Or.inr ⟨rook, hsimA, ?_⟩
      rw [hrookC]
      exact ne_getOpponentColor pc.color
    · rw [if_neg h1] at hq
      by_cases h2 : q = B
      · rw [if_pos h2] at hq
        exact Option.noConfusion hq
      · rw [if_neg h2] at hq
        exact Or.inl hq
  · intro q d k m hd hk1 hm1 hqv hqafter hsome hvk hvm
    obtain ⟨pc2, hpc2sim⟩ := hsome
    have hqA : q = A := by
      by_cases h1 : q = A
      · exact h1
      · exfalso
        rw [hafterq q, if_neg h1] at hqafter
        by_cases h2 : q = B
        · rw [if_pos h2] at hqafter
          exact Option.noConfusion hqafter
        · rw [if_neg h2] at hqafter
          rw [hqafter] at hpc2sim
          exact Option.noConfusion hpc2sim
    subst hqA
    exact corner_no_through hd hAcorner.1 hAcorner.2 hk1 hm1 hvk hvm

/-- C1, corrected.  On a well-formed board whose en-passant target square
is empty, and for a promotion choice other than a king, every successful
`makeMove` leaves the mover out of check.  (The counterexample shows both
side conditions are needed.) -/
theorem C1_legality_soundness {s : GameState} {f t : Position}
    {pr : Option PieceType} {s2 : GameState}
    (hwf : WFBoard s.board)
    (hepE : ∀ ep, s.enPassantTarget = some ep → getPieceAt s.board ep = none)
    (hpr : ¬pr = some .king)
    (hmk : makeMove s f t pr = .ok s2) :
    isInCheck s2.board s.currentTurn = false := by
  obtain ⟨hmem, pc, hpc, hbr⟩ := makeMove_ok_branches hmk
  obtain ⟨pc2, hpc2, hcol⟩ := mem_getValidMoves_color hmem
  rw [hpc] at hpc2
  cases hpc2
  rw [← hcol]
  have hfv : isValidPosition f = true := valid_of_getPieceAt_some hpc
  rcases hbr with ⟨hk, hd, hcm⟩ | ⟨hnotk, hepd, hcm⟩ | ⟨hnotk, hnep, hb, hept⟩
  · -- castling execution
    obtain ⟨king, hkg, hkt, rook, hrk, hrt, hbbrd, -⟩ :=
      makeCastlingMove_ok_inv hcm
    rw [hpc] at hkg
    cases hkg
    rcases mem_getValidMoves_cases hpc hmem with ⟨hm1, -⟩ |
      ⟨-, -, hcast, hsim⟩ | ⟨hp3, -, -⟩
    · exfalso
      unfold getPieceMoves at hm1
      rw [hk] at hm1
      have hshape := (getKingMoves_shape hm1).2
      omega
    · obtain ⟨pc3, hpc3, -, -, hside⟩ := getCastlingMoves_spec.1 hcast
      rw [hpc] at hpc3
      cases hpc3
      have hrow07 : castleRow pc.color = 0 ∨ castleRow pc.color = 7 := by
        unfold castleRow
        by_cases hcw : pc.color = .white
        · rw [if_pos hcw]
          exact Or.inr rfl
        · rw [if_neg hcw]
          exact Or.inl rfl
      rcases hside with ⟨heq, hconds⟩ | ⟨heq, hconds⟩
      · -- kingside
        subst heq
        rw [show castleRookFrom pc.color ⟨castleRow pc.color, 6⟩ =
          ⟨castleRow pc.color, 7⟩ from rfl] at hrk
        obtain ⟨rook0, hrk0, -, hc0, -⟩ := hconds.2.1
        rw [hrk0] at hrk
        cases hrk
        rw [hbbrd]
        rw [show castleRookFrom pc.color ⟨castleRow pc.color, 6⟩ =
          ⟨castleRow pc.color, 7⟩ from rfl,
          show castleRookTo pc.color ⟨castleRow pc.color, 6⟩ =
          ⟨castleRow pc.color, 5⟩ from rfl]
        refine castle_after_safe hwf hfv ?_ ?_ ?_ ?_ ?_ ?_ ?_ hrk0 hrt hc0
          hconds.2.2.1 ⟨hrow07, Or.inr rfl⟩ hsim
        · rcases hrow07 with hr0 | hr0 <;> rw [hr0] <;> decide
        · rcases hrow07 with hr0 | hr0 <;> rw [hr0] <;> decide
        · rcases hrow07 with hr0 | hr0 <;> rw [hr0] <;> decide
        · intro he
          rw [← he] at hpc
          rw [hrk0] at hpc
          cases hpc
          rw [hk] at hrt
          exact PieceType.noConfusion hrt
        · intro he
          rw [Position.mk.injEq] at he
          omega
        · intro he
          rw [← he] at hpc
          rw [hconds.2.2.1] at hpc
          exact Option.noConfusion hpc
        · intro he
          rw [Position.mk.injEq] at he
          omega
      · -- queenside
        subst heq
        rw [show castleRookFrom pc.color ⟨castleRow pc.color, 2⟩ =
          ⟨castleRow pc.color, 0⟩ from rfl] at hrk
        obtain ⟨rook0, hrk0, -, hc0, -⟩ := hconds.2.1
        rw [hrk0] at hrk
        cases hrk
        rw [hbbrd]
        rw [show castleRookFrom pc.color ⟨castleRow pc.color, 2⟩ =
          ⟨castleRow pc.color, 0⟩ from rfl,
          show castleRookTo pc.color ⟨castleRow pc.color, 2⟩ =
          ⟨castleRow pc.color, 3⟩ from rfl]
        refine castle_after_safe hwf hfv ?_ ?_ ?_ ?_ ?_ ?_ ?_ hrk0 hrt hc0
          hconds.2.2.2.2.1 ⟨hrow07, Or.inl rfl⟩ hsim
        · rcases hrow07 with hr0 | hr0 <;> rw [hr0] <;> decide
        · rcases hrow07 with hr0 | hr0 <;> rw [hr0] <;> decide
        · rcases hrow07 with hr0 | hr0 <;> rw [hr0] <;> decide
        · intro he
          rw [← he] at hpc
          rw [hrk0] at hpc
          cases hpc
          rw [hk] at hrt
          exact PieceType.noConfusion hrt
        · intro he
          rw [Position.mk.injEq] at he
          omega
        · intro he
          rw [← he] at hpc
          rw [hconds.2.2.2.2.1] at hpc
          exact Option.noConfusion hpc
        · intro he
          rw [Position.mk.injEq] at he
          omega
    · exfalso
      rw [hk] at hp3
      exact PieceType.noConfusion hp3
  · -- en-passant execution
    obtain ⟨pawn, hpg, hpt, cap, hcg, hct, hcc, hbbrd, -⟩ :=
      makeEnPassantMove_ok_inv hcm
    rw [hpc] at hpg
    cases hpg
    rcases mem_getValidMoves_cases hpc hmem with ⟨hm1, -⟩ |
      ⟨hk2, -, -, -⟩ | ⟨-, -, hsim⟩
    · exfalso
      obtain ⟨hptype, ep, hepT, hrow, hcolq, cp, hcp, hcpt, hcpc⟩ := hepd
      have hteq : t = ep := by
        cases t
        cases ep
        simp only at hrow hcolq
        rw [hrow, hcolq]
      have hte : getPieceAt s.board t = none := by
        rw [hteq]
        exact hepE ep hepT
      unfold getPieceMoves at hm1
      rw [hptype] at hm1
      rcases getPawnMoves_capture_or_forward hm1 with hcoleq | ⟨tg, htg⟩
      · have hfp : (⟨f.row, ep.col⟩ : Position) = f := by
          cases f
          simp only at hcoleq hcolq ⊢
          rw [← hcolq, hcoleq]
        rw [hfp, hpc] at hcp
        cases hcp
        exact hcpc rfl
      · rw [hte] at htg
        exact Option.noConfusion htg
    · exfalso
      rw [hepd.1] at hk2
      exact PieceType.noConfusion hk2
    · rw [hbbrd]
      exact hsim
  · -- regular execution
    rcases mem_getValidMoves_cases hpc hmem with ⟨hm1, hsim⟩ |
      ⟨hk2, -, -, hsim⟩ | ⟨hpawn, hepm, -⟩
    · rw [hb]
      unfold regularBoardAfter
      dsimp only
      by_cases hpromo : (pc.type = .pawn ∧ (t.row = 0 ∨ t.row = 7))
      · rw [if_pos hpromo]
        rw [show setPiece (setPiece s.board t
            (some { pc with hasMoved := true })) f none =
          simBoard s.board pc f t from rfl]
        have hm12 : t ∈ getPawnMoves s.board f pc := by
          unfold getPieceMoves at hm1
          rw [hpromo.1] at hm1
          exact hm1
        have htv : isValidPosition t = true := getPawnMoves_valid hm12
        have htnef : ¬t = f := by
          intro he
          subst he
          rcases getPawnMoves_shape hm12 with ⟨-, hr⟩ | ⟨hr, -⟩
          · by_cases hcw : pc.color = .white
            · rw [if_pos hcw] at hr
              rcases hr with hr | hr <;> omega
            · rw [if_neg hcw] at hr
              rcases hr with hr | hr <;> omega
          · by_cases hcw : pc.color = .white
            · rw [if_pos hcw] at hr
              omega
            · rw [if_neg hcw] at hr
              omega
        have hWFsim : WFBoard (simBoard s.board pc f t) :=
          WFBoard_setPiece (WFBoard_setPiece hwf _ _) _ _
        have hsimq : ∀ q, getPieceAt (simBoard s.board pc f t) q =
            if q = f then none
            else if q = t then some { pc with hasMoved := true }
            else getPieceAt s.board q := by
          intro q
          unfold simBoard
          rw [getPieceAt_setPiece (WFBoard_setPiece hwf _ _) hfv]
          by_cases h1 : q = f
          · rw [if_pos h1, if_pos h1]
          · rw [if_neg h1, if_neg h1, getPieceAt_setPiece hwf htv]
        have hafterq : ∀ q, getPieceAt
            (setPiece (simBoard s.board pc f t) t
              (some ⟨pr.getD .queen, pc.color, true⟩)) q =
            if q = t then some ⟨pr.getD .queen, pc.color, true⟩
            else getPieceAt (simBoard s.board pc f t) q := by
          intro q
          rw [getPieceAt_setPiece hWFsim htv]
        have hsimt : getPieceAt (simBoard s.board pc f t) t =
            some { pc with hasMoved := true } := by
          rw [hsimq, if_neg htnef, if_pos rfl]
        have hprk : ¬pr.getD .queen = .king := by
          cases hpv : pr with
          | none => exact fun hc => PieceType.noConfusion hc
          | some ty =>
            intro hc
            rw [Option.getD_some] at hc
            rw [hpv, hc] at hpr
            exact hpr rfl
        refine isInCheck_safe_transfer ?_ ?_ ?_ ?_ hsim
        · intro p _
          unfold kingAt
          rw [hafterq p]
          by_cases h1 : p = t
          · rw [if_pos h1, h1, hsimt]
            simp [hprk, hpromo.1]
          · rw [if_neg h1]
        · intro p pc3 hp3 hc3
          rw [hafterq p] at hp3
          by_cases h1 : p = t
          · rw [if_pos h1] at hp3
            cases hp3
            exfalso
            exact (getOpponentColor_ne pc.color) hc3.symm
          · rw [if_neg h1] at hp3
            exact hp3
        · intro q _ hq
          rw [hafterq q] at hq
          by_cases h1 : q = t
          · rw [if_pos h1] at hq
            exact Option.noConfusion hq
          · rw [if_neg h1] at hq
            exact Or.inl hq
        · intro q d k m hd hk1 hm1q hqv hqafter hsome hvk hvm
          obtain ⟨pc3, hpc3sim⟩ := hsome
          rw [hafterq q] at hqafter
          by_cases h1 : q = t
          · rw [if_pos h1] at hqafter
            exact Option.noConfusion hqafter
          · rw [if_neg h1] at hqafter
            rw [hqafter] at hpc3sim
            exact Option.noConfusion hpc3sim
      · rw [if_neg hpromo]
        exact hsim
    · rw [hb]
      unfold regularBoardAfter
      dsimp only
      rw [if_neg (fun hc => by
        rw [hk2] at hc
        exact PieceType.noConfusion hc.1)]
      exact hsim
    · exfalso
      obtain ⟨hepT, pc4, hpc4, hpt4, hrow4, hcol4, cp4, hcp4, hct4, hcc4⟩ :=
        getEnPassantMove_spec hepm
      rw [hpc] at hpc4
      cases hpc4
      exact hnep ⟨hpt4, t, hepT, rfl, rfl, cp4, hcp4, hct4, hcc4⟩


/-- Play a move from a FEN position and report whether it leaves the
mover in check (`none` if the FEN, the move offer, or the move fails). -/
def moveLeavesCheck (fen : String) (f t : Position)
    (pr : Option PieceType) : Option Bool :=
  (fenToGameState fen).toOption.bind fun s =>
    if t ∈ getValidMoves s f then
      match makeMove s f t pr with
      | .ok s2 => some (isInCheck s2.board s.currentTurn)
      | .error _ => none
    else none

/-- C1 counterexample: two moves offered by `getValidMoves` whose
execution leaves the mover in check.  First, with the en-passant target
square occupied (by a knight on d6), the pawn capture e5xd6 is generated
and vetted as a regular capture but executed as an en-passant capture,
removing the d5 pawn and exposing the a5 king to the h5 rook.  Second,
promoting with `promotion = king` creates a second king that the check
scan finds first, standing in an h8 rook's line. -/
theorem C1_counterexample :
    moveLeavesCheck "8/8/3n4/K2pP2r/8/8/8/8 w - d6 0 1"
        ⟨3, 4⟩ ⟨2, 3⟩ none = some true ∧
      moveLeavesCheck "7r/P7/8/8/8/8/8/4K3 w - - 0 1"
        ⟨1, 0⟩ ⟨0, 0⟩ (some .king) = some true := by
  constructor
  · decide
  · decide

/-- C1 witness: a plain pawn double step from a concrete position leaves
the mover out of check. -/
theorem C1_legality_soundness_witness :
    ∃ s2, makeMove c5State ⟨6, 4⟩ ⟨4, 4⟩ none = .ok s2 ∧
      isInCheck s2.board c5State.currentTurn = false := by
  obtain ⟨s2, hs2⟩ := @except_ok_of_isOk String GameState
    (makeMove c5State ⟨6, 4⟩ ⟨4, 4⟩ none) (by decide)
  refine ⟨s2, hs2, ?_⟩
  exact C1_legality_soundness ⟨by decide, by decide⟩
    (fun ep hep => Option.noConfusion hep) (by decide) hs2

end Chess
